import Mathlib

/-!
# Rigid transforms, rotation quaternions and the 3x3 diagonalizer of `geometric.hpp`

A shallow embedding of the math kernel in `src/geometric.hpp`.  Scalars of the
C++ code (`float`, `double`, the template parameter `T`) are read as elements
of an ordered field `K`.  `std::sqrt` is passed to the definitions as a
function `sqrt : K → K`; the theorems in exact arithmetic assume that it is a
square root on the non-negative elements (`IsSqrt`), which `Real.sqrt`
satisfies.  `std::sin`, `std::cos` and `std::acos` are passed in the same way.

Where the rounding of `float` decides what the code returns (the sum in
`Box::contains`, the sums of `UCoord::resolve`, the dot product handed to
`std::acos` in `make_rotation_quat_between_vectors`), the definition takes the
rounding as a function `rnd : K → K`: `roundF32`, round-to-nearest-even to 24
significant bits over the rationals, for `float`, and `id` for exact
arithmetic.  `sqrtF32` is the correctly rounded `float` square root.

The header `linear_algebra.hpp` (vectors, matrices, the quaternion helpers
`qmul`, `qconj`, `qinv`, `qxdir`, `qydir`, `qzdir`, `qmat`, `qrot`, `normalize`)
is included by `geometric.hpp` but is not among the source files.  Those
helpers are modelled here and marked as such.

The integer code of `src/algo_misc.hpp` is embedded as well: the index
arithmetic of `VoxelArray` in 32-bit two's-complement `int` (`wrapInt32`),
and `make_euclidean_pattern` over the integers with truncating division, its
`while (true)` loop carrying a step budget.
-/

namespace math

/-! ## Vectors and matrices (`linear_algebra.hpp`) -/

/-- Modelled from the spec: `vec<T,3>` of the absent `linear_algebra.hpp`,
an `(x, y, z)` triple of scalars with componentwise equality. -/
@[ext] structure Vec3 (K : Type) where
  x : K
  y : K
  z : K
  deriving DecidableEq, Repr

/-- Modelled from the spec: `vec<T,4>` of the absent `linear_algebra.hpp`;
quaternions are 4-vectors `(x, y, z, w)`. -/
@[ext] structure Vec4 (K : Type) where
  x : K
  y : K
  z : K
  w : K
  deriving DecidableEq, Repr

/-- Modelled from the spec: `mat<T,3,3>` of the absent `linear_algebra.hpp`,
stored as the three columns `x`, `y`, `z`. -/
@[ext] structure Mat3 (K : Type) where
  x : Vec3 K
  y : Vec3 K
  z : Vec3 K
  deriving DecidableEq, Repr

/-- Modelled from the spec: `mat<T,4,4>` of the absent `linear_algebra.hpp`,
stored as the four columns `x`, `y`, `z`, `w`. -/
@[ext] structure Mat4 (K : Type) where
  x : Vec4 K
  y : Vec4 K
  z : Vec4 K
  w : Vec4 K
  deriving DecidableEq, Repr

section Algebra

variable {K : Type} [Field K]

namespace Vec3

/-- Modelled from the spec: componentwise `a + b` on `vec<T,3>`. -/
def add (a b : Vec3 K) : Vec3 K := ⟨a.x + b.x, a.y + b.y, a.z + b.z⟩

/-- Modelled from the spec: componentwise `a - b` on `vec<T,3>`. -/
def sub (a b : Vec3 K) : Vec3 K := ⟨a.x - b.x, a.y - b.y, a.z - b.z⟩

/-- Modelled from the spec: componentwise `-a` on `vec<T,3>`. -/
def neg (a : Vec3 K) : Vec3 K := ⟨-a.x, -a.y, -a.z⟩

/-- Modelled from the spec: `a * s`, a vector scaled by a scalar. -/
def smul (a : Vec3 K) (s : K) : Vec3 K := ⟨a.x * s, a.y * s, a.z * s⟩

/-- Modelled from the spec: `a / s`, a vector divided by a scalar. -/
def sdiv (a : Vec3 K) (s : K) : Vec3 K := ⟨a.x / s, a.y / s, a.z / s⟩

/-- Modelled from the spec: `v[i]` on `vec<T,3>` (indices 0, 1, 2). -/
def get (v : Vec3 K) : Nat → K
  | 0 => v.x
  | 1 => v.y
  | _ => v.z

instance : Add (Vec3 K) := ⟨add⟩
instance : Sub (Vec3 K) := ⟨sub⟩
instance : Neg (Vec3 K) := ⟨neg⟩

end Vec3

namespace Vec4

/-- Modelled from the spec: componentwise `a + b` on `vec<T,4>`. -/
def add (a b : Vec4 K) : Vec4 K := ⟨a.x + b.x, a.y + b.y, a.z + b.z, a.w + b.w⟩

/-- Modelled from the spec: `a * s`, a 4-vector scaled by a scalar. -/
def smul (a : Vec4 K) (s : K) : Vec4 K := ⟨a.x * s, a.y * s, a.z * s, a.w * s⟩

/-- Modelled from the spec: `a / s`, a 4-vector divided by a scalar. -/
def sdiv (a : Vec4 K) (s : K) : Vec4 K := ⟨a.x / s, a.y / s, a.z / s, a.w / s⟩

/-- Modelled from the spec: `v.xyz()`, the first three components. -/
def xyz (a : Vec4 K) : Vec3 K := ⟨a.x, a.y, a.z⟩

/-- Modelled from the spec: the constructor `vec<T,4>(xyz, w)`. -/
def ofVec3 (v : Vec3 K) (w : K) : Vec4 K := ⟨v.x, v.y, v.z, w⟩

/-- Modelled from the spec: `length2(a) = dot(a, a)`, the squared length. -/
def length2 (a : Vec4 K) : K := a.x * a.x + a.y * a.y + a.z * a.z + a.w * a.w

/-- Modelled from the spec: `v[i]` on `vec<T,4>` (indices 0, 1, 2, 3). -/
def get (v : Vec4 K) : Nat → K
  | 0 => v.x
  | 1 => v.y
  | 2 => v.z
  | _ => v.w

/-- Modelled from the spec: the assignment `v[i] = a` on `vec<T,4>`. -/
def set (v : Vec4 K) (i : Nat) (a : K) : Vec4 K :=
  match i with
  | 0 => ⟨a, v.y, v.z, v.w⟩
  | 1 => ⟨v.x, a, v.z, v.w⟩
  | 2 => ⟨v.x, v.y, a, v.w⟩
  | _ => ⟨v.x, v.y, v.z, a⟩

/-- Modelled from the spec: `normalize(a) = a / length(a)` with
`length(a) = sqrt(length2(a))`. -/
def normalize (sqrt : K → K) (a : Vec4 K) : Vec4 K := sdiv a (sqrt (length2 a))

instance : Add (Vec4 K) := ⟨add⟩

end Vec4

namespace Mat3

/-- Modelled from the spec: `m(i, j)`, the entry in row `i` of column `j`. -/
def entry (m : Mat3 K) (i j : Nat) : K :=
  match j with
  | 0 => m.x.get i
  | 1 => m.y.get i
  | _ => m.z.get i

/-- Modelled from the spec: `mul(m, v) = m.x*v.x + m.y*v.y + m.z*v.z`. -/
def mulVec (m : Mat3 K) (v : Vec3 K) : Vec3 K :=
  m.x.smul v.x + m.y.smul v.y + m.z.smul v.z

/-- Modelled from the spec: `mul(a, b)`, the matrix product, column by column. -/
def mul (a b : Mat3 K) : Mat3 K := ⟨mulVec a b.x, mulVec a b.y, mulVec a b.z⟩

/-- Modelled from the spec: `transpose(m)`. -/
def transpose (m : Mat3 K) : Mat3 K :=
  ⟨⟨m.x.x, m.y.x, m.z.x⟩, ⟨m.x.y, m.y.y, m.z.y⟩, ⟨m.x.z, m.y.z, m.z.z⟩⟩

/-- The 3x3 identity matrix. -/
def one : Mat3 K := ⟨⟨1, 0, 0⟩, ⟨0, 1, 0⟩, ⟨0, 0, 1⟩⟩

/-- A matrix is symmetric when it equals its transpose. -/
def IsSymm (m : Mat3 K) : Prop :=
  m.entry 1 0 = m.entry 0 1 ∧ m.entry 2 0 = m.entry 0 2 ∧ m.entry 2 1 = m.entry 1 2

instance (m : Mat3 K) [DecidableEq K] : Decidable (IsSymm m) := by
  unfold IsSymm; infer_instance

/-- A matrix is diagonal when its six off-diagonal entries are zero. -/
def IsDiagonal (m : Mat3 K) : Prop :=
  m.entry 1 0 = 0 ∧ m.entry 2 0 = 0 ∧ m.entry 2 1 = 0 ∧
    m.entry 0 1 = 0 ∧ m.entry 0 2 = 0 ∧ m.entry 1 2 = 0

instance (m : Mat3 K) [DecidableEq K] : Decidable (IsDiagonal m) := by
  unfold IsDiagonal; infer_instance

end Mat3

namespace Mat4

/-- Modelled from the spec: `mul(m, v) = m.x*v.x + m.y*v.y + m.z*v.z + m.w*v.w`. -/
def mulVec (m : Mat4 K) (v : Vec4 K) : Vec4 K :=
  m.x.smul v.x + m.y.smul v.y + m.z.smul v.z + m.w.smul v.w

end Mat4

/-! ## Quaternion algebra (`linear_algebra.hpp`) -/

/-- Modelled from the spec: `qconj(q) = (-x, -y, -z, w)`. -/
def qconj (q : Vec4 K) : Vec4 K := ⟨-q.x, -q.y, -q.z, q.w⟩

/-- Modelled from the spec: `qinv(q) = qconj(q) / length2(q)`, the inverse
quaternion. -/
def qinv (q : Vec4 K) : Vec4 K := (qconj q).sdiv q.length2

/-- Modelled from the spec: `qmul(a, b)`, the Hamilton product of two
quaternions in `(x, y, z, w)` layout. -/
def qmul (a b : Vec4 K) : Vec4 K :=
  ⟨a.x * b.w + a.w * b.x + a.y * b.z - a.z * b.y,
   a.y * b.w + a.w * b.y + a.z * b.x - a.x * b.z,
   a.z * b.w + a.w * b.z + a.x * b.y - a.y * b.x,
   a.w * b.w - a.x * b.x - a.y * b.y - a.z * b.z⟩

/-- Modelled from the spec: `qxdir(q)`, the image of `(1,0,0)` under the
rotation `q`. -/
def qxdir (q : Vec4 K) : Vec3 K :=
  ⟨q.w * q.w + q.x * q.x - q.y * q.y - q.z * q.z, (q.x * q.y + q.z * q.w) * 2,
   (q.z * q.x - q.y * q.w) * 2⟩

/-- Modelled from the spec: `qydir(q)`, the image of `(0,1,0)` under the
rotation `q`. -/
def qydir (q : Vec4 K) : Vec3 K :=
  ⟨(q.x * q.y - q.z * q.w) * 2, q.w * q.w - q.x * q.x + q.y * q.y - q.z * q.z,
   (q.y * q.z + q.x * q.w) * 2⟩

/-- Modelled from the spec: `qzdir(q)`, the image of `(0,0,1)` under the
rotation `q`. -/
def qzdir (q : Vec4 K) : Vec3 K :=
  ⟨(q.z * q.x + q.y * q.w) * 2, (q.y * q.z - q.x * q.w) * 2,
   q.w * q.w - q.x * q.x - q.y * q.y + q.z * q.z⟩

/-- Modelled from the spec: `qmat(q)`, the rotation matrix with columns
`qxdir(q)`, `qydir(q)`, `qzdir(q)`. -/
def qmat (q : Vec4 K) : Mat3 K := ⟨qxdir q, qydir q, qzdir q⟩

/-- Modelled from the spec: `qrot(q, v) = qxdir(q)*v.x + qydir(q)*v.y + qzdir(q)*v.z`. -/
def qrot (q : Vec4 K) (v : Vec3 K) : Vec3 K :=
  (qxdir q).smul v.x + (qydir q).smul v.y + (qzdir q).smul v.z

/-- A quaternion of unit length, stated without a square root. -/
def IsUnit (q : Vec4 K) : Prop := q.length2 = 1

instance (q : Vec4 K) [DecidableEq K] : Decidable (IsUnit q) := by
  unfold IsUnit; infer_instance

/-! ## Affine matrices (`geometric.hpp`, lines 251-293) -/

/-- Source `make_rigid_transformation_matrix` (line 251). -/
def make_rigid_transformation_matrix (rotation : Vec4 K) (translation : Vec3 K) : Mat4 K :=
  ⟨Vec4.ofVec3 (qxdir rotation) 0, Vec4.ofVec3 (qydir rotation) 0,
   Vec4.ofVec3 (qzdir rotation) 0, Vec4.ofVec3 translation 1⟩

/-- Source `transform_coord` (line 285): `r = mul(transform, (coord, 1))`,
result `r.xyz() / r.w`. -/
def transform_coord (transform : Mat4 K) (coord : Vec3 K) : Vec3 K :=
  let r := transform.mulVec (Vec4.ofVec3 coord 1)
  r.xyz.sdiv r.w

/-- Source `transform_vector` (line 290): `mul(transform, (vector, 0)).xyz()`. -/
def transform_vector (transform : Mat4 K) (vector : Vec3 K) : Vec3 K :=
  (transform.mulVec (Vec4.ofVec3 vector 0)).xyz

/-! ## Poses (`geometric.hpp`, lines 305-328) -/

/-- Source `struct Pose` (line 305): an orientation quaternion and a position. -/
@[ext] structure Pose (K : Type) where
  orientation : Vec4 K
  position : Vec3 K
  deriving DecidableEq, Repr

namespace Pose

/-- Source default constructor `Pose()` (line 310): the identity Pose. -/
def identity : Pose K := ⟨⟨0, 0, 0, 1⟩, ⟨0, 0, 0⟩⟩

/-- Source `Pose::matrix` (line 316). -/
def matrix (p : Pose K) : Mat4 K := make_rigid_transformation_matrix p.orientation p.position

/-- Source `Pose::inverse` (line 320). -/
def inverse (p : Pose K) : Pose K :=
  let invOri := qinv p.orientation
  ⟨invOri, qrot invOri (-p.position)⟩

/-- Source `Pose::transform_vector` (line 322). -/
def transform_vector (p : Pose K) (vec : Vec3 K) : Vec3 K := qrot p.orientation vec

/-- Source `Pose::transform_coord` (line 323). -/
def transform_coord (p : Pose K) (coord : Vec3 K) : Vec3 K :=
  p.position + p.transform_vector coord

/-- Source `Pose::detransform_vector` (line 325). -/
def detransform_vector (p : Pose K) (vec : Vec3 K) : Vec3 K := qrot (qinv p.orientation) vec

/-- Source `Pose::detransform_coord` (line 324). -/
def detransform_coord (p : Pose K) (coord : Vec3 K) : Vec3 K :=
  p.detransform_vector (coord - p.position)

/-- Source `Pose::operator *` (line 327). -/
def mul (a pose : Pose K) : Pose K :=
  ⟨qmul a.orientation pose.orientation, a.transform_coord pose.position⟩

instance : Mul (Pose K) := ⟨mul⟩

end Pose

end Algebra

/-! ## The `float` type (IEEE-754 binary32) -/

/-- Rounding of a rational to the nearest integer, ties to the even one. -/
def roundHalfEven (q : ℚ) : ℤ :=
  if q - ⌊q⌋ < 1 / 2 then ⌊q⌋
  else if 1 / 2 < q - ⌊q⌋ then ⌊q⌋ + 1
  else if ⌊q⌋ % 2 = 0 then ⌊q⌋ else ⌊q⌋ + 1

/-- The value of a `float` operation whose exact result is `x`: the number
with 24 significant bits nearest to `x`, ties to the even significand
(round-to-nearest-even of IEEE-754 binary32).  With `2^e ≤ |x| < 2^(e+1)` the
spacing of the `float` numbers around `x` is `2^(e-23)`.  Overflow and
subnormal numbers are left out. -/
def roundF32 (x : ℚ) : ℚ :=
  if x = 0 then 0
  else (roundHalfEven (x / 2 ^ (Int.log 2 |x| - 23)) : ℚ) * 2 ^ (Int.log 2 |x| - 23)

/-- The value of `std::sqrt` on a `float` whose exact value is `x`: the
`float` nearest to the square root of `x` (IEEE-754 requires the correctly
rounded result).  With `4^h ≤ x < 4^(h+1)` the root lies in `[2^h, 2^(h+1))`,
where the spacing is `u = 2^(h-23)`; `m` is the largest integer with
`(m*u)^2 ≤ x`, and the result is `m*u` or `(m+1)*u`, whichever is nearer. -/
def sqrtF32 (x : ℚ) : ℚ :=
  if x ≤ 0 then 0
  else
    let u : ℚ := 2 ^ (Int.log 2 x / 2 - 23)
    let m : ℕ := Nat.sqrt ⌊x / (u * u)⌋₊
    if x < (m + 1 / 2) * (m + 1 / 2) * (u * u) then m * u
    else if (m + 1 / 2) * (m + 1 / 2) * (u * u) < x then (m + 1) * u
    else if m % 2 = 0 then m * u else (m + 1) * u

/-! ## Matrix diagonalizer (`geometric.hpp`, lines 18-68) -/

section Diagonalizer

variable {K : Type} [LinearOrderedField K]

/-- The contract assumed of `std::sqrt`: on a non-negative argument it returns
the non-negative square root. -/
def IsSqrt (sqrt : K → K) : Prop := ∀ x : K, 0 ≤ x → 0 ≤ sqrt x ∧ sqrt x * sqrt x = x

/-- The expression `mul(transpose(qmat(q)), mul(A, qmat(q)))` of lines 32, 53,
56, 59 and 66: the matrix `A` seen in the frame of the rotation `q`. -/
def conjugated (A : Mat3 K) (q : Vec4 K) : Mat3 K :=
  Mat3.mul (Mat3.transpose (qmat q)) (Mat3.mul A (qmat q))

/-- Line 33: `offdiag = (D(2,1), D(2,0), D(1,0))`. -/
def offdiag (D : Mat3 K) : Vec3 K := ⟨D.entry 2 1, D.entry 2 0, D.entry 1 0⟩

/-- Lines 34-35: the magnitudes `om` of the off-diagonal entries and the
index `k` of the largest one. -/
def pivot (off : Vec3 K) : Nat :=
  let om : Vec3 K := ⟨|off.x|, |off.y|, |off.z|⟩
  if om.x > om.y ∧ om.x > om.z then 0 else if om.y > om.z then 1 else 2

/-- Line 39: `thet = (D(k2,k2) - D(k1,k1)) / (2 * offdiag[k])` with
`k1 = (k+1)%3` and `k2 = (k+2)%3` (lines 36-37). -/
def jacobiTheta (D : Mat3 K) (k : Nat) : K :=
  let k1 := (k + 1) % 3
  let k2 := (k + 2) % 3
  (D.entry k2 k2 - D.entry k1 k1) / (2 * (offdiag D).get k)

/-- Line 40: `sgn = (thet > 0) ? 1 : -1`. -/
def jacobiSgn (thet : K) : K := if thet > 0 then 1 else -1

/-- Lines 41-42: `thet *= sgn` and
`t = sgn / (thet + ((thet < 1.E6) ? sqrt(thet*thet + 1) : thet))`. -/
def jacobiT (sqrt : K → K) (thet : K) : K :=
  let sgn := jacobiSgn thet
  let thet := thet * sgn
  sgn / (thet + (if thet < 1000000 then sqrt (thet * thet + 1) else thet))

/-- Line 43: `c = 1 / sqrt(t*t + 1)`. -/
def jacobiC (sqrt : K → K) (t : K) : K := 1 / sqrt (t * t + 1)

/-- Lines 45-48: the Jacobi rotation `jr`, zero except for
`jr[k] = sgn * sqrt((1 - c) / 2) * -1` and `jr.w = sqrt(1 - jr[k]*jr[k])`. -/
def jacobiQuat (sqrt : K → K) (k : Nat) (sgn c : K) : Vec4 K :=
  let jr : Vec4 K := ⟨0, 0, 0, 0⟩
  let jr := jr.set k (sgn * sqrt ((1 - c) / 2))
  let jr := jr.set k (jr.get k * -1)
  jr.set 3 (sqrt (1 - jr.get k * jr.get k))

/-- Lines 36-49 of the loop body: the Jacobi rotation `jr` for the matrix `D`
and pivot index `k`, or `none` where the source executes `break`. -/
def jacobi (sqrt : K → K) (D : Mat3 K) (k : Nat) : Option (Vec4 K) :=
  if (offdiag D).get k = 0 then none else
  let thet := jacobiTheta D k
  let sgn := jacobiSgn thet
  let t := jacobiT sqrt thet
  let c := jacobiC sqrt t
  if c = 1 then none else
  let jr := jacobiQuat sqrt k sgn c
  if jr.w = 1 then none else
  some jr

/-- One pass through the body of the `for` loop (lines 31-51): the next value
of `q`, or `none` where the source executes `break`. -/
def diagStep (sqrt : K → K) (A : Mat3 K) (q : Vec4 K) : Option (Vec4 K) :=
  let D := conjugated A q
  let k := pivot (offdiag D)
  match jacobi sqrt D k with
  | none => none
  | some jr => some (Vec4.normalize sqrt (qmul q jr))

/-- The `for` loop of lines 29-52 with `n` iterations left. -/
def diagLoop (sqrt : K → K) (A : Mat3 K) : Nat → Vec4 K → Vec4 K
  | 0, q => q
  | n + 1, q =>
    match diagStep sqrt A q with
    | none => q
    | some q1 => diagLoop sqrt A n q1

/-- Lines 53-55: recompute `ev` and, if `ev(0,0) > ev(2,2)`, compose the
normalized quaternion `(0, 0.7, 0, 0.7)` (a quarter-turn about y). -/
def fixSwapY (sqrt : K → K) (A : Mat3 K) (q : Vec4 K) : Vec4 K :=
  let ev := conjugated A q
  if ev.entry 0 0 > ev.entry 2 2
    then qmul q (Vec4.normalize sqrt ⟨0, 7 / 10, 0, 7 / 10⟩) else q

/-- Lines 56-58: recompute `ev` and, if `ev(1,1) > ev(2,2)`, compose the
normalized quaternion `(0.7, 0, 0, 0.7)` (a quarter-turn about x). -/
def fixSwapX (sqrt : K → K) (A : Mat3 K) (q : Vec4 K) : Vec4 K :=
  let ev := conjugated A q
  if ev.entry 1 1 > ev.entry 2 2
    then qmul q (Vec4.normalize sqrt ⟨7 / 10, 0, 0, 7 / 10⟩) else q

/-- Lines 59-61: recompute `ev` and, if `ev(0,0) > ev(1,1)`, compose the
normalized quaternion `(0, 0, 0.7, 0.7)` (a quarter-turn about z). -/
def fixSwapZ (sqrt : K → K) (A : Mat3 K) (q : Vec4 K) : Vec4 K :=
  let ev := conjugated A q
  if ev.entry 0 0 > ev.entry 1 1
    then qmul q (Vec4.normalize sqrt ⟨0, 0, 7 / 10, 7 / 10⟩) else q

/-- Lines 62-63: if `qzdir(q).y < 0`, compose the half-turn `(1, 0, 0, 0)`. -/
def fixFlipX (q : Vec4 K) : Vec4 K :=
  if (qzdir q).y < 0 then qmul q ⟨1, 0, 0, 0⟩ else q

/-- Lines 64-65: if `qydir(q).x < 0`, compose the half-turn `(0, 0, 1, 0)`. -/
def fixFlipZ (q : Vec4 K) : Vec4 K :=
  if (qydir q).x < 0 then qmul q ⟨0, 0, 1, 0⟩ else q

/-- Lines 53-67: the three axis swaps that order the diagonal, then the two
sign corrections, applied one after the other. -/
def diagFixup (sqrt : K → K) (A : Mat3 K) (q : Vec4 K) : Vec4 K :=
  fixFlipZ (fixFlipX (fixSwapZ sqrt A (fixSwapX sqrt A (fixSwapY sqrt A q))))

/-- Source `diagonalizer` (line 24), with `maxsteps = 24` and the start value
`q = (0, 0, 0, 1)`. -/
def diagonalizer (sqrt : K → K) (A : Mat3 K) : Vec4 K :=
  diagFixup sqrt A (diagLoop sqrt A 24 ⟨0, 0, 0, 1⟩)

/-- A symmetric matrix with one small off-diagonal pair: its first loop step
has `thet = 2000000`, so it takes the branch `thet >= 1.E6` of line 42. -/
def slowExample : Mat3 K := ⟨⟨0, 0, 0⟩, ⟨0, 1, 1⟩, ⟨0, 1, 4000001⟩⟩

/-- The loop invariant met by `slowExample`: `q` is a unit rotation about the
x axis, the off-diagonal entry `D(2,1)` is not zero, and
`D(2,2) - D(1,1)` is at least `2000000` times its magnitude. -/
def SlowInv (q : Vec4 K) : Prop :=
  q.y = 0 ∧ q.z = 0 ∧ IsUnit q ∧
    (conjugated (slowExample : Mat3 K) q).entry 2 1 ≠ 0 ∧
    2000000 * |(conjugated (slowExample : Mat3 K) q).entry 2 1| ≤
      (conjugated (slowExample : Mat3 K) q).entry 2 2 -
        (conjugated (slowExample : Mat3 K) q).entry 1 1

end Diagonalizer

/-! ## Construct rotation quaternions (`geometric.hpp`, lines 129-218) -/

section Construct

variable {K : Type} [LinearOrderedField K]

/-- Modelled from the spec: `dot(a, b)` on `vec<T,3>` of the absent
`linear_algebra.hpp`. -/
def Vec3.dot (a b : Vec3 K) : K := a.x * b.x + a.y * b.y + a.z * b.z

/-- Modelled from the spec: `cross(a, b)` on `vec<T,3>` of the absent
`linear_algebra.hpp`. -/
def Vec3.cross (a b : Vec3 K) : Vec3 K :=
  ⟨a.y * b.z - a.z * b.y, a.z * b.x - a.x * b.z, a.x * b.y - a.y * b.x⟩

/-- Modelled from the spec: `normalize(a) = a / length(a)` on `vec<T,3>`, with
`length(a) = sqrt(dot(a, a))`. -/
def Vec3.normalize (sqrt : K → K) (a : Vec3 K) : Vec3 K := a.sdiv (sqrt (Vec3.dot a a))

/-- Modelled from the spec: componentwise `-a` on `vec<T,4>`; `q` and `-q` are
the same rotation. -/
def Vec4.neg (a : Vec4 K) : Vec4 K := ⟨-a.x, -a.y, -a.z, -a.w⟩

/-- Source `make_rotation_quat_axis_angle` (line 133), with `std::sin` and
`std::cos` passed as `sin` and `cos`. -/
def make_rotation_quat_axis_angle (sin cos : K → K) (axis : Vec3 K) (angle : K) : Vec4 K :=
  Vec4.ofVec3 (axis.smul (sin (angle / 2))) (cos (angle / 2))

/-- Modelled from the spec: `dot(a, b)` as the `float` code evaluates it, each
product and each sum rounded by `rnd` (`roundF32` for `float`, `id` for exact
arithmetic). -/
def Vec3.dotR (rnd : K → K) (a b : Vec3 K) : K :=
  rnd (rnd (rnd (a.x * b.x) + rnd (a.y * b.y)) + rnd (a.z * b.z))

/-- Modelled from the spec: `cross(a, b)` as the `float` code evaluates it,
each product and each difference rounded by `rnd`. -/
def Vec3.crossR (rnd : K → K) (a b : Vec3 K) : Vec3 K :=
  ⟨rnd (rnd (a.y * b.z) - rnd (a.z * b.y)), rnd (rnd (a.z * b.x) - rnd (a.x * b.z)),
    rnd (rnd (a.x * b.y) - rnd (a.y * b.x))⟩

/-- Modelled from the spec: `normalize(a) = a / length(a)` as the `float` code
evaluates it, with `length(a) = sqrt(dot(a, a))` and each quotient rounded by
`rnd`.  A zero length gives `none`: the quotients are then NaN or infinite. -/
def Vec3.normalizeR (rnd sqrt : K → K) (a : Vec3 K) : Option (Vec3 K) :=
  if sqrt (Vec3.dotR rnd a a) = 0 then none
  else some ⟨rnd (a.x / sqrt (Vec3.dotR rnd a a)), rnd (a.y / sqrt (Vec3.dotR rnd a a)),
    rnd (a.z / sqrt (Vec3.dotR rnd a a))⟩

/-- Source `make_rotation_quat_between_vectors` (line 153), with `std::acos`
passed as `acos` and the rounding of `float` passed as `rnd`.  The result is
`none` when it is not a quaternion of numbers: `std::acos` returns NaN outside
`[-1, 1]`, and line 156 passes the dot product to it as computed, where line
203 of `make_axis_angle_rotation_quat` clamps the argument first. -/
def make_rotation_quat_between_vectors (rnd sqrt sin cos acos : K → K) (vfrom vto : Vec3 K) :
    Option (Vec4 K) :=
  (Vec3.normalizeR rnd sqrt vfrom).bind fun a =>
    (Vec3.normalizeR rnd sqrt vto).bind fun b =>
      (Vec3.normalizeR rnd sqrt (Vec3.crossR rnd a b)).bind fun n =>
        if Vec3.dotR rnd a b < -1 ∨ 1 < Vec3.dotR rnd a b then none
        else some (make_rotation_quat_axis_angle sin cos n (acos (Vec3.dotR rnd a b)))

/-- Lines 161-174 of `make_rotation_quat_from_rotation_matrix`: the sign
pattern `pre` selected by the three comparisons `wvsz`, `xvsy`, `zwvsxy`. -/
def rotmatPre (m : Mat3 K) : Vec3 K :=
  let magw := m.entry 0 0 + m.entry 1 1 + m.entry 2 2
  let magzw := if magw > m.entry 2 2 then magw else m.entry 2 2
  let prezw : Vec3 K := if magw > m.entry 2 2 then ⟨1, 1, 1⟩ else ⟨-1, -1, 1⟩
  let magxy := if m.entry 0 0 > m.entry 1 1 then m.entry 0 0 else m.entry 1 1
  let prexy : Vec3 K := if m.entry 0 0 > m.entry 1 1 then ⟨1, -1, -1⟩ else ⟨-1, 1, -1⟩
  if magzw > magxy then prezw else prexy

/-- Lines 161-175 of `make_rotation_quat_from_rotation_matrix`: the unit
quaternion `post` selected by the same three comparisons. -/
def rotmatPost (m : Mat3 K) : Vec4 K :=
  let magw := m.entry 0 0 + m.entry 1 1 + m.entry 2 2
  let magzw := if magw > m.entry 2 2 then magw else m.entry 2 2
  let postzw : Vec4 K := if magw > m.entry 2 2 then ⟨0, 0, 0, 1⟩ else ⟨0, 0, 1, 0⟩
  let magxy := if m.entry 0 0 > m.entry 1 1 then m.entry 0 0 else m.entry 1 1
  let postxy : Vec4 K := if m.entry 0 0 > m.entry 1 1 then ⟨1, 0, 0, 0⟩ else ⟨0, 1, 0, 0⟩
  if magzw > magxy then postzw else postxy

/-- Line 177: `t = pre.x*m(0,0) + pre.y*m(1,1) + pre.z*m(2,2) + 1`. -/
def rotmatT (m : Mat3 K) : K :=
  (rotmatPre m).x * m.entry 0 0 + (rotmatPre m).y * m.entry 1 1
    + (rotmatPre m).z * m.entry 2 2 + 1

/-- Source `make_rotation_quat_from_rotation_matrix` (line 159). -/
def make_rotation_quat_from_rotation_matrix (sqrt : K → K) (m : Mat3 K) : Vec4 K :=
  let pre := rotmatPre m
  let post := rotmatPost m
  let t := rotmatT m
  let s := 1 / sqrt t / 2
  let qp : Vec4 K := (⟨pre.y * m.entry 2 1 - pre.z * m.entry 1 2,
    pre.z * m.entry 0 2 - pre.x * m.entry 2 0,
    pre.x * m.entry 1 0 - pre.y * m.entry 0 1, t⟩ : Vec4 K).smul s
  qmul qp post

/-- Source `make_axis_angle_rotation_quat` (line 200), with `acosf` passed as
`acos`; the result is `(axis, angle)`. -/
def make_axis_angle_rotation_quat (acos sqrt : K → K) (q : Vec4 K) : Vec4 K :=
  let w := 2 * acos (max (-1) (min q.w 1))
  let den := sqrt |1 - q.w * q.w|
  if den > 1 / 100000 then ⟨q.x / den, q.y / den, q.z / den, w⟩ else ⟨1, 0, 0, w⟩

end Construct

/-! ## Bounding box and screen rectangle (`geometric.hpp`, lines 70-125) -/

section Bounding

variable {K : Type} [LinearOrderedField K]

/-- Source `struct Box` (line 74); a `vec<T,M>` is read as a function from
the `M` axis indices to scalars. -/
structure Box (K : Type) (M : Nat) where
  min : Fin M → K
  max : Fin M → K

namespace Box

variable {M : Nat}

/-- The `for` loop of `Box::contains` (lines 84-87) over the axes still to be
visited: `false` at the first axis that fails the test, `true` at the end.
The sum `min[m] + max[m]` is computed in the scalar type `T`, whose rounding
is `rnd` (`roundF32` for `float`, the identity for an exact type); the
comparisons are exact. -/
def containsLoop (rnd : K → K) (b : Box K M) (qt : Fin M → K) : List (Fin M) → Bool
  | [] => true
  | m :: ms =>
    if qt m < b.min m ∨ qt m ≥ rnd (b.min m + b.max m) then false
    else containsLoop rnd b qt ms

/-- Source `Box::contains` (line 82): the loop over `m = 0, ..., M-1`. -/
def contains (rnd : K → K) (b : Box K M) (qt : Fin M → K) : Bool :=
  containsLoop rnd b qt (List.finRange M)

/-- Source `Box::center` (line 90): `min + (0.5 * (max - min))`. -/
def center (b : Box K M) : Fin M → K := fun m => b.min m + (1 / 2) * (b.max m - b.min m)

/-- Source `Box::volume` (line 95), which reads the components `x`, `y`, `z`. -/
def volume (b : Box K 3) : K :=
  (b.max 0 - b.min 0) * (b.max 1 - b.min 1) * (b.max 2 - b.min 2)

end Box

/-- Source `struct Bounds` (line 101). -/
structure Bounds (K : Type) where
  x0 : K
  y0 : K
  x1 : K
  y1 : K
  deriving DecidableEq, Repr

namespace Bounds

/-- Source `Bounds::inside` (line 111). -/
def inside (b : Bounds K) (px py : K) : Bool :=
  decide (px ≥ b.x0) && decide (py ≥ b.y0) && decide (px < b.x1) && decide (py < b.y1)

/-- Source `Bounds::width` (line 123): the `float` difference `x1 - x0`, with
the rounding `rnd` of `float`. -/
def width (rnd : K → K) (b : Bounds K) : K := rnd (b.x1 - b.x0)

/-- Source `Bounds::height` (line 124): the `float` difference `y1 - y0`. -/
def height (rnd : K → K) (b : Bounds K) : K := rnd (b.y1 - b.y0)

end Bounds

/-! ## Universal coordinate system (`geometric.hpp`, lines 339-353) -/

/-- Source `struct UCoord` (line 339). -/
structure UCoord (K : Type) where
  a : K
  b : K
  deriving DecidableEq, Repr

/-- Source `UCoord::resolve` (line 342): `min + a * (max - min) + b` in
`float`, every operation rounded by `rnd`: the difference, the product, and
the two sums from left to right. -/
def UCoord.resolve (rnd : K → K) (c : UCoord K) (min max : K) : K :=
  rnd (rnd (min + rnd (c.a * rnd (max - min))) + c.b)

/-- Source `struct URect` (line 345). -/
structure URect (K : Type) where
  x0 : UCoord K
  y0 : UCoord K
  x1 : UCoord K
  y1 : UCoord K
  deriving DecidableEq, Repr

namespace URect

/-- Source `URect::resolve` (line 348). -/
def resolve (rnd : K → K) (u : URect K) (r : Bounds K) : Bounds K :=
  ⟨u.x0.resolve rnd r.x0 r.x1, u.y0.resolve rnd r.y0 r.y1, u.x1.resolve rnd r.x0 r.x1,
    u.y1.resolve rnd r.y0 r.y1⟩

/-- Source `URect::is_fixed_width` (line 349). -/
def is_fixed_width (u : URect K) : Bool := decide (u.x0.a = u.x1.a)

/-- Source `URect::is_fixed_height` (line 350). -/
def is_fixed_height (u : URect K) : Bool := decide (u.y0.a = u.y1.a)

/-- Source `URect::fixed_width` (line 351): the `float` difference
`x1.b - x0.b`. -/
def fixed_width (rnd : K → K) (u : URect K) : K := rnd (u.x1.b - u.x0.b)

/-- Source `URect::fixed_height` (line 352): the `float` difference
`y1.b - y0.b`. -/
def fixed_height (rnd : K → K) (u : URect K) : K := rnd (u.y1.b - u.y0.b)

end URect

end Bounding

/-! ## Guarded arithmetic of the diagonalizer (`geometric.hpp`, lines 38-49) -/

section Checked

variable {K : Type} [LinearOrderedField K]

/-- A division that reports its divisor: `none` when the divisor is zero,
otherwise the quotient. -/
def checkedDiv (a b : K) : Option K := if b = 0 then none else some (a / b)

/-- A square root that reports its argument: `none` when the argument is
negative, otherwise `sqrt x`. -/
def checkedSqrt (sqrt : K → K) (x : K) : Option K := if x < 0 then none else some (sqrt x)

/-- A division that is only allowed by a divisor greater than `lo`. -/
def guardedDiv (lo a b : K) : Option K := if lo < b then some (a / b) else none

/-- Modelled from the spec: `normalize(a) = a / length(a)` with every
operation checked: the square root of `length2(a)` and the division of the
components by the length. -/
def Vec4.normalizeChecked (sqrt : K → K) (a : Vec4 K) : Option (Vec4 K) :=
  (checkedSqrt sqrt a.length2).bind fun len =>
  (checkedDiv a.x len).bind fun x =>
  (checkedDiv a.y len).bind fun y =>
  (checkedDiv a.z len).bind fun z =>
  (checkedDiv a.w len).bind fun w =>
  some ⟨x, y, z, w⟩

/-- Line 39 with its division checked: `thet`, or `none` if the divisor
`2 * offdiag[k]` is zero. -/
def jacobiThetaChecked (D : Mat3 K) (k : Nat) : Option K :=
  let k1 := (k + 1) % 3
  let k2 := (k + 2) % 3
  checkedDiv (D.entry k2 k2 - D.entry k1 k1) (2 * (offdiag D).get k)

/-- Lines 41-42 with the square root and the division checked. -/
def jacobiTChecked (sqrt : K → K) (thet : K) : Option K :=
  let sgn := jacobiSgn thet
  let thet := thet * sgn
  (if thet < 1000000 then checkedSqrt sqrt (thet * thet + 1) else some thet).bind fun r =>
  checkedDiv sgn (thet + r)

/-- Line 43 with the square root and the division checked. -/
def jacobiCChecked (sqrt : K → K) (t : K) : Option K :=
  (checkedSqrt sqrt (t * t + 1)).bind fun s => checkedDiv 1 s

/-- Lines 45-48 with the division by `2` and the two square roots checked. -/
def jacobiQuatChecked (sqrt : K → K) (k : Nat) (sgn c : K) : Option (Vec4 K) :=
  (checkedDiv (1 - c) 2).bind fun h =>
  (checkedSqrt sqrt h).bind fun u =>
  let jr : Vec4 K := ⟨0, 0, 0, 0⟩
  let jr := jr.set k (sgn * u)
  let jr := jr.set k (jr.get k * -1)
  (checkedSqrt sqrt (1 - jr.get k * jr.get k)).bind fun w =>
  some (jr.set 3 w)

/-- Lines 38-49 with every division and square root checked.  The outer
`none` reports a zero divisor or a negative square-root argument; the inner
option is the result of `jacobi` (`none` for a `break`). -/
def jacobiChecked (sqrt : K → K) (D : Mat3 K) (k : Nat) : Option (Option (Vec4 K)) :=
  if (offdiag D).get k = 0 then some none else
  (jacobiThetaChecked D k).bind fun thet =>
  (jacobiTChecked sqrt thet).bind fun t =>
  (jacobiCChecked sqrt t).bind fun c =>
  if c = 1 then some none else
  (jacobiQuatChecked sqrt k (jacobiSgn thet) c).bind fun jr =>
  if jr.w = 1 then some none else some (some jr)

/-- One pass of the loop body (lines 31-50) with checked arithmetic. -/
def diagStepChecked (sqrt : K → K) (A : Mat3 K) (q : Vec4 K) : Option (Option (Vec4 K)) :=
  let D := conjugated A q
  let k := pivot (offdiag D)
  (jacobiChecked sqrt D k).bind fun r =>
  match r with
  | none => some none
  | some jr => (Vec4.normalizeChecked sqrt (qmul q jr)).bind fun q1 => some (some q1)

/-- The `for` loop of lines 29-51 with checked arithmetic. -/
def diagLoopChecked (sqrt : K → K) (A : Mat3 K) : Nat → Vec4 K → Option (Vec4 K)
  | 0, q => some q
  | n + 1, q =>
    (diagStepChecked sqrt A q).bind fun r =>
    match r with
    | none => some q
    | some q1 => diagLoopChecked sqrt A n q1

/-- Lines 52-65 with checked arithmetic: the three conditional quarter-turns
normalize a constant quaternion, the two half-turns do not divide. -/
def diagFixupChecked (sqrt : K → K) (A : Mat3 K) (q : Vec4 K) : Option (Vec4 K) :=
  (if (conjugated A q).entry 0 0 > (conjugated A q).entry 2 2
    then (Vec4.normalizeChecked sqrt ⟨0, 7 / 10, 0, 7 / 10⟩).bind fun r => some (qmul q r)
    else some q).bind fun q =>
  (if (conjugated A q).entry 1 1 > (conjugated A q).entry 2 2
    then (Vec4.normalizeChecked sqrt ⟨7 / 10, 0, 0, 7 / 10⟩).bind fun r => some (qmul q r)
    else some q).bind fun q =>
  (if (conjugated A q).entry 0 0 > (conjugated A q).entry 1 1
    then (Vec4.normalizeChecked sqrt ⟨0, 0, 7 / 10, 7 / 10⟩).bind fun r => some (qmul q r)
    else some q).bind fun q =>
  some (fixFlipZ (fixFlipX q))

/-- Source `diagonalizer` (lines 24-68) with every division and square root
checked: `none` if some executed division has a zero divisor or some executed
square root a negative argument. -/
def diagonalizerChecked (sqrt : K → K) (A : Mat3 K) : Option (Vec4 K) :=
  (diagLoopChecked sqrt A 24 ⟨0, 0, 0, 1⟩).bind fun q => diagFixupChecked sqrt A q

/-- Source `make_axis_angle_rotation_quat` (line 200) with the square root
checked and every division allowed only by a denominator greater than
`1E-5`. -/
def make_axis_angle_rotation_quat_checked (acos sqrt : K → K) (q : Vec4 K) :
    Option (Vec4 K) :=
  let w := 2 * acos (max (-1) (min q.w 1))
  (checkedSqrt sqrt |1 - q.w * q.w|).bind fun den =>
  if den > 1 / 100000 then
    (guardedDiv (1 / 100000) q.x den).bind fun x =>
    (guardedDiv (1 / 100000) q.y den).bind fun y =>
    (guardedDiv (1 / 100000) q.z den).bind fun z =>
    some ⟨x, y, z, w⟩
  else some ⟨1, 0, 0, w⟩

end Checked

/-! ## Frustum projection (`geometric.hpp`, lines 257-267) -/

section Projection

variable {K : Type} [Field K]

end Projection

/-! ## Voxel arrays (`algo_misc.hpp`, lines 11-22) -/

/-- The value stored in a 32-bit `int` for the mathematical result `n`: the
two's-complement representative of `n` modulo `2^32` in `[-2^31, 2^31)`. -/
def wrapInt32 (n : Int) : Int := (n + 2147483648) % 4294967296 - 2147483648

/-- Modelled from the spec: `int3`, the `vec<int,3>` of the absent
`linear_algebra.hpp`. -/
@[ext] structure Int3 where
  x : Int
  y : Int
  z : Int
  deriving DecidableEq, Repr

namespace VoxelArray

/-- Source constructor `VoxelArray(size)` (line 18): the number of voxels
allocated, `size.x * size.y * size.z` evaluated in `int`. -/
def voxelCount (size : Int3) : Int := wrapInt32 (wrapInt32 (size.x * size.y) * size.z)

/-- Source `VoxelArray::operator[]` (lines 20-21): the linear index
`coords.z * size.x * size.y + coords.y * size.x + coords.x` evaluated in
`int`, left to right. -/
def index (size coords : Int3) : Int :=
  wrapInt32 (wrapInt32 (wrapInt32 (wrapInt32 (coords.z * size.x) * size.y)
    + wrapInt32 (coords.y * size.x)) + coords.x)

end VoxelArray

/-! ## Euclidean rhythm patterns (`algo_misc.hpp`, lines 76-117) -/

/-- The ways in which a run of the model of `make_euclidean_pattern` can stop
without a pattern: an integer division by zero, or the step budget of the
`while (true)` loop running out. -/
inductive EuclidError where
  | divisionByZero
  | outOfFuel
  deriving DecidableEq, Repr

/-- The local variables `counts`, `remainders`, `divisor` and `level` of
`make_euclidean_pattern`, with the list `divisors` of every divisor used so
far by `/` and `%`. -/
structure EuclidState where
  counts : List Int
  remainders : List Int
  divisor : Int
  level : Nat
  divisors : List Int
  deriving DecidableEq, Repr

/-- The recursive lambda `bjorklund` (lines 82-92).  The first numeric
argument is `level + 2`: `0` is the source level `-2` (push `true`), `1` is
level `-1` (push `false`), and `l + 2` is the level `l > -1`, which calls
level `l - 1` `counts[l]` times and then, if `remainders[l] != 0`, level
`l - 2`.  The depth counter `r` is never read and is left out. -/
def bjorklund (counts remainders : List Int) : Nat → List Bool → List Bool
  | 0, pattern => pattern ++ [true]
  | 1, pattern => pattern ++ [false]
  | l + 2, pattern =>
    let pattern := Nat.iterate (bjorklund counts remainders (l + 1))
      (counts.getD l 0).toNat pattern
    if remainders.getD l 0 ≠ 0 then bjorklund counts remainders l pattern else pattern

/-- The `while (true)` loop of lines 103-110, with a step budget.  Integer
division and remainder truncate toward zero. -/
def euclidLoop : Nat → EuclidState → Except EuclidError EuclidState
  | 0, _ => Except.error EuclidError.outOfFuel
  | fuel + 1, s =>
    if s.remainders.getD s.level 0 = 0 then Except.error EuclidError.divisionByZero else
    let counts := s.counts ++ [s.divisor.tdiv (s.remainders.getD s.level 0)]
    let remainders := s.remainders ++ [s.divisor.tmod (s.remainders.getD s.level 0)]
    let divisors := s.divisors ++ [s.remainders.getD s.level 0, s.remainders.getD s.level 0]
    let divisor := remainders.getD s.level 0
    let level := s.level + 1
    if remainders.getD level 0 ≤ 1 then Except.ok ⟨counts, remainders, divisor, level, divisors⟩
    else euclidLoop fuel ⟨counts, remainders, divisor, level, divisors⟩

/-- Source `make_euclidean_pattern` (line 76): the returned pattern together
with the divisors used on the way. -/
def make_euclidean_pattern (fuel : Nat) (steps pulses : Int) :
    Except EuclidError (List Bool × List Int) :=
  let pattern : List Bool := []
  if pulses > steps ∨ pulses = 0 ∨ steps = 0 then Except.ok (pattern, []) else
  let divisor := steps - pulses
  let remainders := [pulses]
  match euclidLoop fuel ⟨[], remainders, divisor, 0, []⟩ with
  | Except.error e => Except.error e
  | Except.ok s =>
    let counts := s.counts ++ [s.divisor]
    Except.ok (bjorklund counts s.remainders (s.level + 2) pattern, s.divisors)

/-- The number of pushes of weight `a` (for `true`) and `b` (for `false`)
that `bjorklund` performs at the level `m - 2`: it follows the recursion of
the lambda, counting instead of pushing. -/
def bjWeight (a b : Nat) (counts remainders : List Int) : Nat → Nat
  | 0 => a
  | 1 => b
  | l + 2 =>
    (counts.getD l 0).toNat * bjWeight a b counts remainders (l + 1) +
      (if remainders.getD l 0 ≠ 0 then bjWeight a b counts remainders l else 0)

/-- The invariant of the `while` loop of `make_euclidean_pattern`: the
vectors have `level` and `level + 1` entries, `divisor` and the current
remainder are not negative, no divisor used so far is zero, and the pushes of
the two levels below the current one, weighted by `divisor` and by the current
remainder, add up to `b * (steps - pulses) + a * pulses`. -/
def EuclidInv (steps pulses : Int) (s : EuclidState) : Prop :=
  s.counts.length = s.level ∧ s.remainders.length = s.level + 1 ∧ 0 ≤ s.divisor ∧
    0 ≤ s.remainders.getD s.level 0 ∧ (∀ x ∈ s.divisors, x ≠ 0) ∧
    ∀ a b : Nat,
      (bjWeight a b s.counts s.remainders (s.level + 1) : Int) * s.divisor +
          (bjWeight a b s.counts s.remainders s.level : Int) * s.remainders.getD s.level 0 =
        (b : Int) * (steps - pulses) + (a : Int) * pulses

/-- The range of the values held by the loop of `make_euclidean_pattern`:
`divisor` and every entry of `counts` and `remainders` lie in `[0, steps]`,
so that no `int` operation overflows. -/
def EuclidBounded (steps : Int) (s : EuclidState) : Prop :=
  0 ≤ s.divisor ∧ s.divisor ≤ steps ∧ (∀ x ∈ s.counts, 0 ≤ x ∧ x ≤ steps) ∧
    (∀ x ∈ s.remainders, 0 ≤ x ∧ x ≤ steps) ∧ s.level < s.remainders.length

/-! ## Theorems -/

section FloatTheorems

theorem roundHalfEven_of_lt (q : ℚ) (m : ℤ) (h1 : (m : ℚ) - 1 / 2 < q)
    (h2 : q < (m : ℚ) + 1 / 2) : roundHalfEven q = m := by
  unfold roundHalfEven
  rcases le_or_lt (m : ℚ) q with h | h
  · have hf : ⌊q⌋ = m := Int.floor_eq_iff.mpr ⟨h, by linarith⟩
    rw [hf, if_pos (by linarith)]
  · have hf : ⌊q⌋ = m - 1 := Int.floor_eq_iff.mpr ⟨by push_cast; linarith, by push_cast; linarith⟩
    rw [hf, if_neg (by push_cast; linarith), if_pos (by push_cast; linarith)]
    ring

theorem roundHalfEven_tie (m : ℤ) :
    roundHalfEven ((m : ℚ) + 1 / 2) = if m % 2 = 0 then m else m + 1 := by
  unfold roundHalfEven
  have hf : ⌊(m : ℚ) + 1 / 2⌋ = m := Int.floor_eq_iff.mpr ⟨by linarith, by linarith⟩
  rw [hf, if_neg (by linarith), if_neg (by linarith)]

theorem log_two_eq (x : ℚ) (e : ℤ) (h1 : (2 : ℚ) ^ e ≤ x) (h2 : x < (2 : ℚ) ^ (e + 1)) :
    Int.log 2 x = e := by
  have hx : 0 < x := lt_of_lt_of_le (zpow_pos (by norm_num) e) h1
  have a1 : e ≤ Int.log 2 x := by
    have := (Int.zpow_le_iff_le_log (by norm_num : 1 < 2) hx (x := e)).mp (by exact_mod_cast h1)
    exact this
  have a2 : Int.log 2 x < e + 1 := by
    have := (Int.lt_zpow_iff_log_lt (by norm_num : 1 < 2) hx (x := e + 1)).mp (by exact_mod_cast h2)
    exact this
  omega

/-- Evaluation of `roundF32`: with `2^e ≤ |x| < 2^(e+1)` the result is
`m * 2^(e-23)` for the integer `m` that `x / 2^(e-23)` rounds to. -/
theorem roundF32_eq (x : ℚ) (e m : ℤ) (h1 : (2 : ℚ) ^ e ≤ |x|) (h2 : |x| < (2 : ℚ) ^ (e + 1))
    (hm : roundHalfEven (x / 2 ^ (e - 23)) = m) : roundF32 x = m * 2 ^ (e - 23) := by
  have hx : x ≠ 0 := by
    intro h0
    rw [h0, abs_zero] at h1
    exact absurd h1 (not_le.mpr (zpow_pos (by norm_num) e))
  unfold roundF32
  rw [if_neg hx, log_two_eq |x| e h1 h2, hm]

/-- A number with a 24-bit significand is its own rounding. -/
theorem roundF32_exact (x : ℚ) (e m : ℤ) (hx : x = m * 2 ^ (e - 23))
    (h1 : 8388608 ≤ |m|) (h2 : |m| < 16777216) : roundF32 x = x := by
  have hu : (0 : ℚ) < 2 ^ (e - 23) := zpow_pos (by norm_num) _
  have habs : |x| = (|m| : ℤ) * 2 ^ (e - 23) := by
    rw [hx, abs_mul, abs_of_pos hu]; push_cast; rfl
  have e1 : (2 : ℚ) ^ e = 8388608 * 2 ^ (e - 23) := by
    rw [show (8388608 : ℚ) = 2 ^ (23 : ℤ) by norm_num, ← zpow_add₀ (by norm_num)]
    congr 1; ring
  have e2 : (2 : ℚ) ^ (e + 1) = 16777216 * 2 ^ (e - 23) := by
    rw [show (16777216 : ℚ) = 2 ^ (24 : ℤ) by norm_num, ← zpow_add₀ (by norm_num)]
    congr 1; ring
  have hm : roundHalfEven (x / 2 ^ (e - 23)) = m := by
    rw [hx, mul_div_assoc, div_self hu.ne', mul_one]
    exact roundHalfEven_of_lt _ m (by linarith) (by linarith)
  rw [roundF32_eq x e m ?_ ?_ hm, hx]
  · rw [habs, e1]
    exact mul_le_mul_of_nonneg_right (by exact_mod_cast h1) hu.le
  · rw [habs, e2]
    exact mul_lt_mul_of_pos_right (by exact_mod_cast h2) hu

theorem roundF32_zero : roundF32 0 = 0 := if_pos rfl

end FloatTheorems

section SqrtTheorems

theorem sqrtF32_index (x : ℚ) (h : ℤ) (m : ℕ) (hx1 : (4 : ℚ) ^ h ≤ x) (hx2 : x < (4 : ℚ) ^ (h + 1))
    (hm1 : (m : ℚ) * m * (2 ^ (h - 23) * 2 ^ (h - 23)) ≤ x)
    (hm2 : x < ((m : ℚ) + 1) * (m + 1) * (2 ^ (h - 23) * 2 ^ (h - 23))) :
    Int.log 2 x / 2 = h ∧ Nat.sqrt ⌊x / (2 ^ (h - 23) * 2 ^ (h - 23))⌋₊ = m := by
  have hx : 0 < x := lt_of_lt_of_le (zpow_pos (by norm_num) h) hx1
  have hu : (0 : ℚ) < 2 ^ (h - 23) * 2 ^ (h - 23) :=
    mul_pos (zpow_pos (by norm_num) _) (zpow_pos (by norm_num) _)
  have p1 : (4 : ℚ) ^ h = 2 ^ (2 * h) := by
    rw [show (4 : ℚ) = 2 ^ (2 : ℤ) by norm_num, ← zpow_mul]
  have p2 : (4 : ℚ) ^ (h + 1) = 2 ^ (2 * h + 2) := by
    rw [show (4 : ℚ) = 2 ^ (2 : ℤ) by norm_num, ← zpow_mul]
    congr 1; ring
  have a1 : 2 * h ≤ Int.log 2 x :=
    (Int.zpow_le_iff_le_log (by norm_num : 1 < 2) hx (x := 2 * h)).mp
      (by rw [p1] at hx1; exact_mod_cast hx1)
  have a2 : Int.log 2 x < 2 * h + 2 :=
    (Int.lt_zpow_iff_log_lt (by norm_num : 1 < 2) hx (x := 2 * h + 2)).mp
      (by rw [p2] at hx2; exact_mod_cast hx2)
  refine ⟨by omega, ?_⟩
  symm
  rw [Nat.eq_sqrt]
  have hy : 0 ≤ x / (2 ^ (h - 23) * 2 ^ (h - 23)) := (div_pos hx hu).le
  constructor
  · rw [Nat.le_floor_iff hy, le_div_iff₀ hu]
    push_cast
    exact hm1
  · rw [Nat.floor_lt hy, div_lt_iff₀ hu]
    push_cast
    exact hm2

/-- Evaluation of `sqrtF32` when the root is nearer to `m * u` than to
`(m + 1) * u`. -/
theorem sqrtF32_eq_lo (x : ℚ) (h : ℤ) (m : ℕ) (hx1 : (4 : ℚ) ^ h ≤ x)
    (hx2 : x < (4 : ℚ) ^ (h + 1))
    (hm1 : (m : ℚ) * m * (2 ^ (h - 23) * 2 ^ (h - 23)) ≤ x)
    (hm2 : x < ((m : ℚ) + 1 / 2) * (m + 1 / 2) * (2 ^ (h - 23) * 2 ^ (h - 23))) :
    sqrtF32 x = m * 2 ^ (h - 23) := by
  have hx : 0 < x := lt_of_lt_of_le (zpow_pos (by norm_num) h) hx1
  have hu : (0 : ℚ) < 2 ^ (h - 23) * 2 ^ (h - 23) :=
    mul_pos (zpow_pos (by norm_num) _) (zpow_pos (by norm_num) _)
  have hm3 : x < ((m : ℚ) + 1) * (m + 1) * (2 ^ (h - 23) * 2 ^ (h - 23)) := by
    have hm0 : (0 : ℚ) ≤ m := Nat.cast_nonneg m
    have : ((m : ℚ) + 1 / 2) * (m + 1 / 2) ≤ ((m : ℚ) + 1) * (m + 1) := by nlinarith
    exact lt_of_lt_of_le hm2 (mul_le_mul_of_nonneg_right this hu.le)
  obtain ⟨e1, e2⟩ := sqrtF32_index x h m hx1 hx2 hm1 hm3
  unfold sqrtF32
  simp only [if_neg (not_le.mpr hx), e1, e2]
  rw [if_pos hm2]

/-- Evaluation of `sqrtF32` when the root is nearer to `(m + 1) * u` than to
`m * u`. -/
theorem sqrtF32_eq_hi (x : ℚ) (h : ℤ) (m : ℕ) (hx1 : (4 : ℚ) ^ h ≤ x)
    (hx2 : x < (4 : ℚ) ^ (h + 1))
    (hm1 : ((m : ℚ) + 1 / 2) * (m + 1 / 2) * (2 ^ (h - 23) * 2 ^ (h - 23)) < x)
    (hm2 : x < ((m : ℚ) + 1) * (m + 1) * (2 ^ (h - 23) * 2 ^ (h - 23))) :
    sqrtF32 x = (m + 1) * 2 ^ (h - 23) := by
  have hx : 0 < x := lt_of_lt_of_le (zpow_pos (by norm_num) h) hx1
  have hu : (0 : ℚ) < 2 ^ (h - 23) * 2 ^ (h - 23) :=
    mul_pos (zpow_pos (by norm_num) _) (zpow_pos (by norm_num) _)
  have hm3 : (m : ℚ) * m * (2 ^ (h - 23) * 2 ^ (h - 23)) ≤ x := by
    have hm0 : (0 : ℚ) ≤ m := Nat.cast_nonneg m
    have : (m : ℚ) * m ≤ ((m : ℚ) + 1 / 2) * (m + 1 / 2) := by nlinarith
    exact le_trans (mul_le_mul_of_nonneg_right this hu.le) hm1.le
  obtain ⟨e1, e2⟩ := sqrtF32_index x h m hx1 hx2 hm3 hm2
  unfold sqrtF32
  simp only [if_neg (not_le.mpr hx), e1, e2]
  rw [if_neg (not_lt.mpr hm1.le), if_pos hm1]

theorem sqrtF32_zero : sqrtF32 0 = 0 := if_pos (le_refl 0)

/-- The `float` square root of every number in `[1, 1 + 2^-24]` is `1`. -/
theorem sqrtF32_near_one (x : ℚ) (h1 : 1 ≤ x) (h2 : x ≤ 1 + 1 / 16777216) : sqrtF32 x = 1 := by
  have h := sqrtF32_eq_lo x 0 8388608 (by norm_num; exact h1) (by norm_num; linarith)
    (by norm_num; exact h1) (by norm_num; linarith)
  rw [h]; norm_num

end SqrtTheorems

section PoseTheorems

variable {K : Type} [Field K]

/-! ### Componentwise form of the vector operations -/

theorem Vec3.add_def3 (a b : Vec3 K) : a + b = ⟨a.x + b.x, a.y + b.y, a.z + b.z⟩ := rfl

theorem Vec3.sub_def3 (a b : Vec3 K) : a - b = ⟨a.x - b.x, a.y - b.y, a.z - b.z⟩ := rfl

theorem Vec3.neg_def3 (a : Vec3 K) : -a = ⟨-a.x, -a.y, -a.z⟩ := rfl

theorem Vec4.add_def4 (a b : Vec4 K) :
    a + b = ⟨a.x + b.x, a.y + b.y, a.z + b.z, a.w + b.w⟩ := rfl

/-! ### Quaternion identities used by the Pose theorems -/

theorem qrot_add (q : Vec4 K) (a b : Vec3 K) : qrot q (a + b) = qrot q a + qrot q b := by
  ext <;> simp only [qrot, qxdir, qydir, qzdir, Vec3.smul, Vec3.add_def3] <;> ring

theorem qrot_sub (q : Vec4 K) (a b : Vec3 K) : qrot q (a - b) = qrot q (-b) + qrot q a := by
  ext <;> simp only [qrot, qxdir, qydir, qzdir, Vec3.smul, Vec3.add_def3, Vec3.sub_def3,
    Vec3.neg_def3] <;> ring

theorem qrot_qmul (a b : Vec4 K) (v : Vec3 K) : qrot (qmul a b) v = qrot a (qrot b v) := by
  ext <;> simp only [qrot, qmul, qxdir, qydir, qzdir, Vec3.smul, Vec3.add_def3] <;> ring

theorem qmul_assoc (a b c : Vec4 K) : qmul (qmul a b) c = qmul a (qmul b c) := by
  ext <;> simp only [qmul] <;> ring

theorem qrot_qconj_qrot (q : Vec4 K) (v : Vec3 K) :
    qrot (qconj q) (qrot q v) = v.smul (q.length2 * q.length2) := by
  ext <;> simp only [qrot, qconj, Vec4.length2, qxdir, qydir, qzdir, Vec3.smul, Vec3.add_def3]
    <;> ring

theorem qrot_qrot_qconj (q : Vec4 K) (v : Vec3 K) :
    qrot q (qrot (qconj q) v) = v.smul (q.length2 * q.length2) := by
  ext <;> simp only [qrot, qconj, Vec4.length2, qxdir, qydir, qzdir, Vec3.smul, Vec3.add_def3]
    <;> ring

theorem qrot_sdiv_left (q : Vec4 K) (s : K) (v : Vec3 K) :
    qrot (q.sdiv s) v = (qrot q v).sdiv (s * s) := by
  ext <;> simp only [qrot, Vec4.sdiv, Vec3.sdiv, qxdir, qydir, qzdir, Vec3.smul, Vec3.add_def3]
    <;> ring

theorem qrot_sdiv_right (q : Vec4 K) (s : K) (v : Vec3 K) :
    qrot q (v.sdiv s) = (qrot q v).sdiv s := by
  ext <;> simp only [qrot, Vec3.sdiv, qxdir, qydir, qzdir, Vec3.smul, Vec3.add_def3]
    <;> ring

theorem Vec3.smul_sdiv_cancel (v : Vec3 K) (s : K) (hs : s ≠ 0) : (v.smul s).sdiv s = v := by
  ext <;> simp only [Vec3.smul, Vec3.sdiv] <;> field_simp

theorem qrot_qinv_qrot (q : Vec4 K) (hq : q.length2 ≠ 0) (v : Vec3 K) :
    qrot (qinv q) (qrot q v) = v := by
  rw [qinv, qrot_sdiv_left, qrot_qconj_qrot, Vec3.smul_sdiv_cancel _ _ (mul_ne_zero hq hq)]

theorem qrot_qrot_qinv (q : Vec4 K) (hq : q.length2 ≠ 0) (v : Vec3 K) :
    qrot q (qrot (qinv q) v) = v := by
  rw [qinv, qrot_sdiv_left, qrot_sdiv_right, qrot_qrot_qconj,
    Vec3.smul_sdiv_cancel _ _ (mul_ne_zero hq hq)]

theorem qmul_qinv (q : Vec4 K) (hq : q.length2 ≠ 0) : qmul q (qinv q) = ⟨0, 0, 0, 1⟩ := by
  have hq2 : q.x * q.x + q.y * q.y + q.z * q.z + q.w * q.w ≠ 0 := hq
  ext <;> simp only [qmul, qinv, qconj, Vec4.sdiv, Vec4.length2] <;> field_simp <;> ring

theorem qinv_qmul (q : Vec4 K) (hq : q.length2 ≠ 0) : qmul (qinv q) q = ⟨0, 0, 0, 1⟩ := by
  have hq2 : q.x * q.x + q.y * q.y + q.z * q.z + q.w * q.w ≠ 0 := hq
  ext <;> simp only [qmul, qinv, qconj, Vec4.sdiv, Vec4.length2] <;> field_simp <;> ring

theorem qmul_one_left (q : Vec4 K) : qmul ⟨0, 0, 0, 1⟩ q = q := by
  ext <;> simp [qmul]

theorem IsUnit.length2_ne_zero {q : Vec4 K} (h : IsUnit q) : q.length2 ≠ 0 := by
  rw [h]; exact one_ne_zero

theorem Vec3.add_sub_cancel_left3 (p v : Vec3 K) : (p + v) - p = v := by
  ext <;> simp [Vec3.add_def3, Vec3.sub_def3]

theorem qmul_one_right (q : Vec4 K) : qmul q ⟨0, 0, 0, 1⟩ = q := by
  ext <;> simp [qmul]

theorem Vec3.add_neg_self3 (p : Vec3 K) : p + -p = ⟨0, 0, 0⟩ := by
  ext <;> simp [Vec3.add_def3, Vec3.neg_def3]

theorem Vec3.eq_neg_of_add_eq_zero3 (p v : Vec3 K) (h : p + v = ⟨0, 0, 0⟩) : v = -p := by
  have hx := congrArg Vec3.x h
  have hy := congrArg Vec3.y h
  have hz := congrArg Vec3.z h
  simp only [Vec3.add_def3] at hx hy hz
  ext <;> simp only [Vec3.neg_def3]
  · linear_combination hx
  · linear_combination hy
  · linear_combination hz

/-! ### Pose theorems -/

/-- C1: for a Pose whose orientation is a unit quaternion, `detransform_coord`
undoes `transform_coord` exactly on every point. -/
theorem pose_detransform_transform_coord (P : Pose K) (h : IsUnit P.orientation)
    (v : Vec3 K) : P.detransform_coord (P.transform_coord v) = v := by
  unfold Pose.detransform_coord Pose.detransform_vector Pose.transform_coord
    Pose.transform_vector
  rw [Vec3.add_sub_cancel_left3, qrot_qinv_qrot _ h.length2_ne_zero]

/-- C1 at a concrete Pose over the rationals. -/
theorem pose_detransform_transform_coord_witness :
    IsUnit (⟨1 / 2, 1 / 2, 1 / 2, 1 / 2⟩ : Vec4 ℚ) ∧
      (⟨⟨1 / 2, 1 / 2, 1 / 2, 1 / 2⟩, ⟨1, 2, 3⟩⟩ : Pose ℚ).detransform_coord
        ((⟨⟨1 / 2, 1 / 2, 1 / 2, 1 / 2⟩, ⟨1, 2, 3⟩⟩ : Pose ℚ).transform_coord ⟨4, 5, 6⟩)
        = ⟨4, 5, 6⟩ :=
  ⟨by norm_num [IsUnit, Vec4.length2],
   pose_detransform_transform_coord _ (by norm_num [IsUnit, Vec4.length2]) _⟩

/-- C2: for a Pose `P` whose orientation is a unit quaternion, `P * P.inverse()`
is the identity Pose, and `P.inverse()` is the only Pose `X` with `P * X` the
identity Pose. -/
theorem pose_mul_inverse_unique (P : Pose K) (h : IsUnit P.orientation) :
    P * P.inverse = Pose.identity ∧
      ∀ X : Pose K, P * X = Pose.identity → X = P.inverse := by
  have hne := h.length2_ne_zero
  constructor
  · show Pose.mul P P.inverse = Pose.identity
    unfold Pose.mul Pose.inverse Pose.transform_coord Pose.transform_vector Pose.identity
    simp only [qmul_qinv _ hne, qrot_qrot_qinv _ hne, Vec3.add_neg_self3]
  · intro X hX
    have ho : qmul P.orientation X.orientation = ⟨0, 0, 0, 1⟩ :=
      congrArg Pose.orientation hX
    have hp : P.position + qrot P.orientation X.position = ⟨0, 0, 0⟩ :=
      congrArg Pose.position hX
    have h1 : X.orientation = qinv P.orientation := by
      have := congrArg (qmul (qinv P.orientation)) ho
      rwa [← qmul_assoc, qinv_qmul _ hne, qmul_one_left, qmul_one_right] at this
    have h2 : X.position = qrot (qinv P.orientation) (-P.position) := by
      rw [← Vec3.eq_neg_of_add_eq_zero3 _ _ hp, qrot_qinv_qrot _ hne]
    ext1
    · exact h1
    · exact h2

/-- C2 at a concrete Pose over the rationals. -/
theorem pose_mul_inverse_unique_witness :
    IsUnit (⟨3 / 5, 0, 4 / 5, 0⟩ : Vec4 ℚ) ∧
      ((⟨⟨3 / 5, 0, 4 / 5, 0⟩, ⟨1, 2, 3⟩⟩ : Pose ℚ) *
          (⟨⟨3 / 5, 0, 4 / 5, 0⟩, ⟨1, 2, 3⟩⟩ : Pose ℚ).inverse = Pose.identity ∧
        ∀ X : Pose ℚ, (⟨⟨3 / 5, 0, 4 / 5, 0⟩, ⟨1, 2, 3⟩⟩ : Pose ℚ) * X = Pose.identity →
          X = (⟨⟨3 / 5, 0, 4 / 5, 0⟩, ⟨1, 2, 3⟩⟩ : Pose ℚ).inverse) :=
  ⟨by norm_num [IsUnit, Vec4.length2],
   pose_mul_inverse_unique _ (by norm_num [IsUnit, Vec4.length2])⟩

/-- C3: for every Pose and every vector, the direct detransforms agree with
going through `inverse()`: `detransform_vector(v) = inverse().transform_vector(v)`
and `detransform_coord(v) = inverse().transform_coord(v)`. -/
theorem pose_detransform_eq_inverse_transform (P : Pose K) (v : Vec3 K) :
    P.detransform_vector v = P.inverse.transform_vector v ∧
      P.detransform_coord v = P.inverse.transform_coord v := by
  constructor
  · rfl
  · unfold Pose.detransform_coord Pose.detransform_vector Pose.transform_coord
      Pose.transform_vector Pose.inverse
    exact qrot_sub _ _ _

/-- C4: for all Poses `A` and `B`, `A * B` has orientation
`qmul(A.orientation, B.orientation)` and position `A.transform_coord(B.position)`,
and transforming a point by `A * B` is transforming it by `B` and then by `A`. -/
theorem pose_mul_applies_in_frame (A B : Pose K) :
    (A * B).orientation = qmul A.orientation B.orientation ∧
      (A * B).position = A.transform_coord B.position ∧
      ∀ v : Vec3 K, (A * B).transform_coord v = A.transform_coord (B.transform_coord v) := by
  refine ⟨rfl, rfl, fun v => ?_⟩
  show (Pose.mul A B).transform_coord v = _
  unfold Pose.mul Pose.transform_coord Pose.transform_vector
  simp only [qrot_qmul, qrot_add]
  ext <;> simp only [Vec3.add_def3] <;> ring

/-- C5: for every Pose `P` and 3-vector `v`, the matrix `P.matrix()` transforms
coordinates and vectors exactly as `P` does. -/
theorem pose_matrix_equivalent (P : Pose K) (v : Vec3 K) :
    transform_coord P.matrix v = P.transform_coord v ∧
      transform_vector P.matrix v = P.transform_vector v := by
  constructor
  · ext <;> simp only [transform_coord, Pose.matrix, make_rigid_transformation_matrix,
      Mat4.mulVec, Vec4.ofVec3, Vec4.smul, Vec4.add_def4, Vec4.xyz, Vec3.sdiv,
      Pose.transform_coord, Pose.transform_vector, qrot, Vec3.smul, Vec3.add_def3] <;> ring
  · ext <;> simp only [transform_vector, Pose.matrix, make_rigid_transformation_matrix,
      Mat4.mulVec, Vec4.ofVec3, Vec4.smul, Vec4.add_def4, Vec4.xyz,
      Pose.transform_vector, qrot, Vec3.smul, Vec3.add_def3] <;> ring

end PoseTheorems

section DiagonalizerTheorems

variable {K : Type} [LinearOrderedField K]

/-! ### Consequences of the square-root contract -/

theorem IsSqrt.nonneg {sqrt : K → K} (hs : IsSqrt sqrt) {x : K} (hx : 0 ≤ x) : 0 ≤ sqrt x :=
  (hs x hx).1

theorem IsSqrt.mul_self {sqrt : K → K} (hs : IsSqrt sqrt) {x : K} (hx : 0 ≤ x) :
    sqrt x * sqrt x = x :=
  (hs x hx).2

theorem IsSqrt.one_le {sqrt : K → K} (hs : IsSqrt sqrt) {x : K} (hx : 1 ≤ x) : 1 ≤ sqrt x := by
  have h0 : (0 : K) ≤ x := le_trans zero_le_one hx
  have h1 := hs.nonneg h0
  have h2 := hs.mul_self h0
  by_contra hlt
  push_neg at hlt
  nlinarith

theorem IsSqrt.one {sqrt : K → K} (hs : IsSqrt sqrt) : sqrt 1 = 1 := by
  have h1 := hs.one_le (le_refl (1 : K))
  have h2 := hs.mul_self (zero_le_one : (0 : K) ≤ 1)
  nlinarith

theorem IsSqrt.pos {sqrt : K → K} (hs : IsSqrt sqrt) {x : K} (hx : 0 < x) : 0 < sqrt x := by
  have h1 := hs.nonneg hx.le
  have h2 := hs.mul_self hx.le
  rcases h1.lt_or_eq with h | h
  · exact h
  · rw [← h] at h2; simp at h2; exact absurd h2.symm hx.ne'

/-- The real square root satisfies the contract. -/
theorem isSqrt_real : IsSqrt Real.sqrt :=
  fun x hx => ⟨Real.sqrt_nonneg x, Real.mul_self_sqrt hx⟩

/-! ### Unit length is preserved by every composition -/

theorem length2_qmul (a b : Vec4 K) : (qmul a b).length2 = a.length2 * b.length2 := by
  simp only [qmul, Vec4.length2]; ring

theorem IsUnit.qmul {a b : Vec4 K} (ha : IsUnit a) (hb : IsUnit b) : IsUnit (qmul a b) := by
  unfold IsUnit at *; rw [length2_qmul, ha, hb, one_mul]

theorem normalize_of_isUnit {sqrt : K → K} (hs : IsSqrt sqrt) {a : Vec4 K} (ha : IsUnit a) :
    Vec4.normalize sqrt a = a := by
  unfold Vec4.normalize
  rw [ha, hs.one]
  ext <;> simp [Vec4.sdiv]

theorem pivot_lt (off : Vec3 K) : pivot off < 3 := by
  unfold pivot
  simp only
  split_ifs <;> decide

theorem jacobiSgn_mul_self (thet : K) : jacobiSgn thet * jacobiSgn thet = 1 := by
  unfold jacobiSgn; split_ifs <;> norm_num

/-- With a true square root, `c = 1 / sqrt(t*t + 1)` lies in `(0, 1]`. -/
theorem jacobiC_bounds {sqrt : K → K} (hs : IsSqrt sqrt) (t : K) :
    0 < jacobiC sqrt t ∧ jacobiC sqrt t ≤ 1 := by
  have h1 : (1 : K) ≤ t * t + 1 := by nlinarith [mul_self_nonneg t]
  have h2 := hs.one_le h1
  have h3 : (0 : K) < sqrt (t * t + 1) := lt_of_lt_of_le zero_lt_one h2
  exact ⟨div_pos zero_lt_one h3, (div_le_one h3).mpr h2⟩

/-- The shape of the quaternion written by lines 45-48: `u` at index `k` and
`v` in `w`, with `u*u = (1 - c)/2` and `v*v = (1 + c)/2`. -/
theorem jacobiQuat_shape {sqrt : K → K} (hs : IsSqrt sqrt) (k : Nat) (hk : k < 3)
    (sgn c : K) (hsgn : sgn * sgn = 1) (hc1 : c ≤ 1) (hc0 : -1 ≤ c) :
    jacobiQuat sqrt k sgn c = (⟨0, 0, 0, (jacobiQuat sqrt k sgn c).w⟩ : Vec4 K).set k
        (sgn * sqrt ((1 - c) / 2) * -1) ∧
      (sgn * sqrt ((1 - c) / 2) * -1) * (sgn * sqrt ((1 - c) / 2) * -1) = (1 - c) / 2 ∧
      (jacobiQuat sqrt k sgn c).w = sqrt ((1 + c) / 2) ∧
      (jacobiQuat sqrt k sgn c).w * (jacobiQuat sqrt k sgn c).w = (1 + c) / 2 := by
  have hA : (0 : K) ≤ (1 - c) / 2 := by linarith
  have hB : (0 : K) ≤ (1 + c) / 2 := by linarith
  have h1 := hs.mul_self hA
  have h2 := hs.mul_self hB
  have h3 : (sgn * sqrt ((1 - c) / 2) * -1) * (sgn * sqrt ((1 - c) / 2) * -1) = (1 - c) / 2 := by
    have : (sgn * sqrt ((1 - c) / 2) * -1) * (sgn * sqrt ((1 - c) / 2) * -1)
        = (sgn * sgn) * (sqrt ((1 - c) / 2) * sqrt ((1 - c) / 2)) := by ring
    rw [this, hsgn, h1, one_mul]
  have h4 : 1 - (sgn * sqrt ((1 - c) / 2) * -1) * (sgn * sqrt ((1 - c) / 2) * -1)
      = (1 + c) / 2 := by rw [h3]; ring
  have hw : (jacobiQuat sqrt k sgn c).w = sqrt ((1 + c) / 2) := by
    interval_cases k <;> simp only [jacobiQuat, Vec4.set, Vec4.get] <;> rw [h4]
  refine ⟨?_, h3, hw, ?_⟩
  · interval_cases k <;> simp only [jacobiQuat, Vec4.set, Vec4.get]
  · rw [hw, h2]

theorem jacobiQuat_isUnit {sqrt : K → K} (hs : IsSqrt sqrt) (k : Nat) (hk : k < 3)
    (sgn c : K) (hsgn : sgn * sgn = 1) (hc0 : 0 ≤ c) (hc1 : c ≤ 1) :
    IsUnit (jacobiQuat sqrt k sgn c) := by
  obtain ⟨h1, h2, -, h4⟩ := jacobiQuat_shape hs k hk sgn c hsgn hc1 (by linarith)
  rw [h1]
  unfold IsUnit
  interval_cases k <;> simp only [Vec4.set, Vec4.length2] <;>
    linear_combination h2 + h4

theorem jacobi_isUnit {sqrt : K → K} (hs : IsSqrt sqrt) (D : Mat3 K) (k : Nat) (hk : k < 3)
    (jr : Vec4 K) (h : jacobi sqrt D k = some jr) : IsUnit jr := by
  unfold jacobi at h
  simp only at h
  split_ifs at h with h1 h2 h3
  simp only [Option.some.injEq] at h
  rw [← h]
  exact jacobiQuat_isUnit hs k hk _ _ (jacobiSgn_mul_self _) (jacobiC_bounds hs _).1.le
    (jacobiC_bounds hs _).2

/-! ### The Jacobi rotation of one loop step -/

theorem jacobiSgn_mul_nonneg (thet : K) : 0 ≤ thet * jacobiSgn thet := by
  unfold jacobiSgn; split_ifs with h
  · linarith
  · push_neg at h; linarith

/-- The denominator of line 42 is positive. -/
theorem jacobiT_den_pos {sqrt : K → K} (hs : IsSqrt sqrt) (thet : K) :
    0 < thet * jacobiSgn thet +
      (if thet * jacobiSgn thet < 1000000
        then sqrt (thet * jacobiSgn thet * (thet * jacobiSgn thet) + 1)
        else thet * jacobiSgn thet) := by
  have h0 := jacobiSgn_mul_nonneg thet
  split_ifs with h
  · have := hs.one_le (x := thet * jacobiSgn thet * (thet * jacobiSgn thet) + 1)
      (by nlinarith [mul_self_nonneg (thet * jacobiSgn thet)])
    linarith
  · push_neg at h; linarith

/-- `t` has the sign of `sgn`; in particular it is not zero. -/
theorem jacobiT_sgn_pos {sqrt : K → K} (hs : IsSqrt sqrt) (thet : K) :
    0 < jacobiSgn thet * jacobiT sqrt thet := by
  unfold jacobiT
  simp only
  rw [mul_div_assoc', jacobiSgn_mul_self]
  exact div_pos zero_lt_one (jacobiT_den_pos hs thet)

theorem jacobiT_ne_zero {sqrt : K → K} (hs : IsSqrt sqrt) (thet : K) :
    jacobiT sqrt thet ≠ 0 := by
  intro h
  have := jacobiT_sgn_pos hs thet
  rw [h, mul_zero] at this
  exact lt_irrefl _ this

/-- In the branch `thet >= 1.E6` of line 42 the tangent is `t = 1 / (2 * thet)`. -/
theorem jacobiT_large (sqrt : K → K) (thet : K) (h : 1000000 ≤ thet * jacobiSgn thet) :
    jacobiT sqrt thet * (2 * thet) = 1 := by
  have hs2 := jacobiSgn_mul_self thet
  have hpos : (0 : K) < thet * jacobiSgn thet := by linarith
  unfold jacobiT
  simp only
  rw [if_neg (not_lt.mpr h), div_mul_eq_mul_div, div_eq_one_iff_eq (by linarith)]
  ring

/-- In the branch `thet < 1.E6` of line 42 the tangent solves
`t*t + 2*thet*t - 1 = 0`. -/
theorem jacobiT_small {sqrt : K → K} (hs : IsSqrt sqrt) (thet : K)
    (h : thet * jacobiSgn thet < 1000000) :
    jacobiT sqrt thet * jacobiT sqrt thet + 2 * thet * jacobiT sqrt thet - 1 = 0 := by
  have hs2 := jacobiSgn_mul_self thet
  have hden := jacobiT_den_pos hs thet
  rw [if_pos h] at hden
  have hsq := hs.mul_self (x := thet * jacobiSgn thet * (thet * jacobiSgn thet) + 1)
    (by nlinarith [mul_self_nonneg (thet * jacobiSgn thet)])
  unfold jacobiT
  simp only
  rw [if_pos h]
  generalize jacobiSgn thet = sg at *
  generalize sqrt (thet * sg * (thet * sg) + 1) = r at *
  have ht : sg / (thet * sg + r) * (thet * sg + r) = sg := div_mul_cancel₀ _ hden.ne'
  generalize sg / (thet * sg + r) = t at *
  have key : (t * t + 2 * thet * t - 1) * ((thet * sg + r) * (thet * sg + r)) = 0 := by
    linear_combination (t * (thet * sg + r) + sg + 2 * thet * (thet * sg + r)) * ht + hs2 - hsq
  rcases mul_eq_zero.mp key with h1 | h1
  · exact h1
  · exact absurd h1 (mul_ne_zero hden.ne' hden.ne')

/-- The cosine of line 43: `c*c*(t*t + 1) = 1` and `0 < c`, and `c < 1` when
`t` is not zero. -/
theorem jacobiC_spec {sqrt : K → K} (hs : IsSqrt sqrt) (t : K) (ht : t ≠ 0) :
    jacobiC sqrt t * jacobiC sqrt t * (t * t + 1) = 1 ∧ 0 < jacobiC sqrt t ∧
      jacobiC sqrt t < 1 := by
  have ht2 : 0 < t * t := mul_self_pos.mpr ht
  have h1 : (1 : K) ≤ t * t + 1 := by linarith
  have h2 := hs.one_le h1
  have h3 : (0 : K) < sqrt (t * t + 1) := lt_of_lt_of_le zero_lt_one h2
  have h4 := hs.mul_self (x := t * t + 1) (by linarith)
  have h5 : 1 < sqrt (t * t + 1) := by
    rcases h2.lt_or_eq with h | h
    · exact h
    · rw [← h] at h4; linarith
  refine ⟨?_, (jacobiC_bounds hs t).1, ?_⟩
  · unfold jacobiC
    field_simp
    linear_combination -h4
  · unfold jacobiC
    rw [div_lt_one h3]
    exact h5

/-- When the pivot entry is not zero none of the three `break` statements is
taken: the step produces the rotation of lines 45-48. -/
theorem jacobi_eq_some {sqrt : K → K} (hs : IsSqrt sqrt) (D : Mat3 K) (k : Nat) (hk : k < 3)
    (hne : (offdiag D).get k ≠ 0) :
    jacobi sqrt D k = some (jacobiQuat sqrt k (jacobiSgn (jacobiTheta D k))
      (jacobiC sqrt (jacobiT sqrt (jacobiTheta D k)))) := by
  obtain ⟨-, hc0, hc1⟩ := jacobiC_spec hs _ (jacobiT_ne_zero hs (jacobiTheta D k))
  obtain ⟨-, -, -, hw⟩ := jacobiQuat_shape hs k hk (jacobiSgn (jacobiTheta D k))
    (jacobiC sqrt (jacobiT sqrt (jacobiTheta D k))) (jacobiSgn_mul_self _) hc1.le (by linarith)
  have hw1 : (jacobiQuat sqrt k (jacobiSgn (jacobiTheta D k))
      (jacobiC sqrt (jacobiT sqrt (jacobiTheta D k)))).w ≠ 1 := by
    intro h
    rw [h] at hw
    linarith
  unfold jacobi
  simp only
  rw [if_neg hne, if_neg hc1.ne, if_neg hw1]

/-- The only `break` that exact arithmetic can take is the first one. -/
theorem jacobi_eq_none_iff {sqrt : K → K} (hs : IsSqrt sqrt) (D : Mat3 K) (k : Nat)
    (hk : k < 3) : jacobi sqrt D k = none ↔ (offdiag D).get k = 0 := by
  constructor
  · intro h
    by_contra hne
    rw [jacobi_eq_some hs D k hk hne] at h
    exact absurd h (by simp)
  · intro h
    unfold jacobi
    rw [if_pos h]

/-- The product `2*u*v` of the two non-zero components of the Jacobi rotation
is `-(c*t)`: the rotation has cosine `c` and sine `-(c*t)`. -/
theorem jacobiQuat_cross {sqrt : K → K} (hs : IsSqrt sqrt) (k : Nat) (hk : k < 3) (thet : K) :
    2 * (jacobiSgn thet * sqrt ((1 - jacobiC sqrt (jacobiT sqrt thet)) / 2) * -1) *
        (jacobiQuat sqrt k (jacobiSgn thet) (jacobiC sqrt (jacobiT sqrt thet))).w =
      -(jacobiC sqrt (jacobiT sqrt thet) * jacobiT sqrt thet) := by
  obtain ⟨hc, hc0, hc1⟩ := jacobiC_spec hs _ (jacobiT_ne_zero hs thet)
  obtain ⟨-, hu, hw, hv⟩ := jacobiQuat_shape hs k hk (jacobiSgn thet)
    (jacobiC sqrt (jacobiT sqrt thet)) (jacobiSgn_mul_self _) hc1.le (by linarith)
  have hsgn := jacobiSgn_mul_self thet
  have hst := jacobiT_sgn_pos hs thet
  have ha : 0 ≤ sqrt ((1 - jacobiC sqrt (jacobiT sqrt thet)) / 2) :=
    hs.nonneg (by linarith)
  have hv0 : 0 ≤ (jacobiQuat sqrt k (jacobiSgn thet) (jacobiC sqrt (jacobiT sqrt thet))).w := by
    rw [hw]; exact hs.nonneg (by linarith)
  generalize jacobiC sqrt (jacobiT sqrt thet) = c at *
  generalize (jacobiQuat sqrt k (jacobiSgn thet) c).w = v at *
  generalize jacobiT sqrt thet = t at *
  generalize sqrt ((1 - c) / 2) = a at *
  generalize jacobiSgn thet = sg at *
  -- both sides have the same square and the same sign
  have hsq : (2 * a * v) * (2 * a * v) = (c * (sg * t)) * (c * (sg * t)) := by
    have e1 : a * a = (1 - c) / 2 := by
      have : sg * a * -1 * (sg * a * -1) = (sg * sg) * (a * a) := by ring
      rw [this, hsgn, one_mul] at hu
      exact hu
    have e2 : (c * (sg * t)) * (c * (sg * t)) = (sg * sg) * (c * c * (t * t)) := by ring
    rw [e2, hsgn, one_mul]
    have e3 : c * c * (t * t) = 1 - c * c := by linear_combination hc
    rw [e3]
    have e4 : (2 * a * v) * (2 * a * v) = 4 * (a * a) * (v * v) := by ring
    rw [e4, e1, hv]
    ring
  have hL : 0 ≤ 2 * a * v := by positivity
  have hR : 0 ≤ c * (sg * t) := by positivity
  have heq : 2 * a * v = c * (sg * t) := (mul_self_inj hL hR).mp hsq
  have : 2 * (sg * a * -1) * v = -(sg * (2 * a * v)) := by ring
  rw [this, heq]
  linear_combination (-(c * t)) * hsgn

theorem diagStep_isUnit {sqrt : K → K} (hs : IsSqrt sqrt) (A : Mat3 K) (q q1 : Vec4 K)
    (hq : IsUnit q) (h : diagStep sqrt A q = some q1) : IsUnit q1 := by
  unfold diagStep at h
  simp only at h
  split at h
  · exact absurd h (by simp)
  · rename_i jr hjr
    simp only [Option.some.injEq] at h
    have hu := hq.qmul (jacobi_isUnit hs _ _ (pivot_lt _) jr hjr)
    rw [← h, normalize_of_isUnit hs hu]
    exact hu

theorem Mat3.mul_assoc3 (a b c : Mat3 K) :
    Mat3.mul (Mat3.mul a b) c = Mat3.mul a (Mat3.mul b c) := by
  ext <;> simp only [Mat3.mul, Mat3.mulVec, Vec3.smul, Vec3.add_def3] <;> ring

theorem Mat3.transpose_mul3 (a b : Mat3 K) :
    Mat3.transpose (Mat3.mul a b) = Mat3.mul (Mat3.transpose b) (Mat3.transpose a) := by
  ext <;> simp only [Mat3.mul, Mat3.mulVec, Mat3.transpose, Vec3.smul, Vec3.add_def3] <;> ring

theorem qmat_qmul (a b : Vec4 K) : qmat (qmul a b) = Mat3.mul (qmat a) (qmat b) := by
  ext <;> simp only [qmat, qxdir, qydir, qzdir, qmul, Mat3.mul, Mat3.mulVec, Vec3.smul,
    Vec3.add_def3] <;> ring

/-- Composing a rotation `r` onto `q` conjugates `conjugated A q` by `qmat r`. -/
theorem conjugated_qmul (A : Mat3 K) (q r : Vec4 K) :
    conjugated A (qmul q r) =
      Mat3.mul (Mat3.transpose (qmat r)) (Mat3.mul (conjugated A q) (qmat r)) := by
  unfold conjugated
  rw [qmat_qmul, Mat3.transpose_mul3, Mat3.mul_assoc3, Mat3.mul_assoc3, Mat3.mul_assoc3]

theorem conjugated_qmul_y (A : Mat3 K) (q : Vec4 K) (h : K) (hh : 2 * (h * h) = 1) :
    conjugated A (qmul q ⟨0, h, 0, h⟩) =
      ⟨⟨(conjugated A q).z.z, -(conjugated A q).z.y, -(conjugated A q).z.x⟩,
       ⟨-(conjugated A q).y.z, (conjugated A q).y.y, (conjugated A q).y.x⟩,
       ⟨-(conjugated A q).x.z, (conjugated A q).x.y, (conjugated A q).x.x⟩⟩ := by
  have hR : qmat (⟨0, h, 0, h⟩ : Vec4 K) = ⟨⟨0, 0, -1⟩, ⟨0, 1, 0⟩, ⟨1, 0, 0⟩⟩ := by
    ext <;> simp only [qmat, qxdir, qydir, qzdir] <;>
      first | ring1 | linear_combination hh | linear_combination -hh
  rw [conjugated_qmul, hR]
  ext <;> simp only [Mat3.mul, Mat3.mulVec, Mat3.transpose, Vec3.smul, Vec3.add_def3] <;> ring

theorem conjugated_qmul_x (A : Mat3 K) (q : Vec4 K) (h : K) (hh : 2 * (h * h) = 1) :
    conjugated A (qmul q ⟨h, 0, 0, h⟩) =
      ⟨⟨(conjugated A q).x.x, (conjugated A q).x.z, -(conjugated A q).x.y⟩,
       ⟨(conjugated A q).z.x, (conjugated A q).z.z, -(conjugated A q).z.y⟩,
       ⟨-(conjugated A q).y.x, -(conjugated A q).y.z, (conjugated A q).y.y⟩⟩ := by
  have hR : qmat (⟨h, 0, 0, h⟩ : Vec4 K) = ⟨⟨1, 0, 0⟩, ⟨0, 0, 1⟩, ⟨0, -1, 0⟩⟩ := by
    ext <;> simp only [qmat, qxdir, qydir, qzdir] <;>
      first | ring1 | linear_combination hh | linear_combination -hh
  rw [conjugated_qmul, hR]
  ext <;> simp only [Mat3.mul, Mat3.mulVec, Mat3.transpose, Vec3.smul, Vec3.add_def3] <;> ring

theorem conjugated_qmul_z (A : Mat3 K) (q : Vec4 K) (h : K) (hh : 2 * (h * h) = 1) :
    conjugated A (qmul q ⟨0, 0, h, h⟩) =
      ⟨⟨(conjugated A q).y.y, -(conjugated A q).y.x, (conjugated A q).y.z⟩,
       ⟨-(conjugated A q).x.y, (conjugated A q).x.x, -(conjugated A q).x.z⟩,
       ⟨(conjugated A q).z.y, -(conjugated A q).z.x, (conjugated A q).z.z⟩⟩ := by
  have hR : qmat (⟨0, 0, h, h⟩ : Vec4 K) = ⟨⟨0, 1, 0⟩, ⟨-1, 0, 0⟩, ⟨0, 0, 1⟩⟩ := by
    ext <;> simp only [qmat, qxdir, qydir, qzdir] <;>
      first | ring1 | linear_combination hh | linear_combination -hh
  rw [conjugated_qmul, hR]
  ext <;> simp only [Mat3.mul, Mat3.mulVec, Mat3.transpose, Vec3.smul, Vec3.add_def3] <;> ring

/-- The half-turn about x of line 63 flips the signs of rows and columns 1 and 2. -/
theorem conjugated_flipX (A : Mat3 K) (q : Vec4 K) :
    conjugated A (qmul q ⟨1, 0, 0, 0⟩) =
      ⟨⟨(conjugated A q).x.x, -(conjugated A q).x.y, -(conjugated A q).x.z⟩,
       ⟨-(conjugated A q).y.x, (conjugated A q).y.y, (conjugated A q).y.z⟩,
       ⟨-(conjugated A q).z.x, (conjugated A q).z.y, (conjugated A q).z.z⟩⟩ := by
  have hR : qmat (⟨1, 0, 0, 0⟩ : Vec4 K) = ⟨⟨1, 0, 0⟩, ⟨0, -1, 0⟩, ⟨0, 0, -1⟩⟩ := by
    ext <;> simp only [qmat, qxdir, qydir, qzdir] <;> ring
  rw [conjugated_qmul, hR]
  ext <;> simp only [Mat3.mul, Mat3.mulVec, Mat3.transpose, Vec3.smul, Vec3.add_def3] <;> ring

/-- The half-turn about z of line 65 flips the signs of rows and columns 0 and 1. -/
theorem conjugated_flipZ (A : Mat3 K) (q : Vec4 K) :
    conjugated A (qmul q ⟨0, 0, 1, 0⟩) =
      ⟨⟨(conjugated A q).x.x, (conjugated A q).x.y, -(conjugated A q).x.z⟩,
       ⟨(conjugated A q).y.x, (conjugated A q).y.y, -(conjugated A q).y.z⟩,
       ⟨-(conjugated A q).z.x, -(conjugated A q).z.y, (conjugated A q).z.z⟩⟩ := by
  have hR : qmat (⟨0, 0, 1, 0⟩ : Vec4 K) = ⟨⟨-1, 0, 0⟩, ⟨0, -1, 0⟩, ⟨0, 0, 1⟩⟩ := by
    ext <;> simp only [qmat, qxdir, qydir, qzdir] <;> ring
  rw [conjugated_qmul, hR]
  ext <;> simp only [Mat3.mul, Mat3.mulVec, Mat3.transpose, Vec3.smul, Vec3.add_def3] <;> ring

/-- The normalized swap quaternions of lines 55, 58 and 61 have the two
non-zero components equal to some `h` with `2 * (h * h) = 1`. -/
theorem swap_component {sqrt : K → K} (hs : IsSqrt sqrt) :
    2 * ((7 / 10 / sqrt (49 / 50)) * (7 / 10 / sqrt (49 / 50))) = (1 : K) := by
  have hpos : (0 : K) < 49 / 50 := by norm_num
  have h1 := hs.pos hpos
  have h2 := hs.mul_self hpos.le
  field_simp
  linear_combination (-100 : K) * h2

theorem normalize_swapY {sqrt : K → K} :
    Vec4.normalize sqrt (⟨0, 7 / 10, 0, 7 / 10⟩ : Vec4 K) =
      ⟨0, 7 / 10 / sqrt (49 / 50), 0, 7 / 10 / sqrt (49 / 50)⟩ := by
  simp only [Vec4.normalize, Vec4.sdiv, Vec4.length2]
  norm_num

theorem normalize_swapX {sqrt : K → K} :
    Vec4.normalize sqrt (⟨7 / 10, 0, 0, 7 / 10⟩ : Vec4 K) =
      ⟨7 / 10 / sqrt (49 / 50), 0, 0, 7 / 10 / sqrt (49 / 50)⟩ := by
  simp only [Vec4.normalize, Vec4.sdiv, Vec4.length2]
  norm_num

theorem normalize_swapZ {sqrt : K → K} :
    Vec4.normalize sqrt (⟨0, 0, 7 / 10, 7 / 10⟩ : Vec4 K) =
      ⟨0, 0, 7 / 10 / sqrt (49 / 50), 7 / 10 / sqrt (49 / 50)⟩ := by
  simp only [Vec4.normalize, Vec4.sdiv, Vec4.length2]
  norm_num

/-- The quarter-turn about y of line 55 exchanges axes 0 and 2. -/
theorem conjugated_swapY {sqrt : K → K} (hs : IsSqrt sqrt) (A : Mat3 K) (q : Vec4 K) :
    conjugated A (qmul q (Vec4.normalize sqrt ⟨0, 7 / 10, 0, 7 / 10⟩)) =
      ⟨⟨(conjugated A q).z.z, -(conjugated A q).z.y, -(conjugated A q).z.x⟩,
       ⟨-(conjugated A q).y.z, (conjugated A q).y.y, (conjugated A q).y.x⟩,
       ⟨-(conjugated A q).x.z, (conjugated A q).x.y, (conjugated A q).x.x⟩⟩ := by
  rw [normalize_swapY, conjugated_qmul_y _ _ _ (swap_component hs)]

/-- The quarter-turn about x of line 58 exchanges axes 1 and 2. -/
theorem conjugated_swapX {sqrt : K → K} (hs : IsSqrt sqrt) (A : Mat3 K) (q : Vec4 K) :
    conjugated A (qmul q (Vec4.normalize sqrt ⟨7 / 10, 0, 0, 7 / 10⟩)) =
      ⟨⟨(conjugated A q).x.x, (conjugated A q).x.z, -(conjugated A q).x.y⟩,
       ⟨(conjugated A q).z.x, (conjugated A q).z.z, -(conjugated A q).z.y⟩,
       ⟨-(conjugated A q).y.x, -(conjugated A q).y.z, (conjugated A q).y.y⟩⟩ := by
  rw [normalize_swapX, conjugated_qmul_x _ _ _ (swap_component hs)]

/-- The quarter-turn about z of line 61 exchanges axes 0 and 1. -/
theorem conjugated_swapZ {sqrt : K → K} (hs : IsSqrt sqrt) (A : Mat3 K) (q : Vec4 K) :
    conjugated A (qmul q (Vec4.normalize sqrt ⟨0, 0, 7 / 10, 7 / 10⟩)) =
      ⟨⟨(conjugated A q).y.y, -(conjugated A q).y.x, (conjugated A q).y.z⟩,
       ⟨-(conjugated A q).x.y, (conjugated A q).x.x, -(conjugated A q).x.z⟩,
       ⟨(conjugated A q).z.y, -(conjugated A q).z.x, (conjugated A q).z.z⟩⟩ := by
  rw [normalize_swapZ, conjugated_qmul_z _ _ _ (swap_component hs)]

theorem flipX_isUnit : IsUnit (⟨1, 0, 0, 0⟩ : Vec4 K) := by norm_num [IsUnit, Vec4.length2]

theorem identity_isUnit : IsUnit (⟨0, 0, 0, 1⟩ : Vec4 K) := by norm_num [IsUnit, Vec4.length2]

theorem fixSwapY_diag {sqrt : K → K} (hs : IsSqrt sqrt) (A : Mat3 K) (q : Vec4 K) :
    (conjugated A (fixSwapY sqrt A q)).entry 0 0 ≤ (conjugated A (fixSwapY sqrt A q)).entry 2 2 := by
  unfold fixSwapY
  simp only
  split_ifs with h <;>
    simp only [conjugated_swapY hs, Mat3.entry, Vec3.get] at * <;> linarith

theorem fixSwapX_diag {sqrt : K → K} (hs : IsSqrt sqrt) (A : Mat3 K) (q : Vec4 K)
    (h02 : (conjugated A q).entry 0 0 ≤ (conjugated A q).entry 2 2) :
    (conjugated A (fixSwapX sqrt A q)).entry 0 0 ≤ (conjugated A (fixSwapX sqrt A q)).entry 2 2 ∧
      (conjugated A (fixSwapX sqrt A q)).entry 1 1 ≤
        (conjugated A (fixSwapX sqrt A q)).entry 2 2 := by
  unfold fixSwapX
  simp only
  split_ifs with h <;>
    simp only [conjugated_swapX hs, Mat3.entry, Vec3.get] at * <;> constructor <;> linarith

theorem fixSwapZ_diag {sqrt : K → K} (hs : IsSqrt sqrt) (A : Mat3 K) (q : Vec4 K)
    (h02 : (conjugated A q).entry 0 0 ≤ (conjugated A q).entry 2 2)
    (h12 : (conjugated A q).entry 1 1 ≤ (conjugated A q).entry 2 2) :
    (conjugated A (fixSwapZ sqrt A q)).entry 0 0 ≤ (conjugated A (fixSwapZ sqrt A q)).entry 1 1 ∧
      (conjugated A (fixSwapZ sqrt A q)).entry 1 1 ≤
        (conjugated A (fixSwapZ sqrt A q)).entry 2 2 := by
  unfold fixSwapZ
  simp only
  split_ifs with h <;>
    simp only [conjugated_swapZ hs, Mat3.entry, Vec3.get] at * <;> constructor <;> linarith

theorem fixFlipX_diag (A : Mat3 K) (q : Vec4 K) :
    (conjugated A (fixFlipX q)).entry 0 0 = (conjugated A q).entry 0 0 ∧
      (conjugated A (fixFlipX q)).entry 1 1 = (conjugated A q).entry 1 1 ∧
      (conjugated A (fixFlipX q)).entry 2 2 = (conjugated A q).entry 2 2 := by
  unfold fixFlipX
  split_ifs <;> simp [conjugated_flipX, Mat3.entry, Vec3.get]

theorem fixFlipZ_diag (A : Mat3 K) (q : Vec4 K) :
    (conjugated A (fixFlipZ q)).entry 0 0 = (conjugated A q).entry 0 0 ∧
      (conjugated A (fixFlipZ q)).entry 1 1 = (conjugated A q).entry 1 1 ∧
      (conjugated A (fixFlipZ q)).entry 2 2 = (conjugated A q).entry 2 2 := by
  unfold fixFlipZ
  split_ifs <;> simp [conjugated_flipZ, Mat3.entry, Vec3.get]

/-- After the fix-up pass the diagonal of `conjugated A q` is ascending, for
any matrix `A` and any start quaternion `q`. -/
theorem diagFixup_sorted {sqrt : K → K} (hs : IsSqrt sqrt) (A : Mat3 K) (q : Vec4 K) :
    (conjugated A (diagFixup sqrt A q)).entry 0 0 ≤ (conjugated A (diagFixup sqrt A q)).entry 1 1 ∧
      (conjugated A (diagFixup sqrt A q)).entry 1 1 ≤
        (conjugated A (diagFixup sqrt A q)).entry 2 2 := by
  unfold diagFixup
  have hY := fixSwapY_diag hs A q
  have hX := fixSwapX_diag hs A _ hY
  have hZ := fixSwapZ_diag hs A _ hX.1 hX.2
  obtain ⟨a0, a1, a2⟩ := fixFlipX_diag A (fixSwapZ sqrt A (fixSwapX sqrt A (fixSwapY sqrt A q)))
  obtain ⟨b0, b1, b2⟩ :=
    fixFlipZ_diag A (fixFlipX (fixSwapZ sqrt A (fixSwapX sqrt A (fixSwapY sqrt A q))))
  rw [b0, b1, b2, a0, a1, a2]
  exact hZ

theorem conjugated_one_identity : conjugated (Mat3.one : Mat3 K) ⟨0, 0, 0, 1⟩ = Mat3.one := by
  ext <;> simp only [conjugated, qmat, qxdir, qydir, qzdir, Mat3.mul, Mat3.mulVec,
    Mat3.transpose, Mat3.one, Vec3.smul, Vec3.add_def3] <;> ring

theorem diagStep_one (sqrt : K → K) : diagStep sqrt (Mat3.one : Mat3 K) ⟨0, 0, 0, 1⟩ = none := by
  unfold diagStep
  simp only [conjugated_one_identity]
  have hp : pivot (offdiag (Mat3.one : Mat3 K)) = 2 := by
    simp [pivot, offdiag, Mat3.one, Mat3.entry, Vec3.get]
  have hj : jacobi sqrt (Mat3.one : Mat3 K) 2 = none := by
    simp [jacobi, offdiag, Mat3.one, Mat3.entry, Vec3.get]
  rw [hp, hj]

theorem diagonalizer_one (sqrt : K → K) :
    diagonalizer sqrt (Mat3.one : Mat3 K) = ⟨0, 0, 0, 1⟩ := by
  have hY : fixSwapY sqrt (Mat3.one : Mat3 K) ⟨0, 0, 0, 1⟩ = ⟨0, 0, 0, 1⟩ := by
    simp only [fixSwapY, conjugated_one_identity]
    simp [Mat3.one, Mat3.entry, Vec3.get]
  have hX : fixSwapX sqrt (Mat3.one : Mat3 K) ⟨0, 0, 0, 1⟩ = ⟨0, 0, 0, 1⟩ := by
    simp only [fixSwapX, conjugated_one_identity]
    simp [Mat3.one, Mat3.entry, Vec3.get]
  have hZ : fixSwapZ sqrt (Mat3.one : Mat3 K) ⟨0, 0, 0, 1⟩ = ⟨0, 0, 0, 1⟩ := by
    simp only [fixSwapZ, conjugated_one_identity]
    simp [Mat3.one, Mat3.entry, Vec3.get]
  have hFX : fixFlipX (⟨0, 0, 0, 1⟩ : Vec4 K) = ⟨0, 0, 0, 1⟩ := by
    simp [fixFlipX, qzdir]
  have hFZ : fixFlipZ (⟨0, 0, 0, 1⟩ : Vec4 K) = ⟨0, 0, 0, 1⟩ := by
    simp [fixFlipZ, qydir]
  unfold diagonalizer diagLoop
  simp only [diagStep_one]
  unfold diagFixup
  rw [hY, hX, hZ, hFX, hFZ]

/-! ### Leaving the loop through the first `break` -/

theorem conjugated_identity (A : Mat3 K) : conjugated A ⟨0, 0, 0, 1⟩ = A := by
  ext <;> simp only [conjugated, qmat, qxdir, qydir, qzdir, Mat3.mul, Mat3.mulVec,
    Mat3.transpose, Vec3.smul, Vec3.add_def3] <;> ring

theorem conjugated_isSymm (A : Mat3 K) (hA : A.IsSymm) (q : Vec4 K) :
    (conjugated A q).IsSymm := by
  obtain ⟨h1, h2, h3⟩ := hA
  simp only [Mat3.entry, Vec3.get] at h1 h2 h3
  refine ⟨?_, ?_, ?_⟩ <;>
    simp only [conjugated, qmat, qxdir, qydir, qzdir, Mat3.mul, Mat3.mulVec, Mat3.transpose,
      Mat3.entry, Vec3.get, Vec3.smul, Vec3.add_def3] <;>
    rw [h1, h2, h3] <;> ring

/-- The pivot has the largest magnitude: if the pivot entry is zero, all three
entries of `offdiag` are zero. -/
theorem pivot_entry_zero (off : Vec3 K) (h : off.get (pivot off) = 0) :
    off.x = 0 ∧ off.y = 0 ∧ off.z = 0 := by
  unfold pivot at h
  simp only at h
  split_ifs at h with h1 h2
  · simp only [Vec3.get] at h
    rw [h, abs_zero] at h1
    exact absurd h1.1 (not_lt.mpr (abs_nonneg _))
  · simp only [Vec3.get] at h
    rw [h, abs_zero] at h2
    exact absurd h2 (not_lt.mpr (abs_nonneg _))
  · simp only [Vec3.get] at h
    rw [h, abs_zero] at h2
    have hy : off.y = 0 := abs_eq_zero.mp (le_antisymm (not_lt.mp h2) (abs_nonneg _))
    rw [h, hy, abs_zero] at h1
    have hx : off.x = 0 := by
      by_contra hne
      exact h1 ⟨abs_pos.mpr hne, abs_pos.mpr hne⟩
    exact ⟨hx, hy, h⟩

theorem diagStep_eq_none_iff {sqrt : K → K} (hs : IsSqrt sqrt) (A : Mat3 K) (q : Vec4 K) :
    diagStep sqrt A q = none ↔
      (offdiag (conjugated A q)).get (pivot (offdiag (conjugated A q))) = 0 := by
  rw [← jacobi_eq_none_iff hs _ _ (pivot_lt _)]
  unfold diagStep
  simp only
  split <;> simp_all

/-- In exact arithmetic the loop can only stop early on a diagonal matrix. -/
theorem diagStep_none_isDiagonal {sqrt : K → K} (hs : IsSqrt sqrt) (A : Mat3 K)
    (hA : A.IsSymm) (q : Vec4 K) (h : diagStep sqrt A q = none) :
    (conjugated A q).IsDiagonal := by
  obtain ⟨h1, h2, h3⟩ := pivot_entry_zero _ ((diagStep_eq_none_iff hs A q).mp h)
  obtain ⟨s1, s2, s3⟩ := conjugated_isSymm A hA q
  simp only [offdiag] at h1 h2 h3
  exact ⟨h3, h2, h1, by rw [← s1]; exact h3, by rw [← s2]; exact h2, by rw [← s3]; exact h1⟩

theorem diagLoop_succ (sqrt : K → K) (A : Mat3 K) (n : Nat) :
    ∀ q : Vec4 K, diagLoop sqrt A (n + 1) q =
      (diagStep sqrt A (diagLoop sqrt A n q)).getD (diagLoop sqrt A n q) := by
  induction n with
  | zero =>
    intro q
    simp only [diagLoop]
    cases diagStep sqrt A q <;> rfl
  | succ n ih =>
    intro q
    rw [diagLoop]
    cases h : diagStep sqrt A q with
    | none => simp [diagLoop, h]
    | some q1 =>
      simp only
      rw [ih q1]
      simp [diagLoop, h]

/-- Once a step executes `break`, more iterations do not change `q`. -/
theorem diagLoop_stable (sqrt : K → K) (A : Mat3 K) (q : Vec4 K) (n : Nat)
    (h : diagStep sqrt A (diagLoop sqrt A n q) = none) (m : Nat) :
    diagLoop sqrt A (n + m) q = diagLoop sqrt A n q := by
  induction m with
  | zero => rfl
  | succ m ih =>
    rw [← Nat.add_assoc, diagLoop_succ, ih, h]
    rfl

theorem fixSwapY_isDiagonal {sqrt : K → K} (hs : IsSqrt sqrt) (A : Mat3 K) (q : Vec4 K)
    (h : (conjugated A q).IsDiagonal) : (conjugated A (fixSwapY sqrt A q)).IsDiagonal := by
  unfold fixSwapY
  simp only
  split_ifs
  · simp only [Mat3.IsDiagonal, conjugated_swapY hs, Mat3.entry, Vec3.get, neg_eq_zero] at *
    tauto
  · exact h

theorem fixSwapX_isDiagonal {sqrt : K → K} (hs : IsSqrt sqrt) (A : Mat3 K) (q : Vec4 K)
    (h : (conjugated A q).IsDiagonal) : (conjugated A (fixSwapX sqrt A q)).IsDiagonal := by
  unfold fixSwapX
  simp only
  split_ifs
  · simp only [Mat3.IsDiagonal, conjugated_swapX hs, Mat3.entry, Vec3.get, neg_eq_zero] at *
    tauto
  · exact h

theorem fixSwapZ_isDiagonal {sqrt : K → K} (hs : IsSqrt sqrt) (A : Mat3 K) (q : Vec4 K)
    (h : (conjugated A q).IsDiagonal) : (conjugated A (fixSwapZ sqrt A q)).IsDiagonal := by
  unfold fixSwapZ
  simp only
  split_ifs
  · simp only [Mat3.IsDiagonal, conjugated_swapZ hs, Mat3.entry, Vec3.get, neg_eq_zero] at *
    tauto
  · exact h

theorem fixFlipX_isDiagonal (A : Mat3 K) (q : Vec4 K)
    (h : (conjugated A q).IsDiagonal) : (conjugated A (fixFlipX q)).IsDiagonal := by
  unfold fixFlipX
  split_ifs
  · simp only [Mat3.IsDiagonal, conjugated_flipX, Mat3.entry, Vec3.get, neg_eq_zero] at *
    tauto
  · exact h

theorem fixFlipZ_isDiagonal (A : Mat3 K) (q : Vec4 K)
    (h : (conjugated A q).IsDiagonal) : (conjugated A (fixFlipZ q)).IsDiagonal := by
  unfold fixFlipZ
  split_ifs
  · simp only [Mat3.IsDiagonal, conjugated_flipZ, Mat3.entry, Vec3.get, neg_eq_zero] at *
    tauto
  · exact h

/-- The fix-up pass keeps a diagonal matrix diagonal. -/
theorem diagFixup_isDiagonal {sqrt : K → K} (hs : IsSqrt sqrt) (A : Mat3 K) (q : Vec4 K)
    (h : (conjugated A q).IsDiagonal) : (conjugated A (diagFixup sqrt A q)).IsDiagonal :=
  fixFlipZ_isDiagonal A _ (fixFlipX_isDiagonal A _ (fixSwapZ_isDiagonal hs A _
    (fixSwapX_isDiagonal hs A _ (fixSwapY_isDiagonal hs A q h))))

theorem diagonalizer_isDiagonal_of_break {sqrt : K → K} (hs : IsSqrt sqrt) (A : Mat3 K)
    (hA : A.IsSymm) (n : Nat) (hn : n < 24)
    (hbreak : diagStep sqrt A (diagLoop sqrt A n ⟨0, 0, 0, 1⟩) = none) :
    (conjugated A (diagonalizer sqrt A)).IsDiagonal := by
  unfold diagonalizer
  have h24 : 24 = n + (24 - n) := by omega
  rw [h24, diagLoop_stable sqrt A _ n hbreak]
  exact diagFixup_isDiagonal hs A _ (diagStep_none_isDiagonal hs A hA _ hbreak)

/-! ### A matrix on which the loop never reaches a diagonal form -/

theorem jacobiSgn_mul_abs (thet : K) : thet * jacobiSgn thet = |thet| := by
  unfold jacobiSgn; split_ifs with h
  · rw [mul_one, abs_of_pos h]
  · push_neg at h; rw [abs_of_nonpos h]; ring

theorem rotX_entries (D : Mat3 K) (u v : K) :
    (Mat3.mul (Mat3.transpose (qmat ⟨u, 0, 0, v⟩)) (Mat3.mul D (qmat ⟨u, 0, 0, v⟩))).entry 2 1 =
        (v * v - u * u) * (v * v - u * u) * D.entry 2 1
          - (2 * u * v) * (2 * u * v) * D.entry 1 2
          + (v * v - u * u) * (2 * u * v) * (D.entry 2 2 - D.entry 1 1) ∧
      (Mat3.mul (Mat3.transpose (qmat ⟨u, 0, 0, v⟩)) (Mat3.mul D (qmat ⟨u, 0, 0, v⟩))).entry 2 2
        - (Mat3.mul (Mat3.transpose (qmat ⟨u, 0, 0, v⟩))
            (Mat3.mul D (qmat ⟨u, 0, 0, v⟩))).entry 1 1 =
        ((v * v - u * u) * (v * v - u * u) - (2 * u * v) * (2 * u * v))
            * (D.entry 2 2 - D.entry 1 1)
          - 2 * ((v * v - u * u) * (2 * u * v)) * (D.entry 1 2 + D.entry 2 1) := by
  constructor <;>
    simp only [qmat, qxdir, qydir, qzdir, Mat3.mul, Mat3.mulVec, Mat3.transpose, Mat3.entry,
      Vec3.get, Vec3.smul, Vec3.add_def3] <;> ring

/-- The algebra of one approximate step: with `t*d = b`, `c*c*(t*t+1) = 1`,
cosine `c` and sine `-(c*t)`, the new off-diagonal entry is `-(b*c*c*t*t)` and
the new diagonal gap is `c*c*(d + 3*t*t*d)`. -/
theorem slow_step_algebra (b d t c cs sn : K) (htd : t * d = b) (hc : c * c * (t * t + 1) = 1)
    (hcs : cs = c) (hsn : sn = -(c * t)) :
    cs * cs * b - sn * sn * b + cs * sn * d = -(b * (c * c) * (t * t)) ∧
      (cs * cs - sn * sn) * d - 2 * (cs * sn) * (b + b) = c * c * (d + 3 * (t * t) * d) := by
  subst hcs hsn
  constructor
  · linear_combination (-(cs * cs)) * htd
  · linear_combination (-(4 * (cs * cs) * t)) * htd

theorem slow_step {sqrt : K → K} (hs : IsSqrt sqrt) (q : Vec4 K) (h : SlowInv q) :
    ∃ q1, diagStep sqrt (slowExample : Mat3 K) q = some q1 ∧ SlowInv q1 := by
  obtain ⟨x, y, z, w⟩ := q
  obtain ⟨hy, hz, hu, hb, hd⟩ := h
  simp only at hy hz
  subst hy hz
  have hsym := conjugated_isSymm (slowExample : Mat3 K)
    (by simp [Mat3.IsSymm, slowExample, Mat3.entry, Vec3.get]) ⟨x, 0, 0, w⟩
  have hD20 : (conjugated (slowExample : Mat3 K) ⟨x, 0, 0, w⟩).entry 2 0 = 0 := by
    simp only [conjugated, slowExample, qmat, qxdir, qydir, qzdir, Mat3.mul, Mat3.mulVec,
      Mat3.transpose, Mat3.entry, Vec3.get, Vec3.smul, Vec3.add_def3]
    ring
  have hD10 : (conjugated (slowExample : Mat3 K) ⟨x, 0, 0, w⟩).entry 1 0 = 0 := by
    simp only [conjugated, slowExample, qmat, qxdir, qydir, qzdir, Mat3.mul, Mat3.mulVec,
      Mat3.transpose, Mat3.entry, Vec3.get, Vec3.smul, Vec3.add_def3]
    ring
  generalize hDdef : conjugated (slowExample : Mat3 K) ⟨x, 0, 0, w⟩ = D at *
  have hbpos : 0 < |D.entry 2 1| := abs_pos.mpr hb
  have hoff : offdiag D = ⟨D.entry 2 1, 0, 0⟩ := by
    simp only [offdiag, hD20, hD10]
  have hpiv : pivot (offdiag D) = 0 := by
    rw [hoff]; simp [pivot, hbpos]
  have hget : (offdiag D).get 0 = D.entry 2 1 := by rw [hoff]; rfl
  have hj := jacobi_eq_some hs D 0 (by norm_num) (by rw [hget]; exact hb)
  have hθ : jacobiTheta D 0 = (D.entry 2 2 - D.entry 1 1) / (2 * D.entry 2 1) := by
    simp only [jacobiTheta, hget]
  have hdnn : 0 ≤ D.entry 2 2 - D.entry 1 1 := le_trans (by positivity) hd
  have hlarge : 1000000 ≤ jacobiTheta D 0 * jacobiSgn (jacobiTheta D 0) := by
    rw [jacobiSgn_mul_abs, hθ, abs_div, abs_of_nonneg hdnn, abs_mul, abs_two,
      le_div_iff₀ (by positivity)]
    linarith
  have ht := jacobiT_large sqrt _ hlarge
  obtain ⟨hc, hc0, hc1⟩ := jacobiC_spec hs _ (jacobiT_ne_zero hs (jacobiTheta D 0))
  obtain ⟨hshape, hu2, -, hv2⟩ := jacobiQuat_shape hs 0 (by norm_num)
    (jacobiSgn (jacobiTheta D 0)) (jacobiC sqrt (jacobiT sqrt (jacobiTheta D 0)))
    (jacobiSgn_mul_self _) hc1.le (by linarith)
  have hcross := jacobiQuat_cross hs 0 (by norm_num) (jacobiTheta D 0)
  have hjunit := jacobiQuat_isUnit hs 0 (by norm_num) (jacobiSgn (jacobiTheta D 0))
    (jacobiC sqrt (jacobiT sqrt (jacobiTheta D 0))) (jacobiSgn_mul_self _) hc0.le hc1.le
  have htne := jacobiT_ne_zero hs (jacobiTheta D 0)
  have htd : jacobiT sqrt (jacobiTheta D 0) * (D.entry 2 2 - D.entry 1 1) = D.entry 2 1 := by
    generalize jacobiT sqrt (jacobiTheta D 0) = T at ht ⊢
    rw [hθ] at ht
    field_simp at ht
    linear_combination (1 / 2 : K) * ht
  -- the step does not break and the new quaternion is the plain product
  refine ⟨qmul ⟨x, 0, 0, w⟩ (jacobiQuat sqrt 0 (jacobiSgn (jacobiTheta D 0))
    (jacobiC sqrt (jacobiT sqrt (jacobiTheta D 0)))), ?_, ?_⟩
  · unfold diagStep
    simp only
    rw [hDdef, hpiv, hj]
    simp only
    rw [normalize_of_isUnit hs (hu.qmul hjunit)]
  · simp only [Vec4.set] at hshape
    generalize jacobiT sqrt (jacobiTheta D 0) = t at *
    generalize jacobiC sqrt t = c at *
    generalize hv : (jacobiQuat sqrt 0 (jacobiSgn (jacobiTheta D 0)) c).w = v at *
    generalize jacobiSgn (jacobiTheta D 0) * sqrt ((1 - c) / 2) * -1 = u at *
    rw [hshape]
    have hcs : v * v - u * u = c := by linear_combination hv2 - hu2
    obtain ⟨e1, e2⟩ := rotX_entries D u v
    obtain ⟨a1, a2⟩ := slow_step_algebra (D.entry 2 1) (D.entry 2 2 - D.entry 1 1) t c
      (v * v - u * u) (2 * u * v) htd hc hcs hcross
    have hs12 : D.entry 1 2 = D.entry 2 1 := hsym.2.2.symm
    refine ⟨by simp [qmul], by simp [qmul], ?_, ?_, ?_⟩
    · rw [← hshape]; exact hu.qmul hjunit
    · rw [conjugated_qmul, hDdef, e1, hs12, a1]
      exact neg_ne_zero.mpr (mul_ne_zero (mul_ne_zero hb (mul_ne_zero hc0.ne' hc0.ne'))
        (mul_ne_zero htne htne))
    · rw [conjugated_qmul, hDdef, e1, e2, hs12, a1, a2, abs_neg, abs_mul, abs_mul,
        abs_mul_self, abs_mul_self]
      have h1 : 0 ≤ c * c * (t * t) := mul_nonneg (mul_self_nonneg c) (mul_self_nonneg t)
      have h2 := mul_le_mul_of_nonneg_right hd h1
      have h3 := mul_nonneg (mul_self_nonneg c) hdnn
      have h4 := mul_nonneg h1 hdnn
      linarith

/-- Entries of `conjugated slowExample q` for a rotation about the x axis. -/
theorem slow_entries (x w : K) :
    (conjugated (slowExample : Mat3 K) ⟨x, 0, 0, w⟩) =
      ⟨⟨0, 0, 0⟩,
       ⟨0, (w * w - x * x) * (w * w - x * x) + 2 * (w * w - x * x) * (2 * x * w)
            + 4000001 * ((2 * x * w) * (2 * x * w)),
           (w * w - x * x) * (w * w - x * x) - (2 * x * w) * (2 * x * w)
            + 4000000 * ((w * w - x * x) * (2 * x * w))⟩,
       ⟨0, (w * w - x * x) * (w * w - x * x) - (2 * x * w) * (2 * x * w)
            + 4000000 * ((w * w - x * x) * (2 * x * w)),
           (2 * x * w) * (2 * x * w) - 2 * (w * w - x * x) * (2 * x * w)
            + 4000001 * ((w * w - x * x) * (w * w - x * x))⟩⟩ := by
  ext <;> simp only [conjugated, slowExample, qmat, qxdir, qydir, qzdir, Mat3.mul, Mat3.mulVec,
    Mat3.transpose, Vec3.smul, Vec3.add_def3] <;> ring

theorem slow_init : SlowInv (⟨0, 0, 0, 1⟩ : Vec4 K) := by
  refine ⟨rfl, rfl, identity_isUnit, ?_, ?_⟩
  · rw [conjugated_identity]; simp [slowExample, Mat3.entry, Vec3.get]
  · rw [conjugated_identity]; norm_num [slowExample, Mat3.entry, Vec3.get]

theorem slow_loop {sqrt : K → K} (hs : IsSqrt sqrt) (n : Nat) :
    ∀ q : Vec4 K, SlowInv q → SlowInv (diagLoop sqrt (slowExample : Mat3 K) n q) := by
  induction n with
  | zero => intro q hq; exact hq
  | succ n ih =>
    intro q hq
    obtain ⟨q1, h1, h2⟩ := slow_step hs q hq
    rw [diagLoop, h1]
    exact ih q1 h2

/-- Under the invariant the diagonal of `D` is `0 < D(1,1) < D(2,2)` with
`D(0,0) = 0`, so none of the three swaps of lines 53-61 is taken. -/
theorem slow_diag (q : Vec4 K) (h : SlowInv q) :
    (conjugated (slowExample : Mat3 K) q).entry 0 0 = 0 ∧
      0 < (conjugated (slowExample : Mat3 K) q).entry 1 1 ∧
      (conjugated (slowExample : Mat3 K) q).entry 1 1 <
        (conjugated (slowExample : Mat3 K) q).entry 2 2 := by
  obtain ⟨x, y, z, w⟩ := q
  obtain ⟨hy, hz, hu, hb, hd⟩ := h
  simp only at hy hz
  subst hy hz
  have hu2 : x * x + w * w = 1 := by
    have := hu
    simp only [IsUnit, Vec4.length2] at this
    linear_combination this
  have hbpos : 0 < |(conjugated (slowExample : Mat3 K) ⟨x, 0, 0, w⟩).entry 2 1| :=
    abs_pos.mpr hb
  have hsum : (conjugated (slowExample : Mat3 K) ⟨x, 0, 0, w⟩).entry 1 1 +
      (conjugated (slowExample : Mat3 K) ⟨x, 0, 0, w⟩).entry 2 2 = 4000002 := by
    simp only [slow_entries, Mat3.entry, Vec3.get]
    linear_combination (4000002 * (x * x + w * w + 1)) * hu2
  have hsq : ((conjugated (slowExample : Mat3 K) ⟨x, 0, 0, w⟩).entry 2 2 -
        (conjugated (slowExample : Mat3 K) ⟨x, 0, 0, w⟩).entry 1 1) *
      ((conjugated (slowExample : Mat3 K) ⟨x, 0, 0, w⟩).entry 2 2 -
        (conjugated (slowExample : Mat3 K) ⟨x, 0, 0, w⟩).entry 1 1) +
      4 * ((conjugated (slowExample : Mat3 K) ⟨x, 0, 0, w⟩).entry 2 1 *
        (conjugated (slowExample : Mat3 K) ⟨x, 0, 0, w⟩).entry 2 1) = 16000000000004 := by
    simp only [slow_entries, Mat3.entry, Vec3.get]
    linear_combination (16000000000004 * ((x * x + w * w) * (x * x + w * w) + 1)
      * (x * x + w * w + 1)) * hu2
  have h00 : (conjugated (slowExample : Mat3 K) ⟨x, 0, 0, w⟩).entry 0 0 = 0 := by
    simp only [slow_entries, Mat3.entry, Vec3.get]
  generalize (conjugated (slowExample : Mat3 K) ⟨x, 0, 0, w⟩).entry 1 1 = d1 at *
  generalize (conjugated (slowExample : Mat3 K) ⟨x, 0, 0, w⟩).entry 2 2 = d2 at *
  generalize (conjugated (slowExample : Mat3 K) ⟨x, 0, 0, w⟩).entry 2 1 = b at *
  refine ⟨h00, ?_, by linarith⟩
  by_contra hneg
  push_neg at hneg
  have h5 : (4000002 : K) ≤ d2 - d1 := by linarith
  have h6 := mul_self_le_mul_self (by norm_num : (0 : K) ≤ 4000002) h5
  nlinarith [mul_self_nonneg b]

theorem slow_fixSwapY (sqrt : K → K) (q : Vec4 K) (h : SlowInv q) :
    fixSwapY sqrt (slowExample : Mat3 K) q = q := by
  obtain ⟨h0, h1, h2⟩ := slow_diag q h
  unfold fixSwapY
  simp only
  rw [if_neg]
  rw [h0]; push_neg; linarith

theorem slow_fixSwapX (sqrt : K → K) (q : Vec4 K) (h : SlowInv q) :
    fixSwapX sqrt (slowExample : Mat3 K) q = q := by
  obtain ⟨h0, h1, h2⟩ := slow_diag q h
  unfold fixSwapX
  simp only
  rw [if_neg]
  push_neg; linarith

theorem slow_fixSwapZ (sqrt : K → K) (q : Vec4 K) (h : SlowInv q) :
    fixSwapZ sqrt (slowExample : Mat3 K) q = q := by
  obtain ⟨h0, h1, h2⟩ := slow_diag q h
  unfold fixSwapZ
  simp only
  rw [if_neg]
  rw [h0]; push_neg; linarith

theorem slow_fixFlipX (q : Vec4 K) (h : SlowInv q) : SlowInv (fixFlipX q) := by
  unfold fixFlipX
  split_ifs
  · obtain ⟨hy, hz, hu, hb, hd⟩ := h
    refine ⟨by simp [qmul, hy, hz], by simp [qmul, hy, hz], hu.qmul flipX_isUnit, ?_, ?_⟩
    · simpa [conjugated_flipX, Mat3.entry, Vec3.get] using hb
    · simpa [conjugated_flipX, Mat3.entry, Vec3.get] using hd
  · exact h

theorem slow_fixFlipZ (q : Vec4 K) (h : SlowInv q) : fixFlipZ q = q := by
  obtain ⟨hy, hz, -, -, -⟩ := h
  unfold fixFlipZ
  rw [if_neg]
  simp [qydir, hy, hz]

/-- On `slowExample` the returned quaternion still satisfies the invariant:
the entry `D(2,1)` of the conjugated matrix is not zero. -/
theorem slow_diagonalizer {sqrt : K → K} (hs : IsSqrt sqrt) :
    SlowInv (diagonalizer sqrt (slowExample : Mat3 K)) := by
  have h1 := slow_loop hs 24 _ (slow_init (K := K))
  unfold diagonalizer diagFixup
  rw [slow_fixSwapY sqrt _ h1, slow_fixSwapX sqrt _ h1, slow_fixSwapZ sqrt _ h1,
    slow_fixFlipZ _ (slow_fixFlipX _ h1)]
  exact slow_fixFlipX _ h1

/-! ### A matrix that one exact Jacobi step diagonalizes -/

/-- A rotation about the x axis keeps the entries `(1,0)` and `(2,0)` zero. -/
theorem rotX_entries_col0 (D : Mat3 K) (u v : K) (h10 : D.entry 1 0 = 0)
    (h20 : D.entry 2 0 = 0) :
    (Mat3.mul (Mat3.transpose (qmat ⟨u, 0, 0, v⟩)) (Mat3.mul D (qmat ⟨u, 0, 0, v⟩))).entry 1 0 = 0 ∧
      (Mat3.mul (Mat3.transpose (qmat ⟨u, 0, 0, v⟩))
        (Mat3.mul D (qmat ⟨u, 0, 0, v⟩))).entry 2 0 = 0 := by
  simp only [Mat3.entry, Vec3.get] at h10 h20
  constructor <;>
    simp only [qmat, qxdir, qydir, qzdir, Mat3.mul, Mat3.mulVec, Mat3.transpose, Mat3.entry,
      Vec3.get, Vec3.smul, Vec3.add_def3, h10, h20] <;> ring

/-- The algebra of one exact step: with `t*t + 2*thet*t - 1 = 0` and
`thet = d / (2*b)`, cosine `c` and sine `-(c*t)`, the new off-diagonal entry
is zero. -/
theorem exact_step_algebra (b d t c cs sn : K) (hb : b ≠ 0)
    (ht : t * t + 2 * (d / (2 * b)) * t - 1 = 0) (hcs : cs = c) (hsn : sn = -(c * t)) :
    cs * cs * b - sn * sn * b + cs * sn * d = 0 := by
  subst hcs hsn
  have h1 : b * (t * t) + d * t - b = 0 := by
    field_simp at ht
    linear_combination (1 / 2 : K) * ht
  linear_combination (-(cs * cs)) * h1

/-- A symmetric matrix whose only non-zero off-diagonal pair is `(2,1)`, with
`|thet| < 1.E6`, is brought to diagonal form by the first loop step: the second
step stops at the test `offdiag[k] == 0`. -/
theorem diagStep_breaks_after_one {sqrt : K → K} (hs : IsSqrt sqrt) (A : Mat3 K)
    (hA : A.IsSymm) (h10 : A.entry 1 0 = 0) (h20 : A.entry 2 0 = 0) (hb : A.entry 2 1 ≠ 0)
    (hsmall : |jacobiTheta A 0| < 1000000) :
    diagStep sqrt A (diagLoop sqrt A 1 ⟨0, 0, 0, 1⟩) = none := by
  have hbpos : 0 < |A.entry 2 1| := abs_pos.mpr hb
  have hoff : offdiag A = ⟨A.entry 2 1, 0, 0⟩ := by simp only [offdiag, h10, h20]
  have hpiv : pivot (offdiag A) = 0 := by rw [hoff]; simp [pivot, hbpos]
  have hget : (offdiag A).get 0 = A.entry 2 1 := by rw [hoff]; rfl
  have hj := jacobi_eq_some hs A 0 (by norm_num) (by rw [hget]; exact hb)
  have hθ : jacobiTheta A 0 = (A.entry 2 2 - A.entry 1 1) / (2 * A.entry 2 1) := by
    simp only [jacobiTheta, hget]
  have ht := jacobiT_small hs (jacobiTheta A 0) (by rw [jacobiSgn_mul_abs]; exact hsmall)
  obtain ⟨hc, hc0, hc1⟩ := jacobiC_spec hs _ (jacobiT_ne_zero hs (jacobiTheta A 0))
  obtain ⟨hshape, hu2, -, hv2⟩ := jacobiQuat_shape hs 0 (by norm_num)
    (jacobiSgn (jacobiTheta A 0)) (jacobiC sqrt (jacobiT sqrt (jacobiTheta A 0)))
    (jacobiSgn_mul_self _) hc1.le (by linarith)
  have hcross := jacobiQuat_cross hs 0 (by norm_num) (jacobiTheta A 0)
  have hjunit := jacobiQuat_isUnit hs 0 (by norm_num) (jacobiSgn (jacobiTheta A 0))
    (jacobiC sqrt (jacobiT sqrt (jacobiTheta A 0))) (jacobiSgn_mul_self _) hc0.le hc1.le
  have hloop : diagLoop sqrt A 1 ⟨0, 0, 0, 1⟩ = qmul ⟨0, 0, 0, 1⟩
      (jacobiQuat sqrt 0 (jacobiSgn (jacobiTheta A 0))
        (jacobiC sqrt (jacobiT sqrt (jacobiTheta A 0)))) := by
    simp only [diagLoop, diagStep, conjugated_identity, hpiv, hj]
    rw [normalize_of_isUnit hs (identity_isUnit.qmul hjunit)]
  rw [hloop, diagStep_eq_none_iff hs, conjugated_qmul, conjugated_identity]
  simp only [Vec4.set] at hshape
  generalize jacobiT sqrt (jacobiTheta A 0) = t at *
  rw [hθ] at ht
  generalize jacobiC sqrt t = c at *
  generalize hv : (jacobiQuat sqrt 0 (jacobiSgn (jacobiTheta A 0)) c).w = v at *
  generalize jacobiSgn (jacobiTheta A 0) * sqrt ((1 - c) / 2) * -1 = u at *
  rw [hshape]
  have hcs : v * v - u * u = c := by linear_combination hv2 - hu2
  obtain ⟨e1, -⟩ := rotX_entries A u v
  obtain ⟨z1, z2⟩ := rotX_entries_col0 A u v h10 h20
  have a1 := exact_step_algebra (A.entry 2 1) (A.entry 2 2 - A.entry 1 1) t c
      (v * v - u * u) (2 * u * v) hb ht hcs hcross
  have hs12 : A.entry 1 2 = A.entry 2 1 := hA.2.2.symm
  rw [hs12, a1] at e1
  simp only [offdiag, e1, z1, z2]
  simp [pivot, Vec3.get]

/-! ### Diagonalizer theorems -/

/-- C10: `diagonalizer` applied to the 3x3 identity matrix returns a unit
quaternion `q` (it is `(0, 0, 0, 1)`) with `qmat(q)^T * I * qmat(q) = I`,
whatever the square-root function. -/
theorem diagonalizer_identity_matrix (sqrt : K → K) :
    IsUnit (diagonalizer sqrt (Mat3.one : Mat3 K)) ∧
      conjugated (Mat3.one : Mat3 K) (diagonalizer sqrt Mat3.one) = Mat3.one := by
  rw [diagonalizer_one]
  exact ⟨identity_isUnit, conjugated_one_identity⟩

/-- In exact arithmetic: for a symmetric matrix `A`, if one of the 24 loop steps
stops at the test `offdiag[k] == 0` (line 38), then `q = diagonalizer(A)` makes
`qmat(q)^T * A * qmat(q)` exactly diagonal: `D(2,1) = D(2,0) = D(1,0) = 0`. -/
theorem diagonalizer_diagonal_when_loop_breaks {sqrt : K → K} (hs : IsSqrt sqrt)
    (A : Mat3 K) (hA : A.IsSymm) (n : Nat) (hn : n < 24)
    (hbreak : diagStep sqrt A (diagLoop sqrt A n ⟨0, 0, 0, 1⟩) = none) :
    (conjugated A (diagonalizer sqrt A)).entry 2 1 = 0 ∧
      (conjugated A (diagonalizer sqrt A)).entry 2 0 = 0 ∧
      (conjugated A (diagonalizer sqrt A)).entry 1 0 = 0 := by
  obtain ⟨h10, h20, h21, -, -, -⟩ := diagonalizer_isDiagonal_of_break hs A hA n hn hbreak
  exact ⟨h21, h20, h10⟩

/-- Leaving at line 38, for the real square root and the symmetric matrix with rows
`(5,0,0)`, `(0,1,2)`, `(0,2,3)`: the first step rotates, the second stops at the
test `offdiag[k] == 0`. -/
theorem diagonalizer_diagonal_when_loop_breaks_witness :
    IsSqrt Real.sqrt ∧ (⟨⟨5, 0, 0⟩, ⟨0, 1, 2⟩, ⟨0, 2, 3⟩⟩ : Mat3 ℝ).IsSymm ∧ 1 < 24 ∧
      diagStep Real.sqrt (⟨⟨5, 0, 0⟩, ⟨0, 1, 2⟩, ⟨0, 2, 3⟩⟩ : Mat3 ℝ)
        (diagLoop Real.sqrt ⟨⟨5, 0, 0⟩, ⟨0, 1, 2⟩, ⟨0, 2, 3⟩⟩ 1 ⟨0, 0, 0, 1⟩) = none ∧
      ((conjugated (⟨⟨5, 0, 0⟩, ⟨0, 1, 2⟩, ⟨0, 2, 3⟩⟩ : Mat3 ℝ)
          (diagonalizer Real.sqrt ⟨⟨5, 0, 0⟩, ⟨0, 1, 2⟩, ⟨0, 2, 3⟩⟩)).entry 2 1 = 0 ∧
        (conjugated (⟨⟨5, 0, 0⟩, ⟨0, 1, 2⟩, ⟨0, 2, 3⟩⟩ : Mat3 ℝ)
          (diagonalizer Real.sqrt ⟨⟨5, 0, 0⟩, ⟨0, 1, 2⟩, ⟨0, 2, 3⟩⟩)).entry 2 0 = 0 ∧
        (conjugated (⟨⟨5, 0, 0⟩, ⟨0, 1, 2⟩, ⟨0, 2, 3⟩⟩ : Mat3 ℝ)
          (diagonalizer Real.sqrt ⟨⟨5, 0, 0⟩, ⟨0, 1, 2⟩, ⟨0, 2, 3⟩⟩)).entry 1 0 = 0) :=
  have hsym : (⟨⟨5, 0, 0⟩, ⟨0, 1, 2⟩, ⟨0, 2, 3⟩⟩ : Mat3 ℝ).IsSymm := by
    simp [Mat3.IsSymm, Mat3.entry, Vec3.get]
  have hbreak := diagStep_breaks_after_one isSqrt_real
    (⟨⟨5, 0, 0⟩, ⟨0, 1, 2⟩, ⟨0, 2, 3⟩⟩ : Mat3 ℝ) hsym
    (by simp [Mat3.entry, Vec3.get]) (by simp [Mat3.entry, Vec3.get])
    (by norm_num [Mat3.entry, Vec3.get])
    (by rw [abs_lt]; constructor <;> norm_num [jacobiTheta, offdiag, Mat3.entry, Vec3.get])
  ⟨isSqrt_real, hsym, by norm_num, hbreak,
    diagonalizer_diagonal_when_loop_breaks isSqrt_real _ hsym 1 (by norm_num) hbreak⟩

/-- Exact zero is not reached in general: for the symmetric matrix with rows `(0,0,0)`,
`(0,1,1)`, `(0,1,4000001)` and the real square root, the entry `D(2,1)` of
`qmat(q)^T * A * qmat(q)` is not zero for `q = diagonalizer(A)`. -/
theorem diagonalizer_not_exactly_diagonal :
    (⟨⟨0, 0, 0⟩, ⟨0, 1, 1⟩, ⟨0, 1, 4000001⟩⟩ : Mat3 ℝ).IsSymm ∧
      ¬ ((conjugated (⟨⟨0, 0, 0⟩, ⟨0, 1, 1⟩, ⟨0, 1, 4000001⟩⟩ : Mat3 ℝ)
            (diagonalizer Real.sqrt ⟨⟨0, 0, 0⟩, ⟨0, 1, 1⟩, ⟨0, 1, 4000001⟩⟩)).entry 2 1 = 0 ∧
          (conjugated (⟨⟨0, 0, 0⟩, ⟨0, 1, 1⟩, ⟨0, 1, 4000001⟩⟩ : Mat3 ℝ)
            (diagonalizer Real.sqrt ⟨⟨0, 0, 0⟩, ⟨0, 1, 1⟩, ⟨0, 1, 4000001⟩⟩)).entry 2 0 = 0 ∧
          (conjugated (⟨⟨0, 0, 0⟩, ⟨0, 1, 1⟩, ⟨0, 1, 4000001⟩⟩ : Mat3 ℝ)
            (diagonalizer Real.sqrt ⟨⟨0, 0, 0⟩, ⟨0, 1, 1⟩, ⟨0, 1, 4000001⟩⟩)).entry 1 0 = 0) := by
  refine ⟨by simp [Mat3.IsSymm, Mat3.entry, Vec3.get], fun h => ?_⟩
  exact (slow_diagonalizer isSqrt_real).2.2.2.1 h.1

end DiagonalizerTheorems

section FloatPrecision

variable {K : Type} [LinearOrderedField K]

/-! ### The loop stops at `float` precision before the matrix is diagonal -/

/-- With a square root that rounds like `float` (at least `2048` on
`2048² + 1`, and `1` on `[1, 1 + 2^-24]`), the first loop step on the
symmetric matrix with rows `(1,0,0)`, `(0,2,2^-12)`, `(0,2^-12,3)` computes
`thet = 2048`, `t ≤ 2^-12` and `c = 1`, and leaves through the `break` of
line 44. -/
theorem diagStep_float_break (sqrt : K → K) (h1 : 2048 ≤ sqrt 4194305)
    (h2 : ∀ x : K, 1 ≤ x → x ≤ 1 + 1 / 16777216 → sqrt x = 1) :
    diagStep sqrt (⟨⟨1, 0, 0⟩, ⟨0, 2, 1 / 4096⟩, ⟨0, 1 / 4096, 3⟩⟩ : Mat3 K) ⟨0, 0, 0, 1⟩ =
      none := by
  have hoff : offdiag (⟨⟨1, 0, 0⟩, ⟨0, 2, 1 / 4096⟩, ⟨0, 1 / 4096, 3⟩⟩ : Mat3 K) =
      ⟨1 / 4096, 0, 0⟩ := by
    simp only [offdiag, Mat3.entry, Vec3.get]
  have hpiv : pivot (offdiag (⟨⟨1, 0, 0⟩, ⟨0, 2, 1 / 4096⟩, ⟨0, 1 / 4096, 3⟩⟩ : Mat3 K)) = 0 := by
    rw [hoff]
    simp [pivot]
  have hθ : jacobiTheta (⟨⟨1, 0, 0⟩, ⟨0, 2, 1 / 4096⟩, ⟨0, 1 / 4096, 3⟩⟩ : Mat3 K) 0 = 2048 := by
    simp only [jacobiTheta, hoff, Mat3.entry, Vec3.get]
    norm_num
  have hsgn : jacobiSgn (2048 : K) = 1 := by
    unfold jacobiSgn
    rw [if_pos (by norm_num)]
  have ht : jacobiT sqrt (2048 : K) = 1 / (2048 + sqrt 4194305) := by
    unfold jacobiT
    simp only [hsgn, mul_one]
    rw [if_pos (by norm_num)]
    norm_num
  have hden : (4096 : K) ≤ 2048 + sqrt 4194305 := by linarith
  have hpos : (0 : K) < 2048 + sqrt 4194305 := by linarith
  have ht0 : (0 : K) < 1 / (2048 + sqrt 4194305) := div_pos one_pos hpos
  have ht1 : 1 / (2048 + sqrt 4194305) ≤ (1 : K) / 4096 :=
    one_div_le_one_div_of_le (by norm_num) hden
  have hc : jacobiC sqrt (jacobiT sqrt (2048 : K)) = 1 := by
    rw [ht]
    unfold jacobiC
    have hsq : 1 / (2048 + sqrt 4194305) * (1 / (2048 + sqrt 4194305)) ≤
        (1 : K) / 4096 * (1 / 4096) := mul_le_mul ht1 ht1 ht0.le (by norm_num)
    rw [h2 _ (by nlinarith [mul_pos ht0 ht0]) (by norm_num at hsq ⊢; linarith)]
    norm_num
  have hj : jacobi sqrt (⟨⟨1, 0, 0⟩, ⟨0, 2, 1 / 4096⟩, ⟨0, 1 / 4096, 3⟩⟩ : Mat3 K) 0 = none := by
    unfold jacobi
    simp only [hθ, hc]
    rw [if_neg (by rw [hoff]; simp [Vec3.get])]
    exact if_pos trivial
  unfold diagStep
  simp only [conjugated_identity, hpiv, hj]

theorem diagFixup_float_break (sqrt : K → K) :
    diagFixup sqrt (⟨⟨1, 0, 0⟩, ⟨0, 2, 1 / 4096⟩, ⟨0, 1 / 4096, 3⟩⟩ : Mat3 K) ⟨0, 0, 0, 1⟩ =
      ⟨0, 0, 0, 1⟩ := by
  have hY : fixSwapY sqrt (⟨⟨1, 0, 0⟩, ⟨0, 2, 1 / 4096⟩, ⟨0, 1 / 4096, 3⟩⟩ : Mat3 K)
      ⟨0, 0, 0, 1⟩ = ⟨0, 0, 0, 1⟩ := by
    simp only [fixSwapY, conjugated_identity, Mat3.entry, Vec3.get]
    exact if_neg (by norm_num)
  have hX : fixSwapX sqrt (⟨⟨1, 0, 0⟩, ⟨0, 2, 1 / 4096⟩, ⟨0, 1 / 4096, 3⟩⟩ : Mat3 K)
      ⟨0, 0, 0, 1⟩ = ⟨0, 0, 0, 1⟩ := by
    simp only [fixSwapX, conjugated_identity, Mat3.entry, Vec3.get]
    exact if_neg (by norm_num)
  have hZ : fixSwapZ sqrt (⟨⟨1, 0, 0⟩, ⟨0, 2, 1 / 4096⟩, ⟨0, 1 / 4096, 3⟩⟩ : Mat3 K)
      ⟨0, 0, 0, 1⟩ = ⟨0, 0, 0, 1⟩ := by
    simp only [fixSwapZ, conjugated_identity, Mat3.entry, Vec3.get]
    exact if_neg (by norm_num)
  have hFX : fixFlipX (⟨0, 0, 0, 1⟩ : Vec4 K) = ⟨0, 0, 0, 1⟩ := by
    simp [fixFlipX, qzdir]
  have hFZ : fixFlipZ (⟨0, 0, 0, 1⟩ : Vec4 K) = ⟨0, 0, 0, 1⟩ := by
    simp [fixFlipZ, qydir]
  unfold diagFixup
  rw [hY, hX, hZ, hFX, hFZ]

/-- C6 at a failing input: with a square root that rounds like `float`, on
the symmetric matrix with rows `(1,0,0)`, `(0,2,2^-12)`, `(0,2^-12,3)` the
loop leaves at its first step through `if(c==1.0f) break` (line 44),
`diagonalizer` returns `q = (0,0,0,1)`, and `D = qmat(q)^T * A * qmat(q)` is
`A` itself, with `D(2,1) = 2^-12`, above the tolerance `1e-4`. -/
theorem diagonalizer_float_not_diagonal (sqrt : K → K) (h1 : 2048 ≤ sqrt 4194305)
    (h2 : ∀ x : K, 1 ≤ x → x ≤ 1 + 1 / 16777216 → sqrt x = 1) :
    diagonalizer sqrt (⟨⟨1, 0, 0⟩, ⟨0, 2, 1 / 4096⟩, ⟨0, 1 / 4096, 3⟩⟩ : Mat3 K) =
        ⟨0, 0, 0, 1⟩ ∧
      (conjugated (⟨⟨1, 0, 0⟩, ⟨0, 2, 1 / 4096⟩, ⟨0, 1 / 4096, 3⟩⟩ : Mat3 K)
        (diagonalizer sqrt ⟨⟨1, 0, 0⟩, ⟨0, 2, 1 / 4096⟩, ⟨0, 1 / 4096, 3⟩⟩)).entry 2 1 =
          1 / 4096 ∧
      (1 : K) / 10000 < 1 / 4096 := by
  have hstep := diagStep_float_break sqrt h1 h2
  have hloop : diagLoop sqrt (⟨⟨1, 0, 0⟩, ⟨0, 2, 1 / 4096⟩, ⟨0, 1 / 4096, 3⟩⟩ : Mat3 K) 24
      ⟨0, 0, 0, 1⟩ = ⟨0, 0, 0, 1⟩ := by
    simp only [diagLoop, hstep]
  have hq : diagonalizer sqrt (⟨⟨1, 0, 0⟩, ⟨0, 2, 1 / 4096⟩, ⟨0, 1 / 4096, 3⟩⟩ : Mat3 K) =
      ⟨0, 0, 0, 1⟩ := by
    unfold diagonalizer
    rw [hloop, diagFixup_float_break]
  refine ⟨hq, ?_, by norm_num⟩
  rw [hq, conjugated_identity]
  simp only [Mat3.entry, Vec3.get]

end FloatPrecision

section FloatPrecisionWitness

theorem sqrtF32_4194305 : sqrtF32 4194305 = 2048 + 1 / 4096 := by
  have h := sqrtF32_eq_hi 4194305 11 8388608 (by norm_num) (by norm_num) (by norm_num)
    (by norm_num)
  rw [h]; norm_num

/-- C6 at the failing input with the `float` square root `sqrtF32`. -/
theorem diagonalizer_float_not_diagonal_witness :
    diagonalizer sqrtF32 (⟨⟨1, 0, 0⟩, ⟨0, 2, 1 / 4096⟩, ⟨0, 1 / 4096, 3⟩⟩ : Mat3 ℚ) =
        ⟨0, 0, 0, 1⟩ ∧
      (conjugated (⟨⟨1, 0, 0⟩, ⟨0, 2, 1 / 4096⟩, ⟨0, 1 / 4096, 3⟩⟩ : Mat3 ℚ)
        (diagonalizer sqrtF32 ⟨⟨1, 0, 0⟩, ⟨0, 2, 1 / 4096⟩, ⟨0, 1 / 4096, 3⟩⟩)).entry 2 1 =
          1 / 4096 ∧
      (1 : ℚ) / 10000 < 1 / 4096 :=
  diagonalizer_float_not_diagonal sqrtF32 (by rw [sqrtF32_4194305]; norm_num) sqrtF32_near_one

end FloatPrecisionWitness





section ConstructTheorems

variable {K : Type} [LinearOrderedField K]

/-! ### Quaternion from a rotation matrix -/

theorem IsSqrt.four_mul_self {sqrt : K → K} (hs : IsSqrt sqrt) (c : K) :
    sqrt (4 * (c * c)) = 2 * |c| := by
  have h0 : (0 : K) ≤ 4 * (c * c) := by nlinarith [mul_self_nonneg c]
  have h1 := hs.nonneg h0
  have h2 := hs.mul_self h0
  have h3 : (0 : K) ≤ 2 * |c| := by positivity
  refine (mul_self_inj h1 h3).mp ?_
  rw [h2]
  have : |c| * |c| = c * c := abs_mul_abs_self c
  linear_combination (-4 : K) * this

/-- For the rotation matrix of a unit quaternion the three comparisons of
lines 163-173 select a component `c` of largest square: `pre` and `post` are
the patterns of that component, `c` is not zero and `t = 4*c*c`. -/
theorem rotmat_select (q : Vec4 K) (hq : IsUnit q) :
    (rotmatPre (qmat q) = ⟨1, 1, 1⟩ ∧ rotmatPost (qmat q) = ⟨0, 0, 0, 1⟩ ∧ q.w ≠ 0 ∧
        rotmatT (qmat q) = 4 * (q.w * q.w) ∧
        q.x * q.x ≤ q.w * q.w ∧ q.y * q.y ≤ q.w * q.w ∧ q.z * q.z ≤ q.w * q.w) ∨
      (rotmatPre (qmat q) = ⟨-1, -1, 1⟩ ∧ rotmatPost (qmat q) = ⟨0, 0, 1, 0⟩ ∧ q.z ≠ 0 ∧
        rotmatT (qmat q) = 4 * (q.z * q.z) ∧
        q.x * q.x ≤ q.z * q.z ∧ q.y * q.y ≤ q.z * q.z ∧ q.w * q.w ≤ q.z * q.z) ∨
      (rotmatPre (qmat q) = ⟨1, -1, -1⟩ ∧ rotmatPost (qmat q) = ⟨1, 0, 0, 0⟩ ∧ q.x ≠ 0 ∧
        rotmatT (qmat q) = 4 * (q.x * q.x) ∧
        q.y * q.y ≤ q.x * q.x ∧ q.z * q.z ≤ q.x * q.x ∧ q.w * q.w ≤ q.x * q.x) ∨
      (rotmatPre (qmat q) = ⟨-1, 1, -1⟩ ∧ rotmatPost (qmat q) = ⟨0, 1, 0, 0⟩ ∧ q.y ≠ 0 ∧
        rotmatT (qmat q) = 4 * (q.y * q.y) ∧
        q.x * q.x ≤ q.y * q.y ∧ q.z * q.z ≤ q.y * q.y ∧ q.w * q.w ≤ q.y * q.y) := by
  obtain ⟨x, y, z, w⟩ := q
  have hu : x * x + y * y + z * z + w * w = 1 := hq
  have hx := mul_self_nonneg x
  have hy := mul_self_nonneg y
  have hz := mul_self_nonneg z
  have hw := mul_self_nonneg w
  have ne_of_sq : ∀ c : K, 0 < c * c → c ≠ 0 := fun c hc h => by
    rw [h, mul_zero] at hc; exact lt_irrefl _ hc
  unfold rotmatT rotmatPre rotmatPost
  simp only [qmat, qxdir, qydir, qzdir, Mat3.entry, Vec3.get]
  split_ifs with h1 h2 h3 h4 h5 h6 h7 <;> dsimp only <;>
    first
    | (left; refine ⟨rfl, rfl, ne_of_sq _ (by linarith), by linarith, by linarith,
        by linarith, by linarith⟩)
    | (right; left; refine ⟨rfl, rfl, ne_of_sq _ (by linarith), by linarith, by linarith,
        by linarith, by linarith⟩)
    | (right; right; left; refine ⟨rfl, rfl, ne_of_sq _ (by linarith), by linarith,
        by linarith, by linarith, by linarith⟩)
    | (right; right; right; refine ⟨rfl, rfl, ne_of_sq _ (by linarith), by linarith,
        by linarith, by linarith, by linarith⟩)

/-- The scale `s = 1 / sqrt(t) / 2` of line 178 when `t = 4*c*c`. -/
theorem rotmat_scale {sqrt : K → K} (hs : IsSqrt sqrt) (c : K) :
    1 / sqrt (4 * (c * c)) / 2 = 1 / (4 * |c|) := by
  rw [hs.four_mul_self, div_div]
  congr 1
  ring

theorem rotmat_scale_cases {sqrt : K → K} (hs : IsSqrt sqrt) (c : K) (hc : c ≠ 0) :
    1 / sqrt (4 * (c * c)) / 2 * (4 * c) = 1 ∨ 1 / sqrt (4 * (c * c)) / 2 * (4 * c) = -1 := by
  rw [rotmat_scale hs]
  rcases lt_or_gt_of_ne hc with h | h
  · right
    rw [abs_of_neg h]
    field_simp
  · left
    rw [abs_of_pos h]
    field_simp

/-- Lines 179-180 in the branch that selects `w`. -/
theorem rotmat_branch_w (q : Vec4 K) (s : K) :
    qmul ((⟨1 * (qmat q).entry 2 1 - 1 * (qmat q).entry 1 2,
        1 * (qmat q).entry 0 2 - 1 * (qmat q).entry 2 0,
        1 * (qmat q).entry 1 0 - 1 * (qmat q).entry 0 1, 4 * (q.w * q.w)⟩ : Vec4 K).smul s)
      ⟨0, 0, 0, 1⟩ = q.smul (s * (4 * q.w)) := by
  ext <;> simp only [qmul, Vec4.smul, qmat, qxdir, qydir, qzdir, Mat3.entry, Vec3.get] <;> ring

/-- Lines 179-180 in the branch that selects `z`. -/
theorem rotmat_branch_z (q : Vec4 K) (s : K) :
    qmul ((⟨-1 * (qmat q).entry 2 1 - 1 * (qmat q).entry 1 2,
        1 * (qmat q).entry 0 2 - -1 * (qmat q).entry 2 0,
        -1 * (qmat q).entry 1 0 - -1 * (qmat q).entry 0 1, 4 * (q.z * q.z)⟩ : Vec4 K).smul s)
      ⟨0, 0, 1, 0⟩ = q.smul (s * (4 * q.z)) := by
  ext <;> simp only [qmul, Vec4.smul, qmat, qxdir, qydir, qzdir, Mat3.entry, Vec3.get] <;> ring

/-- Lines 179-180 in the branch that selects `x`. -/
theorem rotmat_branch_x (q : Vec4 K) (s : K) :
    qmul ((⟨-1 * (qmat q).entry 2 1 - -1 * (qmat q).entry 1 2,
        -1 * (qmat q).entry 0 2 - 1 * (qmat q).entry 2 0,
        1 * (qmat q).entry 1 0 - -1 * (qmat q).entry 0 1, 4 * (q.x * q.x)⟩ : Vec4 K).smul s)
      ⟨1, 0, 0, 0⟩ = q.smul (s * (4 * q.x)) := by
  ext <;> simp only [qmul, Vec4.smul, qmat, qxdir, qydir, qzdir, Mat3.entry, Vec3.get] <;> ring

/-- Lines 179-180 in the branch that selects `y`. -/
theorem rotmat_branch_y (q : Vec4 K) (s : K) :
    qmul ((⟨1 * (qmat q).entry 2 1 - -1 * (qmat q).entry 1 2,
        -1 * (qmat q).entry 0 2 - -1 * (qmat q).entry 2 0,
        -1 * (qmat q).entry 1 0 - 1 * (qmat q).entry 0 1, 4 * (q.y * q.y)⟩ : Vec4 K).smul s)
      ⟨0, 1, 0, 0⟩ = q.smul (s * (4 * q.y)) := by
  ext <;> simp only [qmul, Vec4.smul, qmat, qxdir, qydir, qzdir, Mat3.entry, Vec3.get] <;> ring

theorem Vec4.smul_one4 (q : Vec4 K) : q.smul 1 = q := by
  ext <;> simp only [Vec4.smul, mul_one]

theorem Vec4.smul_neg_one4 (q : Vec4 K) : q.smul (-1) = Vec4.neg q := by
  ext <;> simp only [Vec4.smul, Vec4.neg, mul_neg, mul_one]

/-- C11: for every unit quaternion `q`,
`make_rotation_quat_from_rotation_matrix(qmat(q))` is `q` or `-q`, whichever of
the four branches is selected. -/
theorem rotation_matrix_round_trip {sqrt : K → K} (hs : IsSqrt sqrt) (q : Vec4 K)
    (hq : IsUnit q) :
    make_rotation_quat_from_rotation_matrix sqrt (qmat q) = q ∨
      make_rotation_quat_from_rotation_matrix sqrt (qmat q) = Vec4.neg q := by
  unfold make_rotation_quat_from_rotation_matrix
  rcases rotmat_select q hq with ⟨h1, h2, hc, hT, -⟩ | ⟨h1, h2, hc, hT, -⟩ |
      ⟨h1, h2, hc, hT, -⟩ | ⟨h1, h2, hc, hT, -⟩
  · simp only [h1, h2, hT]
    rw [rotmat_branch_w]
    rcases rotmat_scale_cases hs _ hc with hsc | hsc <;> rw [hsc]
    · exact Or.inl (Vec4.smul_one4 q)
    · exact Or.inr (Vec4.smul_neg_one4 q)
  · simp only [h1, h2, hT]
    rw [rotmat_branch_z]
    rcases rotmat_scale_cases hs _ hc with hsc | hsc <;> rw [hsc]
    · exact Or.inl (Vec4.smul_one4 q)
    · exact Or.inr (Vec4.smul_neg_one4 q)
  · simp only [h1, h2, hT]
    rw [rotmat_branch_x]
    rcases rotmat_scale_cases hs _ hc with hsc | hsc <;> rw [hsc]
    · exact Or.inl (Vec4.smul_one4 q)
    · exact Or.inr (Vec4.smul_neg_one4 q)
  · simp only [h1, h2, hT]
    rw [rotmat_branch_y]
    rcases rotmat_scale_cases hs _ hc with hsc | hsc <;> rw [hsc]
    · exact Or.inl (Vec4.smul_one4 q)
    · exact Or.inr (Vec4.smul_neg_one4 q)

/-- C11 for the real square root and the unit quaternion
`(1/2, 1/2, 1/2, -1/2)`. -/
theorem rotation_matrix_round_trip_witness :
    IsSqrt Real.sqrt ∧ IsUnit (⟨1 / 2, 1 / 2, 1 / 2, -1 / 2⟩ : Vec4 ℝ) ∧
      (make_rotation_quat_from_rotation_matrix Real.sqrt
          (qmat (⟨1 / 2, 1 / 2, 1 / 2, -1 / 2⟩ : Vec4 ℝ)) = ⟨1 / 2, 1 / 2, 1 / 2, -1 / 2⟩ ∨
        make_rotation_quat_from_rotation_matrix Real.sqrt
          (qmat (⟨1 / 2, 1 / 2, 1 / 2, -1 / 2⟩ : Vec4 ℝ)) =
            Vec4.neg ⟨1 / 2, 1 / 2, 1 / 2, -1 / 2⟩) :=
  ⟨isSqrt_real, by norm_num [IsUnit, Vec4.length2],
    rotation_matrix_round_trip isSqrt_real _ (by norm_num [IsUnit, Vec4.length2])⟩

end ConstructTheorems

section AxisAngleTheorems

/-! ### Axis and angle of a quaternion -/

/-- With the real functions: for every axis `a` (unit or not) and every angle `θ` with
`0 < θ < 2π` and `sin(θ/2) > 1e-5`,
`make_axis_angle_rotation_quat(make_rotation_quat_axis_angle(a, θ))` is
`(a.x, a.y, a.z, θ)`. -/
theorem axis_angle_round_trip_real (a : Vec3 ℝ) (θ : ℝ) (h0 : 0 < θ) (h1 : θ < 2 * Real.pi)
    (hsin : 1 / 100000 < Real.sin (θ / 2)) :
    make_axis_angle_rotation_quat Real.arccos Real.sqrt
      (make_rotation_quat_axis_angle Real.sin Real.cos a θ) = ⟨a.x, a.y, a.z, θ⟩ := by
  have hpos : 0 < Real.sin (θ / 2) := lt_trans (by norm_num) hsin
  have hclamp : max (-1) (min (Real.cos (θ / 2)) 1) = Real.cos (θ / 2) := by
    rw [min_eq_left (Real.cos_le_one _), max_eq_right (Real.neg_one_le_cos _)]
  have hacos : Real.arccos (Real.cos (θ / 2)) = θ / 2 :=
    Real.arccos_cos (by linarith) (by linarith)
  have hden : Real.sqrt |1 - Real.cos (θ / 2) * Real.cos (θ / 2)| = Real.sin (θ / 2) := by
    have h2 : 1 - Real.cos (θ / 2) * Real.cos (θ / 2) = Real.sin (θ / 2) * Real.sin (θ / 2) := by
      have := Real.sin_sq_add_cos_sq (θ / 2)
      linear_combination -this
    rw [h2, abs_mul_self, Real.sqrt_mul_self hpos.le]
  unfold make_axis_angle_rotation_quat make_rotation_quat_axis_angle
  simp only [Vec4.ofVec3, Vec3.smul]
  rw [hclamp, hacos, hden, if_pos hsin]
  ext <;> simp only
  · exact mul_div_cancel_right₀ _ hpos.ne'
  · exact mul_div_cancel_right₀ _ hpos.ne'
  · exact mul_div_cancel_right₀ _ hpos.ne'
  · ring

/-- The round trip with the real functions for the axis `(0, 1, 0)` and the
angle `π`. -/
theorem axis_angle_round_trip_real_pi :
    (0 : ℝ) < Real.pi ∧ Real.pi < 2 * Real.pi ∧ 1 / 100000 < Real.sin (Real.pi / 2) ∧
      make_axis_angle_rotation_quat Real.arccos Real.sqrt
        (make_rotation_quat_axis_angle Real.sin Real.cos ⟨0, 1, 0⟩ Real.pi) =
          ⟨0, 1, 0, Real.pi⟩ :=
  have h0 : (0 : ℝ) < Real.pi := Real.pi_pos
  have h1 : Real.pi < 2 * Real.pi := by linarith
  have h2 : 1 / 100000 < Real.sin (Real.pi / 2) := by rw [Real.sin_pi_div_two]; norm_num
  ⟨h0, h1, h2, axis_angle_round_trip_real ⟨0, 1, 0⟩ Real.pi h0 h1 h2⟩

/-- C13: when `sqrt(|1 - q.w*q.w|) ≤ 1e-5` the result of
`make_axis_angle_rotation_quat(q)` is the axis `(1, 0, 0)` with the angle
`2 * acos(clamp(q.w, -1, 1))`; when it is larger, the axis is `q.xyz` divided
by that value (and the angle is the same), whatever `acos` and `sqrt` are. -/
theorem axis_angle_fallback {K : Type} [LinearOrderedField K] (acos sqrt : K → K)
    (q : Vec4 K) :
    (sqrt |1 - q.w * q.w| ≤ 1 / 100000 →
        make_axis_angle_rotation_quat acos sqrt q =
          ⟨1, 0, 0, 2 * acos (max (-1) (min q.w 1))⟩) ∧
      (1 / 100000 < sqrt |1 - q.w * q.w| →
        make_axis_angle_rotation_quat acos sqrt q =
          ⟨q.x / sqrt |1 - q.w * q.w|, q.y / sqrt |1 - q.w * q.w|,
            q.z / sqrt |1 - q.w * q.w|, 2 * acos (max (-1) (min q.w 1))⟩) := by
  unfold make_axis_angle_rotation_quat
  constructor
  · intro h
    simp only
    rw [if_neg (not_lt.mpr h)]
  · intro h
    simp only
    rw [if_pos h]

/-- C13 for the real functions: the identity quaternion takes the fallback,
the half-turn `(0, 1, 0, 0)` does not. -/
theorem axis_angle_fallback_witness :
    (Real.sqrt |1 - (1 : ℝ) * 1| ≤ 1 / 100000 ∧
        make_axis_angle_rotation_quat Real.arccos Real.sqrt (⟨0, 0, 0, 1⟩ : Vec4 ℝ) =
          ⟨1, 0, 0, 2 * Real.arccos (max (-1) (min 1 1))⟩) ∧
      (1 / 100000 < Real.sqrt |1 - (0 : ℝ) * 0| ∧
        make_axis_angle_rotation_quat Real.arccos Real.sqrt (⟨0, 1, 0, 0⟩ : Vec4 ℝ) =
          ⟨0 / Real.sqrt |1 - (0 : ℝ) * 0|, 1 / Real.sqrt |1 - (0 : ℝ) * 0|,
            0 / Real.sqrt |1 - (0 : ℝ) * 0|, 2 * Real.arccos (max (-1) (min 0 1))⟩) :=
  have h1 : Real.sqrt |1 - (1 : ℝ) * 1| ≤ 1 / 100000 := by norm_num
  have h2 : 1 / 100000 < Real.sqrt |1 - (0 : ℝ) * 0| := by norm_num
  ⟨⟨h1, (axis_angle_fallback Real.arccos Real.sqrt (⟨0, 0, 0, 1⟩ : Vec4 ℝ)).1 h1⟩,
    ⟨h2, (axis_angle_fallback Real.arccos Real.sqrt (⟨0, 1, 0, 0⟩ : Vec4 ℝ)).2 h2⟩⟩

end AxisAngleTheorems

section AxisAngleFloat

variable {K : Type} [LinearOrderedField K]

end AxisAngleFloat

section BetweenVectorsTheorems

variable {K : Type} [LinearOrderedField K]

/-! ### Rotation between two vectors -/

theorem Vec3.smul_def3 (a : Vec3 K) (s : K) : a.smul s = ⟨a.x * s, a.y * s, a.z * s⟩ := rfl

/-- The rotation by the quaternion `(n*s, c)` in vector form:
`(c*c - s*s*(n.n)) v + 2*s*s*(n.v) n + 2*c*s (n × v)`. -/
theorem qrot_axis_formula (n v : Vec3 K) (s c : K) :
    qrot (Vec4.ofVec3 (n.smul s) c) v =
      v.smul (c * c - s * s * Vec3.dot n n) + n.smul (2 * (s * s) * Vec3.dot n v)
        + (Vec3.cross n v).smul (2 * c * s) := by
  ext <;> simp only [qrot, qxdir, qydir, qzdir, Vec4.ofVec3, Vec3.smul, Vec3.add_def3,
    Vec3.dot, Vec3.cross] <;> ring

theorem Vec3.dot_self_nonneg (a : Vec3 K) : 0 ≤ Vec3.dot a a := by
  unfold Vec3.dot
  nlinarith [mul_self_nonneg a.x, mul_self_nonneg a.y, mul_self_nonneg a.z]

theorem Vec3.eq_zero_of_dot_self (a : Vec3 K) (h : Vec3.dot a a = 0) : a = ⟨0, 0, 0⟩ := by
  unfold Vec3.dot at h
  have hx := mul_self_nonneg a.x
  have hy := mul_self_nonneg a.y
  have hz := mul_self_nonneg a.z
  ext <;> simp only <;> apply mul_self_eq_zero.mp <;> linarith

theorem Vec3.dot_self_pos (a : Vec3 K) (h : a ≠ ⟨0, 0, 0⟩) : 0 < Vec3.dot a a :=
  lt_of_le_of_ne (Vec3.dot_self_nonneg a) (fun h0 => h (Vec3.eq_zero_of_dot_self a h0.symm))

/-- A normalized non-zero vector has unit length. -/
theorem Vec3.dot_normalize {sqrt : K → K} (hs : IsSqrt sqrt) (a : Vec3 K)
    (h : 0 < Vec3.dot a a) :
    Vec3.dot (Vec3.normalize sqrt a) (Vec3.normalize sqrt a) = 1 := by
  have h1 := hs.pos h
  have h2 := hs.mul_self h.le
  simp only [Vec3.normalize]
  generalize sqrt (Vec3.dot a a) = l at *
  simp only [Vec3.sdiv, Vec3.dot] at *
  field_simp
  linear_combination -h2

/-- Lagrange identity: `|a × b|² = (a.a)(b.b) - (a.b)²`. -/
theorem Vec3.dot_cross_self (a b : Vec3 K) :
    Vec3.dot (Vec3.cross a b) (Vec3.cross a b) =
      Vec3.dot a a * Vec3.dot b b - Vec3.dot a b * Vec3.dot a b := by
  simp only [Vec3.dot, Vec3.cross]; ring

theorem Vec3.dot_cross_left (a b : Vec3 K) : Vec3.dot (Vec3.cross a b) a = 0 := by
  simp only [Vec3.dot, Vec3.cross]; ring

/-- Triple product: `(a × b) × a = b (a.a) - a (a.b)`. -/
theorem Vec3.cross_cross_left (a b : Vec3 K) :
    Vec3.cross (Vec3.cross a b) a = b.smul (Vec3.dot a a) - a.smul (Vec3.dot a b) := by
  ext <;> simp only [Vec3.dot, Vec3.cross, Vec3.smul, Vec3.sub_def3] <;> ring

theorem Vec3.cross_sdiv (a b : Vec3 K) (s t : K) :
    Vec3.cross (a.sdiv s) (b.sdiv t) = (Vec3.cross a b).sdiv (s * t) := by
  ext <;> simp only [Vec3.cross, Vec3.sdiv] <;> ring

/-- The rotation built from a unit axis `n` orthogonal to the unit vector `a`,
with `cos = d` and `sin = L`, maps `a` to `b` when `n × a = (b - a d) / L`. -/
theorem qrot_between_core (a b n : Vec3 K) (s c d L : K) (hL : L ≠ 0)
    (hnn : Vec3.dot n n = 1) (hna : Vec3.dot n a = 0)
    (hx : Vec3.cross n a = (b - a.smul d).sdiv L)
    (hcs : c * c - s * s = d) (h2 : 2 * c * s = L) :
    qrot (Vec4.ofVec3 (n.smul s) c) a = b := by
  rw [qrot_axis_formula, hnn, hna, hx, h2]
  ext <;> simp only [Vec3.smul, Vec3.sdiv, Vec3.add_def3, Vec3.sub_def3] <;> field_simp <;>
    first
    | linear_combination a.x * hcs
    | linear_combination a.y * hcs
    | linear_combination a.z * hcs

theorem Vec3.dot_sdiv_left (a b : Vec3 K) (s : K) :
    Vec3.dot (a.sdiv s) b = Vec3.dot a b / s := by
  simp only [Vec3.dot, Vec3.sdiv]; ring

theorem Vec3.cross_sdiv_left (a b : Vec3 K) (s : K) :
    Vec3.cross (a.sdiv s) b = (Vec3.cross a b).sdiv s := by
  ext <;> simp only [Vec3.cross, Vec3.sdiv] <;> ring

theorem Vec3.sdiv_ne_zero (a : Vec3 K) (s : K) (ha : a ≠ ⟨0, 0, 0⟩) (hs : s ≠ 0) :
    a.sdiv s ≠ ⟨0, 0, 0⟩ := by
  intro h
  apply ha
  have hx := congrArg Vec3.x h
  have hy := congrArg Vec3.y h
  have hz := congrArg Vec3.z h
  simp only [Vec3.sdiv, div_eq_zero_iff, hs, or_false] at hx hy hz
  ext <;> assumption

theorem Vec3.cross_zero_left (b : Vec3 K) : Vec3.cross ⟨0, 0, 0⟩ b = ⟨0, 0, 0⟩ := by
  ext <;> simp only [Vec3.cross] <;> ring

theorem Vec3.cross_zero_right (a : Vec3 K) : Vec3.cross a ⟨0, 0, 0⟩ = ⟨0, 0, 0⟩ := by
  ext <;> simp only [Vec3.cross] <;> ring

theorem length2_axis (n : Vec3 K) (s c : K) :
    (Vec4.ofVec3 (n.smul s) c).length2 = s * s * Vec3.dot n n + c * c := by
  simp only [Vec4.length2, Vec4.ofVec3, Vec3.smul, Vec3.dot]; ring

end BetweenVectorsTheorems

section BetweenVectorsFloat

variable {K : Type} [LinearOrderedField K]

theorem Vec3.dotR_mk (rnd : K → K) (a1 a2 a3 b1 b2 b3 : K) :
    Vec3.dotR rnd ⟨a1, a2, a3⟩ ⟨b1, b2, b3⟩ =
      rnd (rnd (rnd (a1 * b1) + rnd (a2 * b2)) + rnd (a3 * b3)) := rfl

theorem Vec3.normalizeR_mk (rnd sqrt : K → K) (a1 a2 a3 l : K)
    (hl : sqrt (Vec3.dotR rnd ⟨a1, a2, a3⟩ ⟨a1, a2, a3⟩) = l) (h0 : l ≠ 0) :
    Vec3.normalizeR rnd sqrt ⟨a1, a2, a3⟩ = some ⟨rnd (a1 / l), rnd (a2 / l), rnd (a3 / l)⟩ := by
  unfold Vec3.normalizeR
  rw [hl, if_neg h0]

theorem Vec3.dotR_id (a b : Vec3 K) : Vec3.dotR id a b = Vec3.dot a b := rfl

theorem Vec3.crossR_id (a b : Vec3 K) : Vec3.crossR id a b = Vec3.cross a b := rfl

theorem Vec3.normalizeR_id (sqrt : K → K) (a : Vec3 K) (h : sqrt (Vec3.dot a a) ≠ 0) :
    Vec3.normalizeR id sqrt a = some (Vec3.normalize sqrt a) := by
  unfold Vec3.normalizeR
  rw [Vec3.dotR_id, if_neg h]
  rfl

/-- A dot product outside `[-1, 1]` leaves no quaternion. -/
theorem between_vectors_none (rnd sqrt sin cos acos : K → K) (vfrom vto a b : Vec3 K)
    (ha : Vec3.normalizeR rnd sqrt vfrom = some a) (hb : Vec3.normalizeR rnd sqrt vto = some b)
    (hd : 1 < Vec3.dotR rnd a b) :
    make_rotation_quat_between_vectors rnd sqrt sin cos acos vfrom vto = none := by
  unfold make_rotation_quat_between_vectors
  rw [ha, hb, Option.some_bind, Option.some_bind]
  cases Vec3.normalizeR rnd sqrt (Vec3.crossR rnd a b) with
  | none => rfl
  | some n => rw [Option.some_bind, if_pos (Or.inr hd)]

end BetweenVectorsFloat

section BetweenVectorsFloatInput

theorem sqrtF32_17 : sqrtF32 17 = 8646779 / 2097152 := by
  have h := sqrtF32_eq_lo 17 2 8646779 (by norm_num) (by norm_num) (by norm_num) (by norm_num)
  rw [h]; norm_num

theorem roundF32_one : roundF32 1 = 1 :=
  roundF32_exact 1 0 8388608 (by norm_num) (by norm_num) (by norm_num)

theorem roundF32_16 : roundF32 16 = 16 :=
  roundF32_exact 16 4 8388608 (by norm_num) (by norm_num) (by norm_num)

theorem roundF32_17 : roundF32 17 = 17 :=
  roundF32_exact 17 4 8912896 (by norm_num) (by norm_num) (by norm_num)

/-- In `float`, `(0, 1, 4)` has the squared length `17`. -/
theorem dotR_from : Vec3.dotR roundF32 (⟨0, 1, 4⟩ : Vec3 ℚ) ⟨0, 1, 4⟩ = 17 := by
  rw [Vec3.dotR_mk]
  norm_num
  rw [roundF32_zero, roundF32_one, roundF32_16]
  norm_num
  rw [roundF32_one]
  norm_num
  exact roundF32_17

/-- In `float`, `(2^-12, 1, 4)` has the squared length `17` as well: `2^-24 + 1`
rounds to `1`. -/
theorem dotR_to : Vec3.dotR roundF32 (⟨1 / 4096, 1, 4⟩ : Vec3 ℚ) ⟨1 / 4096, 1, 4⟩ = 17 := by
  rw [Vec3.dotR_mk]
  norm_num
  rw [roundF32_one, roundF32_16,
    roundF32_exact (1 / 16777216) (-24) 8388608 (by norm_num) (by norm_num) (by norm_num)]
  have h : roundF32 (1 / 16777216 + 1) = 1 := by
    have hr := roundF32_eq (1 / 16777216 + 1) 0 8388608 (by norm_num [abs_of_pos])
      (by norm_num [abs_of_pos])
      (by
        have h2 : ((1 : ℚ) / 16777216 + 1) / 2 ^ ((0 : ℤ) - 23) = ((8388608 : ℤ) : ℚ) + 1 / 2 := by
          norm_num
        rw [h2, roundHalfEven_tie]
        decide)
    rw [hr]; norm_num
  rw [h]
  norm_num
  exact roundF32_17

theorem normalizeR_from :
    Vec3.normalizeR roundF32 sqrtF32 (⟨0, 1, 4⟩ : Vec3 ℚ) =
      some ⟨0, 16276291 / 67108864, 16276291 / 16777216⟩ := by
  rw [Vec3.normalizeR_mk roundF32 sqrtF32 0 1 4 (8646779 / 2097152)
    (by rw [dotR_from, sqrtF32_17]) (by norm_num)]
  have hy : roundF32 (1 / (8646779 / 2097152)) = 16276291 / 67108864 := by
    have hr := roundF32_eq (1 / (8646779 / 2097152)) (-3) 16276291 (by norm_num [abs_of_pos])
      (by norm_num [abs_of_pos]) (roundHalfEven_of_lt _ _ (by norm_num) (by norm_num))
    rw [hr]; norm_num
  have hz : roundF32 (4 / (8646779 / 2097152)) = 16276291 / 16777216 := by
    have hr := roundF32_eq (4 / (8646779 / 2097152)) (-1) 16276291 (by norm_num [abs_of_pos])
      (by norm_num [abs_of_pos]) (roundHalfEven_of_lt _ _ (by norm_num) (by norm_num))
    rw [hr]; norm_num
  rw [hy, hz, zero_div, roundF32_zero]

theorem normalizeR_to :
    Vec3.normalizeR roundF32 sqrtF32 (⟨1 / 4096, 1, 4⟩ : Vec3 ℚ) =
      some ⟨16276291 / 274877906944, 16276291 / 67108864, 16276291 / 16777216⟩ := by
  rw [Vec3.normalizeR_mk roundF32 sqrtF32 (1 / 4096) 1 4 (8646779 / 2097152)
    (by rw [dotR_to, sqrtF32_17]) (by norm_num)]
  have hx : roundF32 (1 / 4096 / (8646779 / 2097152)) = 16276291 / 274877906944 := by
    have hr := roundF32_eq (1 / 4096 / (8646779 / 2097152)) (-15) 16276291
      (by norm_num [abs_of_pos]) (by norm_num [abs_of_pos])
      (roundHalfEven_of_lt _ _ (by norm_num) (by norm_num))
    rw [hr]; norm_num
  have hy : roundF32 (1 / (8646779 / 2097152)) = 16276291 / 67108864 := by
    have hr := roundF32_eq (1 / (8646779 / 2097152)) (-3) 16276291 (by norm_num [abs_of_pos])
      (by norm_num [abs_of_pos]) (roundHalfEven_of_lt _ _ (by norm_num) (by norm_num))
    rw [hr]; norm_num
  have hz : roundF32 (4 / (8646779 / 2097152)) = 16276291 / 16777216 := by
    have hr := roundF32_eq (4 / (8646779 / 2097152)) (-1) 16276291 (by norm_num [abs_of_pos])
      (by norm_num [abs_of_pos]) (roundHalfEven_of_lt _ _ (by norm_num) (by norm_num))
    rw [hr]; norm_num
  rw [hx, hy, hz]

/-- The `float` dot product of the two normalized vectors is `1 + 2^-23`. -/
theorem dotR_normalized :
    Vec3.dotR roundF32 (⟨0, 16276291 / 67108864, 16276291 / 16777216⟩ : Vec3 ℚ)
      ⟨16276291 / 274877906944, 16276291 / 67108864, 16276291 / 16777216⟩ =
        1 + 1 / 8388608 := by
  rw [Vec3.dotR_mk]
  have h1 : roundF32 (16276291 / 67108864 * (16276291 / 67108864)) = 7895161 / 134217728 := by
    have hr := roundF32_eq (16276291 / 67108864 * (16276291 / 67108864)) (-5) 15790322
      (by norm_num [abs_of_pos]) (by norm_num [abs_of_pos])
      (roundHalfEven_of_lt _ _ (by norm_num) (by norm_num))
    rw [hr]; norm_num
  have h2 : roundF32 (16276291 / 16777216 * (16276291 / 16777216)) = 7895161 / 8388608 := by
    have hr := roundF32_eq (16276291 / 16777216 * (16276291 / 16777216)) (-1) 15790322
      (by norm_num [abs_of_pos]) (by norm_num [abs_of_pos])
      (roundHalfEven_of_lt _ _ (by norm_num) (by norm_num))
    rw [hr]; norm_num
  have h3 : roundF32 (7895161 / 134217728) = 7895161 / 134217728 :=
    roundF32_exact _ (-5) 15790322 (by norm_num) (by norm_num) (by norm_num)
  have h4 : roundF32 (7895161 / 134217728 + 7895161 / 8388608) = 1 + 1 / 8388608 := by
    have hr := roundF32_eq (7895161 / 134217728 + 7895161 / 8388608) 0 8388609
      (by norm_num [abs_of_pos]) (by norm_num [abs_of_pos])
      (roundHalfEven_of_lt _ _ (by norm_num) (by norm_num))
    rw [hr]; norm_num
  rw [zero_mul, roundF32_zero, h1, h2, zero_add, h3, h4]

end BetweenVectorsFloatInput

section BetweenVectorsExact

/-- In exact arithmetic (`rnd = id`, the real `sqrt`, `sin`, `cos`, `acos`) the
construction of `make_rotation_quat_between_vectors` is right: for `from` and
`to` with `cross(from, to) ≠ 0` no length is zero, the dot product of the
normalized vectors lies in `[-1, 1]`, and the quaternion built from
`normalize(cross(a, b))` and `acos(dot(a, b))` is a unit quaternion that
rotates `normalize(from)` onto `normalize(to)`. -/
theorem between_vectors_exact_core (vfrom vto : Vec3 ℝ)
    (h : Vec3.cross vfrom vto ≠ ⟨0, 0, 0⟩) :
    (Real.sqrt (Vec3.dot vfrom vfrom) ≠ 0 ∧ Real.sqrt (Vec3.dot vto vto) ≠ 0 ∧
        Real.sqrt (Vec3.dot
          (Vec3.cross (Vec3.normalize Real.sqrt vfrom) (Vec3.normalize Real.sqrt vto))
          (Vec3.cross (Vec3.normalize Real.sqrt vfrom) (Vec3.normalize Real.sqrt vto))) ≠ 0 ∧
        -1 ≤ Vec3.dot (Vec3.normalize Real.sqrt vfrom) (Vec3.normalize Real.sqrt vto) ∧
        Vec3.dot (Vec3.normalize Real.sqrt vfrom) (Vec3.normalize Real.sqrt vto) ≤ 1) ∧
      IsUnit (make_rotation_quat_axis_angle Real.sin Real.cos
        (Vec3.normalize Real.sqrt
          (Vec3.cross (Vec3.normalize Real.sqrt vfrom) (Vec3.normalize Real.sqrt vto)))
        (Real.arccos (Vec3.dot (Vec3.normalize Real.sqrt vfrom)
          (Vec3.normalize Real.sqrt vto)))) ∧
      qrot (make_rotation_quat_axis_angle Real.sin Real.cos
        (Vec3.normalize Real.sqrt
          (Vec3.cross (Vec3.normalize Real.sqrt vfrom) (Vec3.normalize Real.sqrt vto)))
        (Real.arccos (Vec3.dot (Vec3.normalize Real.sqrt vfrom)
          (Vec3.normalize Real.sqrt vto)))) (Vec3.normalize Real.sqrt vfrom) =
        Vec3.normalize Real.sqrt vto := by
  have hs := isSqrt_real
  have hf : vfrom ≠ ⟨0, 0, 0⟩ := fun h0 => h (by rw [h0, Vec3.cross_zero_left])
  have ht : vto ≠ ⟨0, 0, 0⟩ := fun h0 => h (by rw [h0, Vec3.cross_zero_right])
  have hF := Vec3.dot_self_pos vfrom hf
  have hT := Vec3.dot_self_pos vto ht
  have haa := Vec3.dot_normalize hs vfrom hF
  have hbb := Vec3.dot_normalize hs vto hT
  have hm : Vec3.cross (Vec3.normalize Real.sqrt vfrom) (Vec3.normalize Real.sqrt vto)
      ≠ ⟨0, 0, 0⟩ := by
    simp only [Vec3.normalize]
    rw [Vec3.cross_sdiv]
    exact Vec3.sdiv_ne_zero _ _ h (mul_ne_zero (hs.pos hF).ne' (hs.pos hT).ne')
  refine ⟨⟨(hs.pos hF).ne', (hs.pos hT).ne', ?_⟩, ?_⟩
  · generalize Vec3.normalize Real.sqrt vfrom = a at *
    generalize Vec3.normalize Real.sqrt vto = b at *
    have hM := Vec3.dot_self_pos _ hm
    have hMd : Vec3.dot (Vec3.cross a b) (Vec3.cross a b) =
        1 - Vec3.dot a b * Vec3.dot a b := by
      rw [Vec3.dot_cross_self, haa, hbb, one_mul]
    exact ⟨(hs.pos hM).ne', by nlinarith, by nlinarith⟩
  unfold make_rotation_quat_axis_angle
  generalize Vec3.normalize Real.sqrt vfrom = a at *
  generalize Vec3.normalize Real.sqrt vto = b at *
  have hM := Vec3.dot_self_pos _ hm
  have hMd : Vec3.dot (Vec3.cross a b) (Vec3.cross a b) = 1 - Vec3.dot a b * Vec3.dot a b := by
    rw [Vec3.dot_cross_self, haa, hbb, one_mul]
  have hd1 : -1 ≤ Vec3.dot a b := by nlinarith
  have hd2 : Vec3.dot a b ≤ 1 := by nlinarith
  have hnn := Vec3.dot_normalize hs _ hM
  have hL := hs.pos hM
  have hna : Vec3.dot (Vec3.normalize Real.sqrt (Vec3.cross a b)) a = 0 := by
    simp only [Vec3.normalize]
    rw [Vec3.dot_sdiv_left, Vec3.dot_cross_left, zero_div]
  have hx : Vec3.cross (Vec3.normalize Real.sqrt (Vec3.cross a b)) a =
      (b - a.smul (Vec3.dot a b)).sdiv
        (Real.sqrt (Vec3.dot (Vec3.cross a b) (Vec3.cross a b))) := by
    simp only [Vec3.normalize]
    rw [Vec3.cross_sdiv_left, Vec3.cross_cross_left, haa]
    congr 2
    ext <;> simp only [Vec3.smul, mul_one]
  have hsc := Real.sin_sq_add_cos_sq (Real.arccos (Vec3.dot a b) / 2)
  have hcs : Real.cos (Real.arccos (Vec3.dot a b) / 2) * Real.cos (Real.arccos (Vec3.dot a b) / 2)
      - Real.sin (Real.arccos (Vec3.dot a b) / 2) * Real.sin (Real.arccos (Vec3.dot a b) / 2)
      = Vec3.dot a b := by
    have h1 := Real.cos_two_mul (Real.arccos (Vec3.dot a b) / 2)
    rw [mul_div_cancel₀ _ (two_ne_zero), Real.cos_arccos hd1 hd2] at h1
    linear_combination -h1 - hsc
  have h2 : 2 * Real.cos (Real.arccos (Vec3.dot a b) / 2)
      * Real.sin (Real.arccos (Vec3.dot a b) / 2)
      = Real.sqrt (Vec3.dot (Vec3.cross a b) (Vec3.cross a b)) := by
    have h1 := Real.sin_two_mul (Real.arccos (Vec3.dot a b) / 2)
    rw [mul_div_cancel₀ _ (two_ne_zero), Real.sin_arccos] at h1
    have h3 : (1 : ℝ) - Vec3.dot a b * Vec3.dot a b = 1 - Vec3.dot a b ^ 2 := by ring
    rw [hMd, h3, h1]
    ring
  constructor
  · unfold IsUnit
    rw [length2_axis, hnn]
    linear_combination hsc
  · exact qrot_between_core a b _ _ _ _ _ hL.ne' hnn hna hx hcs h2

/-- The claim of `make_rotation_quat_between_vectors` in exact arithmetic: for
`from` and `to` with `cross(from, to) ≠ 0` the function returns a unit
quaternion `q` with `qrot(q, normalize(from)) = normalize(to)`. -/
theorem between_vectors_rotates_exact (vfrom vto : Vec3 ℝ)
    (h : Vec3.cross vfrom vto ≠ ⟨0, 0, 0⟩) :
    ∃ q : Vec4 ℝ,
      make_rotation_quat_between_vectors id Real.sqrt Real.sin Real.cos Real.arccos
        vfrom vto = some q ∧
      IsUnit q ∧ qrot q (Vec3.normalize Real.sqrt vfrom) = Vec3.normalize Real.sqrt vto := by
  obtain ⟨⟨h1, h2, h3, h4, h5⟩, h6, h7⟩ := between_vectors_exact_core vfrom vto h
  refine ⟨_, ?_, h6, h7⟩
  unfold make_rotation_quat_between_vectors
  rw [Vec3.normalizeR_id _ _ h1, Vec3.normalizeR_id _ _ h2, Option.some_bind, Option.some_bind,
    Vec3.crossR_id, Vec3.normalizeR_id _ _ h3, Option.some_bind, Vec3.dotR_id,
    if_neg (by rw [not_or, not_lt, not_lt]; exact ⟨h4, h5⟩)]

/-- The exact claim for `from = (1, 0, 0)` and `to = (0, 2, 0)`. -/
theorem between_vectors_rotates_exact_right_angle :
    ∃ q : Vec4 ℝ,
      make_rotation_quat_between_vectors id Real.sqrt Real.sin Real.cos Real.arccos
        (⟨1, 0, 0⟩ : Vec3 ℝ) ⟨0, 2, 0⟩ = some q ∧
      IsUnit q ∧ qrot q (Vec3.normalize Real.sqrt ⟨1, 0, 0⟩) =
        Vec3.normalize Real.sqrt ⟨0, 2, 0⟩ :=
  between_vectors_rotates_exact _ _ (by
    intro h0
    have hz := congrArg Vec3.z h0
    norm_num [Vec3.cross] at hz)

end BetweenVectorsExact

section BetweenVectorsClaim

/-- C14 at a failing input: `from = (0, 1, 4)` and `to = (2^-12, 1, 4)` are
`float` vectors that are not zero and not parallel (`cross(from, to) ≠ 0`).
In `float` their normalized vectors are `a = (0, n, 4n)` and
`b = (2^-12 n, n, 4n)` with `n = 16276291 * 2^-26`, the dot product `dot(a, b)`
is `1 + 2^-23 > 1`, outside the domain of `std::acos`, and
`make_rotation_quat_between_vectors(from, to)` is no quaternion (all four
components are NaN), whatever `sin`, `cos` and `acos` are. -/
theorem between_vectors_float_nan (sin cos acos : ℚ → ℚ) :
    Vec3.cross (⟨0, 1, 4⟩ : Vec3 ℚ) ⟨1 / 4096, 1, 4⟩ ≠ ⟨0, 0, 0⟩ ∧
      Vec3.normalizeR roundF32 sqrtF32 (⟨0, 1, 4⟩ : Vec3 ℚ) =
        some ⟨0, 16276291 / 67108864, 16276291 / 16777216⟩ ∧
      Vec3.normalizeR roundF32 sqrtF32 (⟨1 / 4096, 1, 4⟩ : Vec3 ℚ) =
        some ⟨16276291 / 274877906944, 16276291 / 67108864, 16276291 / 16777216⟩ ∧
      Vec3.dotR roundF32 (⟨0, 16276291 / 67108864, 16276291 / 16777216⟩ : Vec3 ℚ)
        ⟨16276291 / 274877906944, 16276291 / 67108864, 16276291 / 16777216⟩ =
          1 + 1 / 8388608 ∧
      make_rotation_quat_between_vectors roundF32 sqrtF32 sin cos acos
        ⟨0, 1, 4⟩ ⟨1 / 4096, 1, 4⟩ = none := by
  refine ⟨?_, normalizeR_from, normalizeR_to, dotR_normalized, ?_⟩
  · intro h0
    have hz := congrArg Vec3.z h0
    norm_num [Vec3.cross] at hz
  · exact between_vectors_none roundF32 sqrtF32 sin cos acos _ _ _ _ normalizeR_from
      normalizeR_to (by rw [dotR_normalized]; norm_num)

end BetweenVectorsClaim

section BoundingTheorems

variable {K : Type} [LinearOrderedField K]

/-! ### Boxes, screen rectangles and anchored coordinates -/

theorem Box.containsLoop_iff {M : Nat} (rnd : K → K) (b : Box K M) (qt : Fin M → K)
    (l : List (Fin M)) :
    b.containsLoop rnd qt l = true ↔
      ∀ m ∈ l, b.min m ≤ qt m ∧ qt m < rnd (b.min m + b.max m) := by
  induction l with
  | nil => simp [Box.containsLoop]
  | cons m ms ih =>
    unfold Box.containsLoop
    split_ifs with h
    · simp only [Bool.false_eq_true, List.mem_cons, forall_eq_or_imp, false_iff, not_and]
      intro h1
      rcases h with h | h
      · exact absurd h1.1 (not_le.mpr h)
      · exact absurd h1.2 (not_lt.mpr h)
    · push_neg at h
      rw [ih]
      simp only [List.mem_cons, forall_eq_or_imp]
      exact ⟨fun h2 => ⟨⟨h.1, h.2⟩, h2⟩, fun h2 => h2.2⟩

theorem Box.contains_iff {M : Nat} (rnd : K → K) (b : Box K M) (p : Fin M → K) :
    b.contains rnd p = true ↔ ∀ m : Fin M, b.min m ≤ p m ∧ p m < rnd (b.min m + b.max m) := by
  unfold Box.contains
  rw [Box.containsLoop_iff]
  simp only [List.mem_finRange, forall_true_left]

/-- C16: `center()` is the midpoint `(min + max) / 2` of the two stored corners,
and the box with `min = (-10,-10,-10)`, `max = (-5,-5,-5)` has `min < max` on
every axis and positive `volume()`, yet does not contain its own center,
whatever the rounding of the sum `-10 + -5 = -15` (which `float` represents
exactly). -/
theorem box_center_not_contained :
    (∀ (M : Nat) (b : Box ℚ M) (m : Fin M), b.center m = (b.min m + b.max m) / 2) ∧
      ∃ b : Box ℚ 3, b.min = ![-10, -10, -10] ∧ b.max = ![-5, -5, -5] ∧
        (∀ m : Fin 3, b.min m < b.max m) ∧ 0 < b.volume ∧
        (∀ rnd : ℚ → ℚ, rnd (-15) = -15 → b.contains rnd b.center = false) ∧
        b.contains roundF32 b.center = false ∧ b.contains id b.center = false := by
  have key : ∀ rnd : ℚ → ℚ, rnd (-15) = -15 →
      (⟨![-10, -10, -10], ![-5, -5, -5]⟩ : Box ℚ 3).contains rnd
        (⟨![-10, -10, -10], ![-5, -5, -5]⟩ : Box ℚ 3).center = false := by
    intro rnd hr
    rw [Bool.eq_false_iff, Ne, Box.contains_iff]
    intro h
    have h0 := (h 0).2
    simp only [Box.center, Matrix.cons_val_zero] at h0
    norm_num at h0
    rw [hr] at h0
    norm_num at h0
  refine ⟨fun M b m => by simp only [Box.center]; ring,
    ⟨![-10, -10, -10], ![-5, -5, -5]⟩, rfl, rfl, ?_, ?_, key, key _ ?_, key _ rfl⟩
  · intro m
    fin_cases m <;> norm_num
  · norm_num [Box.volume]
  · have h := roundF32_exact (-15) 3 (-15728640) (by norm_num) (by norm_num) (by norm_num)
    exact h

/-- C17: `b.inside(px, py)` is true if and only if `b.x0 ≤ px < b.x1` and
`b.y0 ≤ py < b.y1`; `Bounds(0,0,10,10)` contains `(0,0)` and `(9.999,9.999)`
and does not contain `(10,10)`. -/
theorem bounds_inside_iff :
    (∀ (F : Type) [LinearOrderedField F] (b : Bounds F) (px py : F),
        b.inside px py = true ↔ (b.x0 ≤ px ∧ px < b.x1) ∧ (b.y0 ≤ py ∧ py < b.y1)) ∧
      (⟨0, 0, 10, 10⟩ : Bounds ℚ).inside 0 0 = true ∧
      (⟨0, 0, 10, 10⟩ : Bounds ℚ).inside (9999 / 1000) (9999 / 1000) = true ∧
      (⟨0, 0, 10, 10⟩ : Bounds ℚ).inside 10 10 = false := by
  refine ⟨fun F _ b px py => ?_, ?_, ?_, ?_⟩
  · simp only [Bounds.inside, Bool.and_eq_true, decide_eq_true_eq, ge_iff_le]
    tauto
  · norm_num [Bounds.inside]
  · norm_num [Bounds.inside]
  · norm_num [Bounds.inside]

theorem roundF32_1e9 : roundF32 1000000000 = 1000000000 :=
  roundF32_exact 1000000000 29 15625000 (by norm_num) (by norm_num) (by norm_num)

theorem roundF32_1e9_add_10 : roundF32 (1000000000 + 10) = 1000000000 := by
  have h := roundF32_eq (1000000000 + 10) 29 15625000 (by norm_num) (by norm_num)
    (roundHalfEven_of_lt _ _ (by norm_num) (by norm_num))
  rw [h]; norm_num

theorem roundF32_1e9_add_110 : roundF32 (1000000000 + 110) = 1000000128 := by
  have h := roundF32_eq (1000000000 + 110) 29 15625002 (by norm_num) (by norm_num)
    (roundHalfEven_of_lt _ _ (by norm_num) (by norm_num))
  rw [h]; norm_num

theorem roundF32_small_values :
    roundF32 10 = 10 ∧ roundF32 100 = 100 ∧ roundF32 110 = 110 ∧ roundF32 128 = 128 ∧
      roundF32 640 = 640 := by
  refine ⟨?_, ?_, ?_, ?_, ?_⟩
  · exact roundF32_exact 10 3 10485760 (by norm_num) (by norm_num) (by norm_num)
  · exact roundF32_exact 100 6 13107200 (by norm_num) (by norm_num) (by norm_num)
  · exact roundF32_exact 110 6 14417920 (by norm_num) (by norm_num) (by norm_num)
  · exact roundF32_exact 128 7 8388608 (by norm_num) (by norm_num) (by norm_num)
  · exact roundF32_exact 640 9 10485760 (by norm_num) (by norm_num) (by norm_num)

theorem URect.resolve_width (rnd : K → K) (u : URect K) (r : Bounds K) :
    (u.resolve rnd r).width rnd =
      rnd (u.x1.resolve rnd r.x0 r.x1 - u.x0.resolve rnd r.x0 r.x1) := rfl

theorem URect.resolve_height (rnd : K → K) (u : URect K) (r : Bounds K) :
    (u.resolve rnd r).height rnd =
      rnd (u.y1.resolve rnd r.y0 r.y1 - u.y0.resolve rnd r.y0 r.y1) := rfl

/-- C18, counterexample: in `float`, the rectangle `x0 = {a:0, b:10}`,
`x1 = {a:0, b:110}` is fixed-width with `fixed_width() = 100`, but against the
parent `Bounds(1e9, 0, 2e9, 1)` it resolves to `x0 = 1e9` and
`x1 = 1000000128`, of width `128`: near `1e9` the `float` numbers are `64`
apart. -/
theorem urect_width_depends_on_parent :
    (⟨⟨0, 10⟩, ⟨0, 0⟩, ⟨0, 110⟩, ⟨0, 0⟩⟩ : URect ℚ).is_fixed_width = true ∧
      (⟨⟨0, 10⟩, ⟨0, 0⟩, ⟨0, 110⟩, ⟨0, 0⟩⟩ : URect ℚ).fixed_width roundF32 = 100 ∧
      ((⟨⟨0, 10⟩, ⟨0, 0⟩, ⟨0, 110⟩, ⟨0, 0⟩⟩ : URect ℚ).resolve roundF32
        ⟨1000000000, 0, 2000000000, 1⟩).x0 = 1000000000 ∧
      ((⟨⟨0, 10⟩, ⟨0, 0⟩, ⟨0, 110⟩, ⟨0, 0⟩⟩ : URect ℚ).resolve roundF32
        ⟨1000000000, 0, 2000000000, 1⟩).x1 = 1000000128 ∧
      ((⟨⟨0, 10⟩, ⟨0, 0⟩, ⟨0, 110⟩, ⟨0, 0⟩⟩ : URect ℚ).resolve roundF32
        ⟨1000000000, 0, 2000000000, 1⟩).width roundF32 = 128 := by
  have hx0 : UCoord.resolve roundF32 (⟨0, 10⟩ : UCoord ℚ) 1000000000 2000000000 =
      1000000000 := by
    simp only [UCoord.resolve, zero_mul, roundF32_zero, add_zero]
    rw [roundF32_1e9, roundF32_1e9_add_10]
  have hx1 : UCoord.resolve roundF32 (⟨0, 110⟩ : UCoord ℚ) 1000000000 2000000000 =
      1000000128 := by
    simp only [UCoord.resolve, zero_mul, roundF32_zero, add_zero]
    rw [roundF32_1e9, roundF32_1e9_add_110]
  have hsub : (1000000128 : ℚ) - 1000000000 = 128 := by norm_num
  have hfix : (110 : ℚ) - 10 = 100 := by norm_num
  refine ⟨by simp [URect.is_fixed_width], ?_, hx0, hx1, ?_⟩
  · rw [URect.fixed_width, hfix]
    exact roundF32_small_values.2.1
  · rw [URect.resolve_width, hx1, hx0, hsub]
    exact roundF32_small_values.2.2.2.1

/-- C18, amended: when `u.is_fixed_width()` holds and the two additions
`... + x0.b` and `... + x1.b` of `resolve` are exact for the parent `r` (the
`float` sums are not rounded), `u.resolve(r).width()` equals
`u.fixed_width() = fl(x1.b - x0.b)`; likewise for the height when
`u.is_fixed_height()` holds.  And `x0 = {a:0, b:10}`, `x1 = {a:0, b:110}` is
fixed-width and resolves to width `100` against every parent whose `x0` is a
`float` for which `x0 + 10` and `x0 + 110` are computed exactly. -/
theorem urect_fixed_size (rnd : K → K) (u : URect K) (r : Bounds K) :
    (u.is_fixed_width = true →
        rnd (rnd (r.x0 + rnd (u.x0.a * rnd (r.x1 - r.x0))) + u.x0.b) =
          rnd (r.x0 + rnd (u.x0.a * rnd (r.x1 - r.x0))) + u.x0.b →
        rnd (rnd (r.x0 + rnd (u.x1.a * rnd (r.x1 - r.x0))) + u.x1.b) =
          rnd (r.x0 + rnd (u.x1.a * rnd (r.x1 - r.x0))) + u.x1.b →
        (u.resolve rnd r).width rnd = u.fixed_width rnd ∧
          u.fixed_width rnd = rnd (u.x1.b - u.x0.b)) ∧
      (u.is_fixed_height = true →
        rnd (rnd (r.y0 + rnd (u.y0.a * rnd (r.y1 - r.y0))) + u.y0.b) =
          rnd (r.y0 + rnd (u.y0.a * rnd (r.y1 - r.y0))) + u.y0.b →
        rnd (rnd (r.y0 + rnd (u.y1.a * rnd (r.y1 - r.y0))) + u.y1.b) =
          rnd (r.y0 + rnd (u.y1.a * rnd (r.y1 - r.y0))) + u.y1.b →
        (u.resolve rnd r).height rnd = u.fixed_height rnd ∧
          u.fixed_height rnd = rnd (u.y1.b - u.y0.b)) ∧
      ((⟨⟨0, 10⟩, u.y0, ⟨0, 110⟩, u.y1⟩ : URect K).is_fixed_width = true ∧
        (rnd 0 = 0 → rnd r.x0 = r.x0 → rnd (r.x0 + 10) = r.x0 + 10 →
          rnd (r.x0 + 110) = r.x0 + 110 → rnd 100 = 100 →
          ((⟨⟨0, 10⟩, u.y0, ⟨0, 110⟩, u.y1⟩ : URect K).resolve rnd r).width rnd = 100)) := by
  refine ⟨?_, ?_, ?_, ?_⟩
  · intro h h0 h1
    simp only [URect.is_fixed_width, decide_eq_true_eq] at h
    refine ⟨?_, rfl⟩
    simp only [URect.resolve, Bounds.width, URect.fixed_width, UCoord.resolve]
    rw [h0, h1, h]
    congr 1
    ring
  · intro h h0 h1
    simp only [URect.is_fixed_height, decide_eq_true_eq] at h
    refine ⟨?_, rfl⟩
    simp only [URect.resolve, Bounds.height, URect.fixed_height, UCoord.resolve]
    rw [h0, h1, h]
    congr 1
    ring
  · simp only [URect.is_fixed_width, decide_True]
  · intro z hx h10 h110 h100
    simp only [URect.resolve, Bounds.width, UCoord.resolve, zero_mul, z, add_zero, hx, h10,
      h110]
    rw [show r.x0 + 110 - (r.x0 + 10) = 100 by ring, h100]

/-- C18 (amended) in `float` for a rectangle with fixed width and fixed height
against the parent `Bounds(0, 0, 640, 640)`: width `100`, height `100`. -/
theorem urect_fixed_size_witness :
    (⟨⟨0, 10⟩, ⟨0, 10⟩, ⟨0, 110⟩, ⟨0, 110⟩⟩ : URect ℚ).is_fixed_width = true ∧
      (⟨⟨0, 10⟩, ⟨0, 10⟩, ⟨0, 110⟩, ⟨0, 110⟩⟩ : URect ℚ).is_fixed_height = true ∧
      ((⟨⟨0, 10⟩, ⟨0, 10⟩, ⟨0, 110⟩, ⟨0, 110⟩⟩ : URect ℚ).resolve roundF32
          ⟨0, 0, 640, 640⟩).width roundF32 =
        (⟨⟨0, 10⟩, ⟨0, 10⟩, ⟨0, 110⟩, ⟨0, 110⟩⟩ : URect ℚ).fixed_width roundF32 ∧
      ((⟨⟨0, 10⟩, ⟨0, 10⟩, ⟨0, 110⟩, ⟨0, 110⟩⟩ : URect ℚ).resolve roundF32
          ⟨0, 0, 640, 640⟩).height roundF32 =
        (⟨⟨0, 10⟩, ⟨0, 10⟩, ⟨0, 110⟩, ⟨0, 110⟩⟩ : URect ℚ).fixed_height roundF32 ∧
      (⟨⟨0, 10⟩, ⟨0, 10⟩, ⟨0, 110⟩, ⟨0, 110⟩⟩ : URect ℚ).fixed_width roundF32 = 100 :=
  have hw : (⟨⟨0, 10⟩, ⟨0, 10⟩, ⟨0, 110⟩, ⟨0, 110⟩⟩ : URect ℚ).is_fixed_width = true := by
    simp [URect.is_fixed_width]
  have hh : (⟨⟨0, 10⟩, ⟨0, 10⟩, ⟨0, 110⟩, ⟨0, 110⟩⟩ : URect ℚ).is_fixed_height = true := by
    simp [URect.is_fixed_height]
  have e10 : roundF32 (roundF32 ((0 : ℚ) + roundF32 (0 * roundF32 (640 - 0))) + 10) =
      roundF32 ((0 : ℚ) + roundF32 (0 * roundF32 (640 - 0))) + 10 := by
    simp only [zero_mul, roundF32_zero, add_zero, zero_add]
    exact roundF32_small_values.1
  have e110 : roundF32 (roundF32 ((0 : ℚ) + roundF32 (0 * roundF32 (640 - 0))) + 110) =
      roundF32 ((0 : ℚ) + roundF32 (0 * roundF32 (640 - 0))) + 110 := by
    simp only [zero_mul, roundF32_zero, add_zero, zero_add]
    exact roundF32_small_values.2.2.1
  have hfix : (110 : ℚ) - 10 = 100 := by norm_num
  have hfw : (⟨⟨0, 10⟩, ⟨0, 10⟩, ⟨0, 110⟩, ⟨0, 110⟩⟩ : URect ℚ).fixed_width roundF32 = 100 := by
    rw [URect.fixed_width, hfix]
    exact roundF32_small_values.2.1
  ⟨hw, hh, ((urect_fixed_size roundF32 _ ⟨0, 0, 640, 640⟩).1 hw e10 e110).1,
    ((urect_fixed_size roundF32 _ ⟨0, 0, 640, 640⟩).2.1 hh e10 e110).1, hfw⟩

end BoundingTheorems

section PoseAlgebraTheorems

variable {K : Type} [Field K]

/-! ### Pose composition: order matters, grouping does not -/

/-- C19: Pose composition is not commutative: `A = Pose((0,0,0,1), (1,0,0))` and
`B = Pose((0,0,1,0), (0,0,0))` have unit orientations, neither is the identity
Pose, and `A * B` has position `(1,0,0)` while `B * A` has position `(-1,0,0)`. -/
theorem pose_mul_not_commutative :
    IsUnit (⟨⟨0, 0, 0, 1⟩, ⟨1, 0, 0⟩⟩ : Pose ℚ).orientation ∧
      IsUnit (⟨⟨0, 0, 1, 0⟩, ⟨0, 0, 0⟩⟩ : Pose ℚ).orientation ∧
      (⟨⟨0, 0, 0, 1⟩, ⟨1, 0, 0⟩⟩ : Pose ℚ) ≠ Pose.identity ∧
      (⟨⟨0, 0, 1, 0⟩, ⟨0, 0, 0⟩⟩ : Pose ℚ) ≠ Pose.identity ∧
      ((⟨⟨0, 0, 0, 1⟩, ⟨1, 0, 0⟩⟩ : Pose ℚ) * ⟨⟨0, 0, 1, 0⟩, ⟨0, 0, 0⟩⟩).position = ⟨1, 0, 0⟩ ∧
      ((⟨⟨0, 0, 1, 0⟩, ⟨0, 0, 0⟩⟩ : Pose ℚ) * ⟨⟨0, 0, 0, 1⟩, ⟨1, 0, 0⟩⟩).position =
        ⟨-1, 0, 0⟩ ∧
      (⟨⟨0, 0, 0, 1⟩, ⟨1, 0, 0⟩⟩ : Pose ℚ) * ⟨⟨0, 0, 1, 0⟩, ⟨0, 0, 0⟩⟩ ≠
        (⟨⟨0, 0, 1, 0⟩, ⟨0, 0, 0⟩⟩ : Pose ℚ) * ⟨⟨0, 0, 0, 1⟩, ⟨1, 0, 0⟩⟩ := by
  have hAB : ((⟨⟨0, 0, 0, 1⟩, ⟨1, 0, 0⟩⟩ : Pose ℚ) * ⟨⟨0, 0, 1, 0⟩, ⟨0, 0, 0⟩⟩).position
      = ⟨1, 0, 0⟩ := by
    show (Pose.mul _ _).position = _
    ext <;> norm_num [Pose.mul, Pose.transform_coord, Pose.transform_vector, qrot, qxdir,
      qydir, qzdir, Vec3.smul, Vec3.add_def3]
  have hBA : ((⟨⟨0, 0, 1, 0⟩, ⟨0, 0, 0⟩⟩ : Pose ℚ) * ⟨⟨0, 0, 0, 1⟩, ⟨1, 0, 0⟩⟩).position
      = ⟨-1, 0, 0⟩ := by
    show (Pose.mul _ _).position = _
    ext <;> norm_num [Pose.mul, Pose.transform_coord, Pose.transform_vector, qrot, qxdir,
      qydir, qzdir, Vec3.smul, Vec3.add_def3]
  refine ⟨by norm_num [IsUnit, Vec4.length2], by norm_num [IsUnit, Vec4.length2], ?_, ?_,
    hAB, hBA, ?_⟩
  · intro h
    have := congrArg (fun p : Pose ℚ => p.position.x) h
    norm_num [Pose.identity] at this
  · intro h
    have := congrArg (fun p : Pose ℚ => p.orientation.z) h
    norm_num [Pose.identity] at this
  · intro h
    have h1 := congrArg (fun p : Pose ℚ => p.position.x) h
    simp only [hAB, hBA] at h1
    norm_num at h1

theorem Vec3.add_assoc3 (a b c : Vec3 K) : a + b + c = a + (b + c) := by
  ext <;> simp only [Vec3.add_def3] <;> ring

/-- C20: `qmul` is associative for all quaternions, and Pose composition is
associative for all Poses, in orientation and in position. -/
theorem pose_mul_assoc :
    (∀ a b c : Vec4 K, qmul (qmul a b) c = qmul a (qmul b c)) ∧
      ∀ A B C : Pose K, A * B * C = A * (B * C) := by
  refine ⟨qmul_assoc, fun A B C => ?_⟩
  show Pose.mul (Pose.mul A B) C = Pose.mul A (Pose.mul B C)
  unfold Pose.mul Pose.transform_coord Pose.transform_vector
  simp only [qmul_assoc, qrot_qmul, qrot_add, Vec3.add_assoc3]

end PoseAlgebraTheorems

theorem Vec4.get_set4 {F : Type} [Field F] (v : Vec4 F) (k : Nat) (a : F) :
    (v.set k a).get k = a := by
  match k with
  | 0 => rfl
  | 1 => rfl
  | 2 => rfl
  | _ + 3 => rfl

section CheckedTheorems

variable {K : Type} [LinearOrderedField K]

/-! ### No unguarded division or square root -/

theorem checkedDiv_eq (a : K) {b : K} (hb : b ≠ 0) : checkedDiv a b = some (a / b) :=
  if_neg hb

theorem checkedSqrt_eq (sqrt : K → K) {x : K} (hx : 0 ≤ x) :
    checkedSqrt sqrt x = some (sqrt x) :=
  if_neg (not_lt.mpr hx)

theorem guardedDiv_eq (lo a : K) {b : K} (hb : lo < b) : guardedDiv lo a b = some (a / b) :=
  if_pos hb

theorem normalizeChecked_eq {sqrt : K → K} (hs : IsSqrt sqrt) (a : Vec4 K)
    (ha : 0 < a.length2) : Vec4.normalizeChecked sqrt a = some (Vec4.normalize sqrt a) := by
  have h1 := (hs.pos ha).ne'
  unfold Vec4.normalizeChecked
  rw [checkedSqrt_eq sqrt ha.le]
  simp only [Option.some_bind, checkedDiv_eq _ h1]
  rfl

/-- The argument of the last square root of a loop step (line 47) is
`(1 + c)/2`, which is not negative. -/
theorem jacobi_last_sqrt_arg {sqrt : K → K} (hs : IsSqrt sqrt) (sgn c : K)
    (hsgn : sgn * sgn = 1) (hc0 : 0 ≤ c) (hc1 : c ≤ 1) :
    0 ≤ 1 - (sgn * sqrt ((1 - c) / 2) * -1) * (sgn * sqrt ((1 - c) / 2) * -1) := by
  have h1 := hs.mul_self (x := (1 - c) / 2) (by linarith)
  have h2 : (sgn * sqrt ((1 - c) / 2) * -1) * (sgn * sqrt ((1 - c) / 2) * -1) =
      (sgn * sgn) * (sqrt ((1 - c) / 2) * sqrt ((1 - c) / 2)) := by ring
  rw [h2, hsgn, h1]
  linarith

theorem jacobiThetaChecked_eq (D : Mat3 K) (k : Nat) (h0 : (offdiag D).get k ≠ 0) :
    jacobiThetaChecked D k = some (jacobiTheta D k) := by
  unfold jacobiThetaChecked jacobiTheta
  exact checkedDiv_eq _ (mul_ne_zero two_ne_zero h0)

theorem jacobiTChecked_eq {sqrt : K → K} (hs : IsSqrt sqrt) (thet : K) :
    jacobiTChecked sqrt thet = some (jacobiT sqrt thet) := by
  have hden := jacobiT_den_pos hs thet
  have hsq1 : (0 : K) ≤ thet * jacobiSgn thet * (thet * jacobiSgn thet) + 1 := by
    nlinarith [mul_self_nonneg (thet * jacobiSgn thet)]
  unfold jacobiTChecked jacobiT
  simp only
  split_ifs with h
  · rw [if_pos h] at hden
    rw [checkedSqrt_eq sqrt hsq1, Option.some_bind, checkedDiv_eq _ hden.ne']
  · rw [if_neg h] at hden
    rw [Option.some_bind, checkedDiv_eq _ hden.ne']

theorem jacobiCChecked_eq {sqrt : K → K} (hs : IsSqrt sqrt) (t : K) :
    jacobiCChecked sqrt t = some (jacobiC sqrt t) := by
  have hsq2 : (1 : K) ≤ t * t + 1 := by nlinarith [mul_self_nonneg t]
  have hs2 := hs.one_le hsq2
  unfold jacobiCChecked jacobiC
  rw [checkedSqrt_eq sqrt (le_trans zero_le_one hsq2), Option.some_bind,
    checkedDiv_eq _ (lt_of_lt_of_le zero_lt_one hs2).ne']

theorem jacobiQuatChecked_eq {sqrt : K → K} (hs : IsSqrt sqrt) (k : Nat) (sgn c : K)
    (hsgn : sgn * sgn = 1) (hc0 : 0 ≤ c) (hc1 : c ≤ 1) :
    jacobiQuatChecked sqrt k sgn c = some (jacobiQuat sqrt k sgn c) := by
  unfold jacobiQuatChecked jacobiQuat
  rw [checkedDiv_eq _ (two_ne_zero : (2 : K) ≠ 0), Option.some_bind,
    checkedSqrt_eq sqrt (by linarith : (0 : K) ≤ (1 - c) / 2), Option.some_bind]
  simp only [Vec4.get_set4]
  rw [checkedSqrt_eq sqrt (jacobi_last_sqrt_arg hs sgn c hsgn hc0 hc1), Option.some_bind]

/-- Every division and square root of lines 38-49 passes its check, and the
checked step computes what `jacobi` computes. -/
theorem jacobiChecked_eq {sqrt : K → K} (hs : IsSqrt sqrt) (D : Mat3 K) (k : Nat) :
    jacobiChecked sqrt D k = some (jacobi sqrt D k) := by
  unfold jacobiChecked jacobi
  by_cases h0 : (offdiag D).get k = 0
  · rw [if_pos h0, if_pos h0]
  · rw [if_neg h0, if_neg h0, jacobiThetaChecked_eq D k h0, Option.some_bind,
      jacobiTChecked_eq hs, Option.some_bind, jacobiCChecked_eq hs, Option.some_bind]
    simp only
    obtain ⟨hc0, hc1⟩ := jacobiC_bounds hs (jacobiT sqrt (jacobiTheta D k))
    rw [jacobiQuatChecked_eq hs k _ _ (jacobiSgn_mul_self _) hc0.le hc1, Option.some_bind]
    split_ifs <;> rfl

theorem diagStepChecked_eq {sqrt : K → K} (hs : IsSqrt sqrt) (A : Mat3 K) (q : Vec4 K)
    (hq : IsUnit q) : diagStepChecked sqrt A q = some (diagStep sqrt A q) := by
  unfold diagStepChecked diagStep
  simp only [jacobiChecked_eq hs, Option.some_bind]
  cases hj : jacobi sqrt (conjugated A q) (pivot (offdiag (conjugated A q))) with
  | none => rfl
  | some jr =>
    have hu : IsUnit (qmul q jr) := hq.qmul (jacobi_isUnit hs _ _ (pivot_lt _) jr hj)
    have hpos : 0 < (qmul q jr).length2 := by
      have h1 : (qmul q jr).length2 = 1 := hu
      rw [h1]; exact zero_lt_one
    simp only [normalizeChecked_eq hs _ hpos, Option.some_bind]

theorem diagLoopChecked_eq {sqrt : K → K} (hs : IsSqrt sqrt) (A : Mat3 K) (n : Nat) :
    ∀ q : Vec4 K, IsUnit q → diagLoopChecked sqrt A n q = some (diagLoop sqrt A n q) := by
  induction n with
  | zero => intro q _; rfl
  | succ n ih =>
    intro q hq
    unfold diagLoopChecked diagLoop
    rw [diagStepChecked_eq hs A q hq, Option.some_bind]
    cases hstep : diagStep sqrt A q with
    | none => rfl
    | some q1 => exact ih q1 (diagStep_isUnit hs A q q1 hq hstep)

theorem diagFixupChecked_eq {sqrt : K → K} (hs : IsSqrt sqrt) (A : Mat3 K) (q : Vec4 K) :
    diagFixupChecked sqrt A q = some (diagFixup sqrt A q) := by
  have hY : ∀ q : Vec4 K, (if (conjugated A q).entry 0 0 > (conjugated A q).entry 2 2
      then (Vec4.normalizeChecked sqrt ⟨0, 7 / 10, 0, 7 / 10⟩).bind fun r => some (qmul q r)
      else some q) = some (fixSwapY sqrt A q) := by
    intro q
    rw [normalizeChecked_eq hs _ (by norm_num [Vec4.length2])]
    unfold fixSwapY
    simp only
    split_ifs <;> rfl
  have hX : ∀ q : Vec4 K, (if (conjugated A q).entry 1 1 > (conjugated A q).entry 2 2
      then (Vec4.normalizeChecked sqrt ⟨7 / 10, 0, 0, 7 / 10⟩).bind fun r => some (qmul q r)
      else some q) = some (fixSwapX sqrt A q) := by
    intro q
    rw [normalizeChecked_eq hs _ (by norm_num [Vec4.length2])]
    unfold fixSwapX
    simp only
    split_ifs <;> rfl
  have hZ : ∀ q : Vec4 K, (if (conjugated A q).entry 0 0 > (conjugated A q).entry 1 1
      then (Vec4.normalizeChecked sqrt ⟨0, 0, 7 / 10, 7 / 10⟩).bind fun r => some (qmul q r)
      else some q) = some (fixSwapZ sqrt A q) := by
    intro q
    rw [normalizeChecked_eq hs _ (by norm_num [Vec4.length2])]
    unfold fixSwapZ
    simp only
    split_ifs <;> rfl
  unfold diagFixupChecked diagFixup
  rw [hY, Option.some_bind, hX, Option.some_bind, hZ, Option.some_bind]

theorem axis_angle_checked_eq (acos sqrt : K → K) (q : Vec4 K) :
    make_axis_angle_rotation_quat_checked acos sqrt q =
      some (make_axis_angle_rotation_quat acos sqrt q) := by
  unfold make_axis_angle_rotation_quat_checked make_axis_angle_rotation_quat
  simp only
  rw [checkedSqrt_eq sqrt (abs_nonneg _), Option.some_bind]
  split_ifs with h
  · simp only [guardedDiv_eq _ _ h, Option.some_bind]
  · rfl

/-- C21: with a true square root, for every 3x3 matrix `A` every division
executed by `diagonalizer` has a non-zero divisor and every square root a
non-negative argument: the checked run returns the result of `diagonalizer`.
The division by `2*offdiag[k]` is reached only when `offdiag[k] ≠ 0`,
`thet + sqrt(thet² + 1) ≥ 1`, `sqrt(t² + 1) ≥ 1`, `(1 - c)/2 ≥ 0` and
`1 - jr[k]² ≥ 0`.  And `make_axis_angle_rotation_quat` takes the square root
of a non-negative number and divides only by a denominator greater than
`1E-5`. -/
theorem diagonalizer_divisions_guarded {sqrt : K → K} (hs : IsSqrt sqrt) (A : Mat3 K) :
    diagonalizerChecked sqrt A = some (diagonalizer sqrt A) ∧
      (∀ (D : Mat3 K) (k : Nat), (offdiag D).get k = 0 → jacobiChecked sqrt D k = some none) ∧
      (∀ thet : K, 0 ≤ thet * jacobiSgn thet ∧
        1 ≤ thet * jacobiSgn thet +
          sqrt (thet * jacobiSgn thet * (thet * jacobiSgn thet) + 1)) ∧
      (∀ t : K, 1 ≤ sqrt (t * t + 1)) ∧
      (∀ t : K, 0 ≤ (1 - jacobiC sqrt t) / 2) ∧
      (∀ thet t : K,
        0 ≤ 1 - (jacobiSgn thet * sqrt ((1 - jacobiC sqrt t) / 2) * -1) *
          (jacobiSgn thet * sqrt ((1 - jacobiC sqrt t) / 2) * -1)) ∧
      (∀ (acos : K → K) (q : Vec4 K),
        make_axis_angle_rotation_quat_checked acos sqrt q =
          some (make_axis_angle_rotation_quat acos sqrt q)) := by
  have hsq : ∀ t : K, 1 ≤ sqrt (t * t + 1) := fun t =>
    hs.one_le (by nlinarith [mul_self_nonneg t])
  refine ⟨?_, ?_, ?_, hsq, ?_, ?_, fun acos q => axis_angle_checked_eq acos sqrt q⟩
  · unfold diagonalizerChecked diagonalizer
    rw [diagLoopChecked_eq hs A 24 _ identity_isUnit, Option.some_bind]
    exact diagFixupChecked_eq hs A _
  · intro D k h
    unfold jacobiChecked
    simp only [if_pos h]
  · intro thet
    have h0 := jacobiSgn_mul_nonneg thet
    have h1 := hsq (thet * jacobiSgn thet)
    exact ⟨h0, by linarith⟩
  · intro t
    have := (jacobiC_bounds hs t).2
    linarith
  · intro thet t
    exact jacobi_last_sqrt_arg hs _ _ (jacobiSgn_mul_self thet) (jacobiC_bounds hs t).1.le
      (jacobiC_bounds hs t).2

/-- C21 for the real square root and a concrete symmetric matrix. -/
theorem diagonalizer_divisions_guarded_witness :
    IsSqrt Real.sqrt ∧
      diagonalizerChecked Real.sqrt (⟨⟨2, 1, 0⟩, ⟨1, 3, 1⟩, ⟨0, 1, 1⟩⟩ : Mat3 ℝ) =
        some (diagonalizer Real.sqrt ⟨⟨2, 1, 0⟩, ⟨1, 3, 1⟩, ⟨0, 1, 1⟩⟩) :=
  ⟨isSqrt_real, (diagonalizer_divisions_guarded isSqrt_real _).1⟩

end CheckedTheorems

section DiagonalizerDetails

variable {K : Type} [LinearOrderedField K]

/-! ### Pivot selection -/

/-- C22: the index `k` chosen in line 35 (0 if `|D(2,1)|` is strictly greater
than both others, else 1 if `|D(2,0)| > |D(1,0)|`, else 2) has the largest
magnitude, `|offdiag[j]| ≤ |offdiag[k]|` for `j = 0, 1, 2`; hence when
`offdiag[k] == 0` all three off-diagonal entries of `D` are zero. -/
theorem pivot_is_largest (D : Mat3 K) :
    pivot (offdiag D) =
        (if |D.entry 2 1| > |D.entry 2 0| ∧ |D.entry 2 1| > |D.entry 1 0| then 0
          else if |D.entry 2 0| > |D.entry 1 0| then 1 else 2) ∧
      (∀ j : Nat, j < 3 →
        |(offdiag D).get j| ≤ |(offdiag D).get (pivot (offdiag D))|) ∧
      ((offdiag D).get (pivot (offdiag D)) = 0 →
        D.entry 2 1 = 0 ∧ D.entry 2 0 = 0 ∧ D.entry 1 0 = 0) := by
  refine ⟨rfl, ?_, fun h => pivot_entry_zero _ h⟩
  intro j hj
  unfold pivot
  simp only
  split_ifs with h1 h2 <;> interval_cases j <;> simp only [Vec3.get] <;>
    first
    | exact le_refl _
    | exact h1.1.le
    | exact h1.2.le
    | exact h2.le
    | (push_neg at h1 h2; rcases le_or_lt |(offdiag D).x| |(offdiag D).y| with h | h
       · first | exact h | exact le_trans h (by assumption)
       · first | exact le_trans (h1 h) h2.le | exact h1 h)
    | (push_neg at h2; exact h2)

/-- C22 for a concrete matrix whose pivot entry is zero. -/
theorem pivot_is_largest_witness :
    (offdiag (⟨⟨1, 0, 0⟩, ⟨0, 2, 0⟩, ⟨0, 0, 3⟩⟩ : Mat3 ℚ)).get
        (pivot (offdiag (⟨⟨1, 0, 0⟩, ⟨0, 2, 0⟩, ⟨0, 0, 3⟩⟩ : Mat3 ℚ))) = 0 ∧
      ((⟨⟨1, 0, 0⟩, ⟨0, 2, 0⟩, ⟨0, 0, 3⟩⟩ : Mat3 ℚ).entry 2 1 = 0 ∧
        (⟨⟨1, 0, 0⟩, ⟨0, 2, 0⟩, ⟨0, 0, 3⟩⟩ : Mat3 ℚ).entry 2 0 = 0 ∧
        (⟨⟨1, 0, 0⟩, ⟨0, 2, 0⟩, ⟨0, 0, 3⟩⟩ : Mat3 ℚ).entry 1 0 = 0) :=
  have h : (offdiag (⟨⟨1, 0, 0⟩, ⟨0, 2, 0⟩, ⟨0, 0, 3⟩⟩ : Mat3 ℚ)).get
      (pivot (offdiag (⟨⟨1, 0, 0⟩, ⟨0, 2, 0⟩, ⟨0, 0, 3⟩⟩ : Mat3 ℚ))) = 0 := by
    simp [pivot, offdiag, Mat3.entry, Vec3.get]
  ⟨h, (pivot_is_largest _).2.2 h⟩

/-! ### A Jacobi step zeroes its pivot -/

/-- C25: for a unit quaternion `q` and `m = qmat(q)` the selected `t` is 4
times the largest of `q.x²`, `q.y²`, `q.z²`, `q.w²`; hence `t ≥ 1`, and with a
true square root `sqrt(t) > 0` and the factor `1/sqrt(t)/2` lies in
`(0, 1/2]`. -/
theorem rotmat_t_largest (q : Vec4 K) (hq : IsUnit q) :
    rotmatT (qmat q) = 4 * max (max (q.x * q.x) (q.y * q.y)) (max (q.z * q.z) (q.w * q.w)) ∧
      1 ≤ rotmatT (qmat q) ∧
      ∀ sqrt : K → K, IsSqrt sqrt →
        0 < sqrt (rotmatT (qmat q)) ∧ 0 < 1 / sqrt (rotmatT (qmat q)) / 2 ∧
          1 / sqrt (rotmatT (qmat q)) / 2 ≤ 1 / 2 := by
  have hu : q.x * q.x + q.y * q.y + q.z * q.z + q.w * q.w = 1 := hq
  have hmax : rotmatT (qmat q) =
      4 * max (max (q.x * q.x) (q.y * q.y)) (max (q.z * q.z) (q.w * q.w)) := by
    rcases rotmat_select q hq with ⟨-, -, -, hT, h1, h2, h3⟩ | ⟨-, -, -, hT, h1, h2, h3⟩ |
        ⟨-, -, -, hT, h1, h2, h3⟩ | ⟨-, -, -, hT, h1, h2, h3⟩ <;>
      (rw [hT]; congr 1
       refine le_antisymm ?_ (max_le (max_le ?_ ?_) (max_le ?_ ?_))
       · first
         | exact le_max_of_le_left (le_max_left _ _)
         | exact le_max_of_le_left (le_max_right _ _)
         | exact le_max_of_le_right (le_max_left _ _)
         | exact le_max_of_le_right (le_max_right _ _)
       all_goals first | exact le_refl _ | assumption)
  have hone : 1 ≤ rotmatT (qmat q) := by
    rw [hmax]
    have a1 := le_max_left (max (q.x * q.x) (q.y * q.y)) (max (q.z * q.z) (q.w * q.w))
    have a2 := le_max_right (max (q.x * q.x) (q.y * q.y)) (max (q.z * q.z) (q.w * q.w))
    have b1 := le_max_left (q.x * q.x) (q.y * q.y)
    have b2 := le_max_right (q.x * q.x) (q.y * q.y)
    have b3 := le_max_left (q.z * q.z) (q.w * q.w)
    have b4 := le_max_right (q.z * q.z) (q.w * q.w)
    linarith
  refine ⟨hmax, hone, fun sqrt hs => ?_⟩
  have h1 := hs.one_le hone
  have h0 : 0 < sqrt (rotmatT (qmat q)) := lt_of_lt_of_le zero_lt_one h1
  refine ⟨h0, by positivity, ?_⟩
  rw [div_div, div_le_div_iff₀ (by positivity) (by norm_num)]
  linarith

/-- C25 for the real square root and the unit quaternion `(0, 3/5, 0, 4/5)`. -/
theorem rotmat_t_largest_witness :
    IsUnit (⟨0, 3 / 5, 0, 4 / 5⟩ : Vec4 ℝ) ∧ IsSqrt Real.sqrt ∧
      1 ≤ rotmatT (qmat (⟨0, 3 / 5, 0, 4 / 5⟩ : Vec4 ℝ)) ∧
      1 / Real.sqrt (rotmatT (qmat (⟨0, 3 / 5, 0, 4 / 5⟩ : Vec4 ℝ))) / 2 ≤ 1 / 2 :=
  have hq : IsUnit (⟨0, 3 / 5, 0, 4 / 5⟩ : Vec4 ℝ) := by norm_num [IsUnit, Vec4.length2]
  ⟨hq, isSqrt_real, (rotmat_t_largest _ hq).2.1,
    ((rotmat_t_largest _ hq).2.2 Real.sqrt isSqrt_real).2.2⟩

/-! ### Diagonal input -/

/-- Each sorting stage rearranges the diagonal of `qmat(q)^T * A * qmat(q)`. -/
theorem fixSwapY_perm {sqrt : K → K} (hs : IsSqrt sqrt) (A : Mat3 K) (q : Vec4 K) :
    [(conjugated A (fixSwapY sqrt A q)).entry 0 0, (conjugated A (fixSwapY sqrt A q)).entry 1 1,
      (conjugated A (fixSwapY sqrt A q)).entry 2 2].Perm
    [(conjugated A q).entry 0 0, (conjugated A q).entry 1 1, (conjugated A q).entry 2 2] := by
  unfold fixSwapY
  simp only
  split_ifs
  · simp only [conjugated_swapY hs, Mat3.entry, Vec3.get]
    exact List.reverse_perm [(conjugated A q).x.x, (conjugated A q).y.y, (conjugated A q).z.z]
  · exact List.Perm.refl _

theorem fixSwapX_perm {sqrt : K → K} (hs : IsSqrt sqrt) (A : Mat3 K) (q : Vec4 K) :
    [(conjugated A (fixSwapX sqrt A q)).entry 0 0, (conjugated A (fixSwapX sqrt A q)).entry 1 1,
      (conjugated A (fixSwapX sqrt A q)).entry 2 2].Perm
    [(conjugated A q).entry 0 0, (conjugated A q).entry 1 1, (conjugated A q).entry 2 2] := by
  unfold fixSwapX
  simp only
  split_ifs
  · simp only [conjugated_swapX hs, Mat3.entry, Vec3.get]
    exact List.Perm.cons _ (List.Perm.swap _ _ _)
  · exact List.Perm.refl _

theorem fixSwapZ_perm {sqrt : K → K} (hs : IsSqrt sqrt) (A : Mat3 K) (q : Vec4 K) :
    [(conjugated A (fixSwapZ sqrt A q)).entry 0 0, (conjugated A (fixSwapZ sqrt A q)).entry 1 1,
      (conjugated A (fixSwapZ sqrt A q)).entry 2 2].Perm
    [(conjugated A q).entry 0 0, (conjugated A q).entry 1 1, (conjugated A q).entry 2 2] := by
  unfold fixSwapZ
  simp only
  split_ifs
  · simp only [conjugated_swapZ hs, Mat3.entry, Vec3.get]
    exact List.Perm.swap _ _ _
  · exact List.Perm.refl _

theorem diagFixup_perm {sqrt : K → K} (hs : IsSqrt sqrt) (A : Mat3 K) (q : Vec4 K) :
    [(conjugated A (diagFixup sqrt A q)).entry 0 0, (conjugated A (diagFixup sqrt A q)).entry 1 1,
      (conjugated A (diagFixup sqrt A q)).entry 2 2].Perm
    [(conjugated A q).entry 0 0, (conjugated A q).entry 1 1, (conjugated A q).entry 2 2] := by
  unfold diagFixup
  obtain ⟨z0, z1, z2⟩ := fixFlipZ_diag A
    (fixFlipX (fixSwapZ sqrt A (fixSwapX sqrt A (fixSwapY sqrt A q))))
  obtain ⟨x0, x1, x2⟩ := fixFlipX_diag A (fixSwapZ sqrt A (fixSwapX sqrt A (fixSwapY sqrt A q)))
  rw [z0, z1, z2, x0, x1, x2]
  exact ((fixSwapZ_perm hs A _).trans (fixSwapX_perm hs A _)).trans (fixSwapY_perm hs A q)

theorem diagStep_diag (sqrt : K → K) (a b c : K) :
    diagStep sqrt ⟨⟨a, 0, 0⟩, ⟨0, b, 0⟩, ⟨0, 0, c⟩⟩ ⟨0, 0, 0, 1⟩ = none := by
  unfold diagStep
  simp only [conjugated_identity]
  have hp : pivot (offdiag (⟨⟨a, 0, 0⟩, ⟨0, b, 0⟩, ⟨0, 0, c⟩⟩ : Mat3 K)) = 2 := by
    simp [pivot, offdiag, Mat3.entry, Vec3.get]
  have hj : jacobi sqrt (⟨⟨a, 0, 0⟩, ⟨0, b, 0⟩, ⟨0, 0, c⟩⟩ : Mat3 K) 2 = none := by
    simp [jacobi, offdiag, Mat3.entry, Vec3.get]
  rw [hp, hj]

theorem diagFixup_sorted_input (sqrt : K → K) (a b c : K) (hab : a ≤ b) (hbc : b ≤ c) :
    diagFixup sqrt ⟨⟨a, 0, 0⟩, ⟨0, b, 0⟩, ⟨0, 0, c⟩⟩ ⟨0, 0, 0, 1⟩ = ⟨0, 0, 0, 1⟩ := by
  have hY : fixSwapY sqrt (⟨⟨a, 0, 0⟩, ⟨0, b, 0⟩, ⟨0, 0, c⟩⟩ : Mat3 K) ⟨0, 0, 0, 1⟩ =
      ⟨0, 0, 0, 1⟩ := by
    simp only [fixSwapY, conjugated_identity, Mat3.entry, Vec3.get]
    exact if_neg (not_lt.mpr (le_trans hab hbc))
  have hX : fixSwapX sqrt (⟨⟨a, 0, 0⟩, ⟨0, b, 0⟩, ⟨0, 0, c⟩⟩ : Mat3 K) ⟨0, 0, 0, 1⟩ =
      ⟨0, 0, 0, 1⟩ := by
    simp only [fixSwapX, conjugated_identity, Mat3.entry, Vec3.get]
    exact if_neg (not_lt.mpr hbc)
  have hZ : fixSwapZ sqrt (⟨⟨a, 0, 0⟩, ⟨0, b, 0⟩, ⟨0, 0, c⟩⟩ : Mat3 K) ⟨0, 0, 0, 1⟩ =
      ⟨0, 0, 0, 1⟩ := by
    simp only [fixSwapZ, conjugated_identity, Mat3.entry, Vec3.get]
    exact if_neg (not_lt.mpr hab)
  have hFX : fixFlipX (⟨0, 0, 0, 1⟩ : Vec4 K) = ⟨0, 0, 0, 1⟩ := by
    simp [fixFlipX, qzdir]
  have hFZ : fixFlipZ (⟨0, 0, 0, 1⟩ : Vec4 K) = ⟨0, 0, 0, 1⟩ := by
    simp [fixFlipZ, qydir]
  unfold diagFixup
  rw [hY, hX, hZ, hFX, hFZ]

/-- C26: for a diagonal matrix `A = diag(a, b, c)` the loop of `diagonalizer`
exits at its first step with `q = (0,0,0,1)`; the returned `q` gives
`D = qmat(q)^T * A * qmat(q)` that is diagonal, with diagonal entries in
ascending order and a rearrangement of `(a, b, c)`; and when `a ≤ b ≤ c` the
returned quaternion is exactly `(0,0,0,1)`. -/
theorem diagonalizer_diagonal_input {sqrt : K → K} (hs : IsSqrt sqrt) (a b c : K) :
    diagStep sqrt ⟨⟨a, 0, 0⟩, ⟨0, b, 0⟩, ⟨0, 0, c⟩⟩ ⟨0, 0, 0, 1⟩ = none ∧
      diagLoop sqrt ⟨⟨a, 0, 0⟩, ⟨0, b, 0⟩, ⟨0, 0, c⟩⟩ 24 ⟨0, 0, 0, 1⟩ = ⟨0, 0, 0, 1⟩ ∧
      (conjugated ⟨⟨a, 0, 0⟩, ⟨0, b, 0⟩, ⟨0, 0, c⟩⟩
        (diagonalizer sqrt ⟨⟨a, 0, 0⟩, ⟨0, b, 0⟩, ⟨0, 0, c⟩⟩)).IsDiagonal ∧
      [(conjugated ⟨⟨a, 0, 0⟩, ⟨0, b, 0⟩, ⟨0, 0, c⟩⟩
          (diagonalizer sqrt ⟨⟨a, 0, 0⟩, ⟨0, b, 0⟩, ⟨0, 0, c⟩⟩)).entry 0 0,
        (conjugated ⟨⟨a, 0, 0⟩, ⟨0, b, 0⟩, ⟨0, 0, c⟩⟩
          (diagonalizer sqrt ⟨⟨a, 0, 0⟩, ⟨0, b, 0⟩, ⟨0, 0, c⟩⟩)).entry 1 1,
        (conjugated ⟨⟨a, 0, 0⟩, ⟨0, b, 0⟩, ⟨0, 0, c⟩⟩
          (diagonalizer sqrt ⟨⟨a, 0, 0⟩, ⟨0, b, 0⟩, ⟨0, 0, c⟩⟩)).entry 2 2].Perm [a, b, c] ∧
      (conjugated ⟨⟨a, 0, 0⟩, ⟨0, b, 0⟩, ⟨0, 0, c⟩⟩
          (diagonalizer sqrt ⟨⟨a, 0, 0⟩, ⟨0, b, 0⟩, ⟨0, 0, c⟩⟩)).entry 0 0 ≤
        (conjugated ⟨⟨a, 0, 0⟩, ⟨0, b, 0⟩, ⟨0, 0, c⟩⟩
          (diagonalizer sqrt ⟨⟨a, 0, 0⟩, ⟨0, b, 0⟩, ⟨0, 0, c⟩⟩)).entry 1 1 ∧
      (conjugated ⟨⟨a, 0, 0⟩, ⟨0, b, 0⟩, ⟨0, 0, c⟩⟩
          (diagonalizer sqrt ⟨⟨a, 0, 0⟩, ⟨0, b, 0⟩, ⟨0, 0, c⟩⟩)).entry 1 1 ≤
        (conjugated ⟨⟨a, 0, 0⟩, ⟨0, b, 0⟩, ⟨0, 0, c⟩⟩
          (diagonalizer sqrt ⟨⟨a, 0, 0⟩, ⟨0, b, 0⟩, ⟨0, 0, c⟩⟩)).entry 2 2 ∧
      (a ≤ b → b ≤ c →
        diagonalizer sqrt ⟨⟨a, 0, 0⟩, ⟨0, b, 0⟩, ⟨0, 0, c⟩⟩ = ⟨0, 0, 0, 1⟩) := by
  have hstep := diagStep_diag sqrt a b c
  have hloop : diagLoop sqrt ⟨⟨a, 0, 0⟩, ⟨0, b, 0⟩, ⟨0, 0, c⟩⟩ 24 ⟨0, 0, 0, 1⟩ =
      (⟨0, 0, 0, 1⟩ : Vec4 K) := by
    simp only [diagLoop, hstep]
  have hdiag : (conjugated (⟨⟨a, 0, 0⟩, ⟨0, b, 0⟩, ⟨0, 0, c⟩⟩ : Mat3 K)
      ⟨0, 0, 0, 1⟩).IsDiagonal := by
    rw [conjugated_identity]
    simp [Mat3.IsDiagonal, Mat3.entry, Vec3.get]
  have hperm := diagFixup_perm hs (⟨⟨a, 0, 0⟩, ⟨0, b, 0⟩, ⟨0, 0, c⟩⟩ : Mat3 K) ⟨0, 0, 0, 1⟩
  have hsort := diagFixup_sorted hs (⟨⟨a, 0, 0⟩, ⟨0, b, 0⟩, ⟨0, 0, c⟩⟩ : Mat3 K) ⟨0, 0, 0, 1⟩
  unfold diagonalizer
  rw [hloop]
  refine ⟨hstep, rfl, diagFixup_isDiagonal hs _ _ hdiag, ?_, hsort.1, hsort.2,
    diagFixup_sorted_input sqrt a b c⟩
  rw [conjugated_identity] at hperm
  exact hperm

/-- C26 for `diag(3, 1, 2)` and the real square root. -/
theorem diagonalizer_diagonal_input_witness :
    IsSqrt Real.sqrt ∧
      diagStep Real.sqrt ⟨⟨3, 0, 0⟩, ⟨0, 1, 0⟩, ⟨0, 0, 2⟩⟩ ⟨0, 0, 0, 1⟩ = none ∧
      (conjugated ⟨⟨3, 0, 0⟩, ⟨0, 1, 0⟩, ⟨0, 0, 2⟩⟩
        (diagonalizer Real.sqrt ⟨⟨3, 0, 0⟩, ⟨0, 1, 0⟩, ⟨0, 0, 2⟩⟩)).IsDiagonal :=
  ⟨isSqrt_real, (diagonalizer_diagonal_input isSqrt_real 3 1 2).1,
    (diagonalizer_diagonal_input isSqrt_real 3 1 2).2.2.1⟩

end DiagonalizerDetails

section EuclidTheorems

theorem iterate_measure (μ : List Bool → Nat) (f : List Bool → List Bool) (k : Nat)
    (hf : ∀ p, μ (f p) = μ p + k) : ∀ (n : Nat) (p : List Bool),
    μ (Nat.iterate f n p) = μ p + n * k := by
  intro n
  induction n with
  | zero => intro p; simp
  | succ n ih =>
    intro p
    rw [Function.iterate_succ_apply', hf, ih]
    ring

/-- Every additive measure of the pattern grows by `bjWeight` in a call of
`bjorklund`. -/
theorem bjorklund_measure (μ : List Bool → Nat) (w : Bool → Nat)
    (hμ : ∀ p x, μ (p ++ [x]) = μ p + w x) (counts remainders : List Int) :
    ∀ (m : Nat) (p : List Bool),
      μ (bjorklund counts remainders m p) =
        μ p + bjWeight (w true) (w false) counts remainders m := by
  intro m
  induction m using Nat.strong_induction_on with
  | _ m ih =>
    intro p
    match m, ih with
    | 0, _ => simp only [bjorklund, bjWeight, hμ]
    | 1, _ => simp only [bjorklund, bjWeight, hμ]
    | l + 2, ih =>
      have h1 := ih (l + 1) (by omega)
      have h0 := ih l (by omega)
      simp only [bjorklund, bjWeight]
      split_ifs with h
      · rw [h0, iterate_measure μ _ _ h1]
        ring
      · rw [iterate_measure μ _ _ h1]
        ring

theorem bjWeight_append (a b : Nat) (cs cs2 rs rs2 : List Int) (hlen : cs.length ≤ rs.length) :
    ∀ m : Nat, m ≤ cs.length + 1 →
      bjWeight a b (cs ++ cs2) (rs ++ rs2) m = bjWeight a b cs rs m := by
  intro m
  induction m using Nat.strong_induction_on with
  | _ m ih =>
    intro hm
    match m, ih, hm with
    | 0, _, _ => simp only [bjWeight]
    | 1, _, _ => simp only [bjWeight]
    | l + 2, ih, hm =>
      have h1 := ih (l + 1) (by omega) (by omega)
      have h0 := ih l (by omega) (by omega)
      simp only [bjWeight]
      rw [h1, h0, List.getD_append _ _ _ _ (by omega), List.getD_append _ _ _ _ (by omega)]

theorem bjWeight_append_left (a b : Nat) (cs cs2 rs : List Int) (hlen : cs.length ≤ rs.length)
    (m : Nat) (hm : m ≤ cs.length + 1) :
    bjWeight a b (cs ++ cs2) rs m = bjWeight a b cs rs m := by
  have h := bjWeight_append a b cs cs2 rs [] hlen m hm
  rw [List.append_nil] at h
  exact h

/-- One pass of the loop body keeps the invariant; the new remainder is
`divisor % remainders[level]`, below the old one. -/
theorem euclidInv_step (steps pulses : Int) (s : EuclidState) (hI : EuclidInv steps pulses s)
    (hr : 0 < s.remainders.getD s.level 0) :
    EuclidInv steps pulses
        ⟨s.counts ++ [s.divisor.tdiv (s.remainders.getD s.level 0)],
          s.remainders ++ [s.divisor.tmod (s.remainders.getD s.level 0)],
          (s.remainders ++ [s.divisor.tmod (s.remainders.getD s.level 0)]).getD s.level 0,
          s.level + 1,
          s.divisors ++ [s.remainders.getD s.level 0, s.remainders.getD s.level 0]⟩ ∧
      (s.remainders ++ [s.divisor.tmod (s.remainders.getD s.level 0)]).getD (s.level + 1) 0 =
        s.divisor.tmod (s.remainders.getD s.level 0) ∧
      s.divisor.tmod (s.remainders.getD s.level 0) < s.remainders.getD s.level 0 := by
  obtain ⟨cs, rs, d, lv, dv⟩ := s
  obtain ⟨hc, hl, hd, -, hdv, hW⟩ := hI
  simp only at hc hl hd hdv hW hr ⊢
  generalize hrdef : rs.getD lv 0 = r at *
  have e1 : (rs ++ [d.tmod r]).getD lv 0 = r := by
    rw [List.getD_append _ _ _ _ (by omega), hrdef]
  have e2 : (rs ++ [d.tmod r]).getD (lv + 1) 0 = d.tmod r := by
    rw [List.getD_append_right _ _ _ _ (by omega), hl]
    simp
  have e3 : (cs ++ [d.tdiv r]).getD lv 0 = d.tdiv r := by
    rw [List.getD_append_right _ _ _ _ (by omega), hc]
    simp
  have hq : 0 ≤ d.tdiv r := Int.tdiv_nonneg hd hr.le
  have hm : 0 ≤ d.tmod r := Int.tmod_nonneg _ hd
  have hlt : d.tmod r < r := Int.tmod_lt_of_pos _ hr
  have hdiv : d.tmod r + r * d.tdiv r = d := Int.tmod_add_tdiv d r
  refine ⟨⟨?_, ?_, ?_, ?_, ?_, ?_⟩, e2, hlt⟩
  · simp [hc]
  · simp [hl]
  · simp only [e1]; exact hr.le
  · simp only [e2]; exact hm
  · intro x hx
    simp only [List.mem_append, List.mem_cons, List.mem_singleton, List.not_mem_nil,
      or_false, or_self] at hx
    rcases hx with hx | hx
    · exact hdv x hx
    · rw [hx]; exact hr.ne'
  · intro a b
    simp only [e1, e2]
    have w2 : bjWeight a b (cs ++ [d.tdiv r]) (rs ++ [d.tmod r]) (lv + 1 + 1) =
        (d.tdiv r).toNat * bjWeight a b cs rs (lv + 1) + bjWeight a b cs rs lv := by
      simp only [bjWeight]
      rw [e1, e3, if_pos hr.ne', bjWeight_append a b cs _ rs _ (by omega) (lv + 1) (by omega),
        bjWeight_append a b cs _ rs _ (by omega) lv (by omega)]
    rw [w2, bjWeight_append a b cs _ rs _ (by omega) (lv + 1) (by omega)]
    have h := hW a b
    push_cast
    rw [Int.toNat_of_nonneg hq]
    linear_combination h + (bjWeight a b cs rs (lv + 1) : Int) * hdiv

/-- With a budget of at least the current remainder the loop ends, in a state
that satisfies the invariant and has a last remainder of `0` or `1`. -/
theorem euclidLoop_terminates (steps pulses : Int) :
    ∀ (fuel : Nat) (s : EuclidState), EuclidInv steps pulses s →
      0 < s.remainders.getD s.level 0 → (s.remainders.getD s.level 0).toNat ≤ fuel →
      ∃ s2 : EuclidState, euclidLoop fuel s = Except.ok s2 ∧ EuclidInv steps pulses s2 ∧
        s2.remainders.getD s2.level 0 ≤ 1 := by
  intro fuel
  induction fuel with
  | zero =>
    intro s _ hr hf
    omega
  | succ fuel ih =>
    intro s hI hr hf
    obtain ⟨hI2, e2, hlt⟩ := euclidInv_step steps pulses s hI hr
    unfold euclidLoop
    simp only [if_neg hr.ne']
    split_ifs with hbreak
    · exact ⟨_, rfl, hI2, hbreak⟩
    · push_neg at hbreak
      refine ih _ hI2 (by linarith) ?_
      simp only [e2] at hbreak ⊢
      omega

/-- A larger budget does not change the result of the loop. -/
theorem euclidLoop_mono : ∀ (fuel : Nat) (s s2 : EuclidState),
    euclidLoop fuel s = Except.ok s2 → ∀ k : Nat, euclidLoop (fuel + k) s = Except.ok s2 := by
  intro fuel
  induction fuel with
  | zero =>
    intro s s2 h
    simp [euclidLoop] at h
  | succ fuel ih =>
    intro s s2 h k
    have hk : fuel + 1 + k = (fuel + k) + 1 := by omega
    rw [hk]
    unfold euclidLoop at h ⊢
    simp only at h ⊢
    split_ifs at h ⊢ with h1 h2
    · exact h
    · exact ih _ _ h k

/-- After the loop, with `counts` completed by the last `divisor`, the pushes
of the top level add up to `b * (steps - pulses) + a * pulses`. -/
theorem euclid_final_weight (steps pulses : Int) (s : EuclidState)
    (hI : EuclidInv steps pulses s) (h1 : s.remainders.getD s.level 0 ≤ 1) (a b : Nat) :
    (bjWeight a b (s.counts ++ [s.divisor]) s.remainders (s.level + 2) : Int) =
      (b : Int) * (steps - pulses) + (a : Int) * pulses := by
  obtain ⟨cs, rs, d, lv, dv⟩ := s
  obtain ⟨hc, hl, hd, hr0, -, hW⟩ := hI
  simp only at hc hl hd hr0 hW h1 ⊢
  have e3 : (cs ++ [d]).getD lv 0 = d := by
    rw [List.getD_append_right _ _ _ _ (by omega), hc]
    simp
  have h := hW a b
  simp only [bjWeight]
  rw [e3, bjWeight_append_left a b cs _ rs (by omega) (lv + 1) (by omega),
    bjWeight_append_left a b cs _ rs (by omega) lv (by omega)]
  push_cast
  rw [Int.toNat_of_nonneg hd]
  rcases (by omega : rs.getD lv 0 = 0 ∨ rs.getD lv 0 = 1) with h0 | h0
  · rw [h0] at h
    simp only [h0, ne_eq, not_true_eq_false, if_false]
    linear_combination h
  · rw [h0] at h
    simp only [h0, ne_eq, one_ne_zero, not_false_eq_true, if_true]
    linear_combination h

theorem euclidInv_init (steps pulses : Int) (hp : 0 < pulses) (hps : pulses ≤ steps) :
    EuclidInv steps pulses ⟨[], [pulses], steps - pulses, 0, []⟩ := by
  refine ⟨rfl, rfl, by simp only; omega, by simp only [List.getD_cons_zero]; omega, ?_, ?_⟩
  · intro x hx
    simp at hx
  · intro a b
    simp only [bjWeight, List.getD_cons_zero]

/-- The model run on `steps = 8`, `pulses = 3`: the pattern `x..x..x.` read
from the back, with divisors `3, 3, 2, 2`. -/
theorem make_euclidean_pattern_8_3 :
    make_euclidean_pattern 3 8 3 =
      Except.ok ([false, true, false, false, true, false, false, true], [3, 3, 2, 2]) := by
  rfl

/-- C27: for all integers `steps` and `pulses` with `0 < pulses ≤ steps`,
`make_euclidean_pattern(steps, pulses)` terminates (every loop budget of at
least `pulses` passes gives the same result, and no division by zero occurs)
and returns exactly `steps` booleans of which exactly `pulses` are `true`. -/
theorem euclidean_pattern_shape (steps pulses : Int) (hp : 0 < pulses) (hps : pulses ≤ steps) :
    ∃ (pattern : List Bool) (divisors : List Int),
      (∀ fuel : Nat, pulses.toNat ≤ fuel →
        make_euclidean_pattern fuel steps pulses = Except.ok (pattern, divisors)) ∧
      (pattern.length : Int) = steps ∧ (pattern.count true : Int) = pulses ∧
      ∀ d ∈ divisors, d ≠ 0 := by
  have hI0 := euclidInv_init steps pulses hp hps
  obtain ⟨s, hloop, hI, h1⟩ := euclidLoop_terminates steps pulses pulses.toNat _ hI0
    (by simp only [List.getD_cons_zero]; exact hp) (by simp only [List.getD_cons_zero]; exact le_refl _)
  have hguard : ¬ (pulses > steps ∨ pulses = 0 ∨ steps = 0) := by omega
  refine ⟨bjorklund (s.counts ++ [s.divisor]) s.remainders (s.level + 2) [], s.divisors,
    ?_, ?_, ?_, hI.2.2.2.2.1⟩
  · intro fuel hfuel
    obtain ⟨k, rfl⟩ := Nat.exists_eq_add_of_le hfuel
    unfold make_euclidean_pattern
    simp only [if_neg hguard, euclidLoop_mono _ _ _ hloop k]
  · have hm := bjorklund_measure List.length (fun _ => 1) (by intro p x; simp)
      (s.counts ++ [s.divisor]) s.remainders (s.level + 2) []
    have hw := euclid_final_weight steps pulses s hI h1 1 1
    rw [hm]
    simp only [List.length_nil, Nat.zero_add]
    rw [hw]
    push_cast
    ring
  · have hm := bjorklund_measure (List.count true) (fun x => if x = true then 1 else 0)
      (by intro p x; cases x <;> simp)
      (s.counts ++ [s.divisor]) s.remainders (s.level + 2) []
    have hw := euclid_final_weight steps pulses s hI h1 1 0
    rw [hm]
    simp only [List.count_nil, Nat.zero_add, if_true, Bool.false_eq_true, if_false]
    rw [hw]
    push_cast
    ring

/-- C27 for `steps = 8` and `pulses = 3`. -/
theorem euclidean_pattern_shape_witness :
    (0 : Int) < 3 ∧ (3 : Int) ≤ 8 ∧
      ∃ (pattern : List Bool) (divisors : List Int),
        (∀ fuel : Nat, (3 : Int).toNat ≤ fuel →
          make_euclidean_pattern fuel 8 3 = Except.ok (pattern, divisors)) ∧
        (pattern.length : Int) = 8 ∧ (pattern.count true : Int) = 3 ∧
        ∀ d ∈ divisors, d ≠ 0 :=
  ⟨by decide, by decide, euclidean_pattern_shape 8 3 (by decide) (by decide)⟩

/-- C28: for all integers `steps` and `pulses`, if `pulses > steps` or
`pulses == 0` or `steps == 0` then `make_euclidean_pattern(steps, pulses)`
returns the empty pattern, whatever the loop budget, and the list of divisors
used is empty: no division is performed. -/
theorem euclidean_pattern_rejects (steps pulses : Int)
    (h : pulses > steps ∨ pulses = 0 ∨ steps = 0) (fuel : Nat) :
    make_euclidean_pattern fuel steps pulses = Except.ok ([], []) := by
  unfold make_euclidean_pattern
  simp only [if_pos h]

/-- C28 for `steps = 3` and `pulses = 5`, with no loop budget at all. -/
theorem euclidean_pattern_rejects_witness :
    ((5 : Int) > 3 ∨ (5 : Int) = 0 ∨ (3 : Int) = 0) ∧
      make_euclidean_pattern 0 3 5 = Except.ok ([], []) :=
  ⟨by decide, euclidean_pattern_rejects 3 5 (by decide) 0⟩

/-- Every value computed by the loop stays in `[0, steps]`. -/
theorem euclidLoop_bounded (steps : Int) :
    ∀ (fuel : Nat) (s s2 : EuclidState), euclidLoop fuel s = Except.ok s2 →
      EuclidBounded steps s → 0 < s.remainders.getD s.level 0 → EuclidBounded steps s2 := by
  intro fuel
  induction fuel with
  | zero =>
    intro s s2 h
    simp [euclidLoop] at h
  | succ fuel ih =>
    intro s s2 h hB hr
    obtain ⟨cs, rs, d, lv, dv⟩ := s
    obtain ⟨hd0, hd1, hcs, hrs, hlv⟩ := hB
    simp only at hd0 hd1 hcs hrs hlv hr
    have hmem : rs.getD lv 0 ∈ rs := by
      rw [List.getD_eq_getElem rs 0 hlv]
      exact List.getElem_mem hlv
    generalize hrdef : rs.getD lv 0 = r at *
    have e1 : (rs ++ [d.tmod r]).getD lv 0 = r := by
      rw [List.getD_append _ _ _ _ hlv, hrdef]
    have hq : 0 ≤ d.tdiv r := Int.tdiv_nonneg hd0 hr.le
    have hm : 0 ≤ d.tmod r := Int.tmod_nonneg _ hd0
    have hlt : d.tmod r < r := Int.tmod_lt_of_pos _ hr
    have hdiv : d.tmod r + r * d.tdiv r = d := Int.tmod_add_tdiv d r
    have hqd : d.tdiv r ≤ d := by nlinarith
    have hnext : EuclidBounded steps ⟨cs ++ [d.tdiv r], rs ++ [d.tmod r],
        (rs ++ [d.tmod r]).getD lv 0, lv + 1, dv ++ [r, r]⟩ := by
      refine ⟨?_, ?_, ?_, ?_, ?_⟩
      · simp only [e1]; exact hr.le
      · simp only [e1]; exact (hrs r hmem).2
      · intro x hx
        simp only [List.mem_append, List.mem_singleton] at hx
        rcases hx with hx | hx
        · exact hcs x hx
        · rw [hx]; exact ⟨hq, by linarith⟩
      · intro x hx
        simp only [List.mem_append, List.mem_singleton] at hx
        rcases hx with hx | hx
        · exact hrs x hx
        · rw [hx]; exact ⟨hm, by linarith [(hrs r hmem).2]⟩
      · simp only [List.length_append, List.length_singleton]
        omega
    unfold euclidLoop at h
    simp only [hrdef, if_neg hr.ne'] at h
    split_ifs at h with hbreak
    · simp only [Except.ok.injEq] at h
      rw [← h]
      exact hnext
    · push_neg at hbreak
      exact ih _ _ h hnext (by simp only; linarith)

/-- For `0 < pulses ≤ steps` the loop of `make_euclidean_pattern` only holds
values in `[0, steps]`. -/
theorem euclidLoop_init_bounded (steps pulses : Int) (hp : 0 < pulses) (hps : pulses ≤ steps)
    (fuel : Nat) (s : EuclidState)
    (h : euclidLoop fuel ⟨[], [pulses], steps - pulses, 0, []⟩ = Except.ok s) :
    EuclidBounded steps s := by
  refine euclidLoop_bounded steps fuel _ s h ⟨?_, ?_, ?_, ?_, ?_⟩ ?_
  · simp only; omega
  · simp only; omega
  · intro x hx; simp at hx
  · intro x hx
    simp only [List.mem_singleton] at hx
    rw [hx]; exact ⟨hp.le, hps⟩
  · simp
  · simp only [List.getD_cons_zero]; exact hp

end EuclidTheorems

section VoxelTheorems

theorem wrapInt32_of_range (n : Int) (h0 : -2147483648 ≤ n) (h1 : n < 2147483648) :
    wrapInt32 n = n := by
  unfold wrapInt32
  omega

/-- Quotient and remainder by a positive `s` determine each other. -/
theorem mul_add_unique (s a b a2 b2 : Int) (hb : 0 ≤ b) (hbs : b < s) (hb2 : 0 ≤ b2)
    (hb2s : b2 < s) (h : a * s + b = a2 * s + b2) : a = a2 ∧ b = b2 := by
  have ha : a = a2 := by
    rcases lt_trichotomy a a2 with hlt | heq | hgt
    · have : (a + 1) * s ≤ a2 * s := mul_le_mul_of_nonneg_right (by omega) (by omega)
      linarith
    · exact heq
    · have : (a2 + 1) * s ≤ a * s := mul_le_mul_of_nonneg_right (by omega) (by omega)
      linarith
  subst ha
  exact ⟨rfl, by linarith⟩

/-- Without overflow the index is the mathematical value of the expression
and lies below the number of voxels. -/
theorem voxel_index_exact (size c : Int3) (hx : 0 < size.x) (hy : 0 < size.y)
    (hfit : size.x * size.y * size.z < 2147483648)
    (cx : 0 ≤ c.x ∧ c.x < size.x) (cy : 0 ≤ c.y ∧ c.y < size.y) (cz : 0 ≤ c.z ∧ c.z < size.z) :
    VoxelArray.voxelCount size = size.x * size.y * size.z ∧
      VoxelArray.index size c = c.z * size.x * size.y + c.y * size.x + c.x ∧
      0 ≤ VoxelArray.index size c ∧ VoxelArray.index size c < VoxelArray.voxelCount size := by
  obtain ⟨x0, x1⟩ := cx
  obtain ⟨y0, y1⟩ := cy
  obtain ⟨z0, z1⟩ := cz
  have hxy : 0 < size.x * size.y := mul_pos hx hy
  have e1 : size.x * size.y * 1 ≤ size.x * size.y * size.z :=
    mul_le_mul_of_nonneg_left (by omega) hxy.le
  have e2 : (c.z + 1) * (size.x * size.y) ≤ size.z * (size.x * size.y) :=
    mul_le_mul_of_nonneg_right (by omega) hxy.le
  have e3 : (c.y + 1) * size.x ≤ size.y * size.x :=
    mul_le_mul_of_nonneg_right (by omega) hx.le
  have e4 : 0 ≤ c.z * size.x := mul_nonneg z0 hx.le
  have e5 : 0 ≤ c.z * size.x * size.y := mul_nonneg e4 hy.le
  have e6 : 0 ≤ c.y * size.x := mul_nonneg y0 hx.le
  have e7 : c.z * size.x * 1 ≤ c.z * size.x * size.y :=
    mul_le_mul_of_nonneg_left (by omega) e4
  have hcount : VoxelArray.voxelCount size = size.x * size.y * size.z := by
    unfold VoxelArray.voxelCount
    rw [wrapInt32_of_range (size.x * size.y) (by linarith) (by linarith),
      wrapInt32_of_range _ (by linarith) hfit]
  have hindex : VoxelArray.index size c = c.z * size.x * size.y + c.y * size.x + c.x := by
    unfold VoxelArray.index
    rw [wrapInt32_of_range (c.z * size.x) (by linarith) (by linarith),
      wrapInt32_of_range (c.z * size.x * size.y) (by linarith) (by linarith),
      wrapInt32_of_range (c.y * size.x) (by linarith) (by linarith),
      wrapInt32_of_range (c.z * size.x * size.y + c.y * size.x) (by linarith) (by linarith),
      wrapInt32_of_range _ (by linarith) (by linarith)]
  rw [hcount, hindex]
  exact ⟨rfl, rfl, by linarith, by linarith⟩

/-- C29, counterexample: evaluated in 32-bit `int`, the size `(65536, 65536, 1)`
has positive components, yet `size.x * size.y * size.z` wraps to `0` voxels, so
the index `0` of the in-range coordinate `(0, 0, 0)` is not below the number
of voxels. -/
theorem voxel_index_overflow :
    ¬ ∀ size coords : Int3, 0 < size.x → 0 < size.y → 0 < size.z →
        0 ≤ coords.x ∧ coords.x < size.x → 0 ≤ coords.y ∧ coords.y < size.y →
        0 ≤ coords.z ∧ coords.z < size.z →
        0 ≤ VoxelArray.index size coords ∧
          VoxelArray.index size coords < VoxelArray.voxelCount size := by
  intro h
  have h1 := h ⟨65536, 65536, 1⟩ ⟨0, 0, 0⟩ (by decide) (by decide) (by decide) (by decide)
    (by decide) (by decide)
  revert h1
  decide

/-- C29, amended: for a size with positive components whose product
`sx * sy * sz` fits in an `int` (is below `2^31`) and in-range coordinates, no
`int` operation overflows: the number of voxels is `sx * sy * sz`, the index is
`z * sx * sy + y * sx + x`, it lies in `[0, sx * sy * sz)`, and two in-range
coordinates with the same index are equal. -/
theorem voxel_index_in_bounds (size c1 c2 : Int3)
    (hx : 0 < size.x) (hy : 0 < size.y) (_hz : 0 < size.z)
    (hfit : size.x * size.y * size.z < 2147483648)
    (c1x : 0 ≤ c1.x ∧ c1.x < size.x) (c1y : 0 ≤ c1.y ∧ c1.y < size.y)
    (c1z : 0 ≤ c1.z ∧ c1.z < size.z)
    (c2x : 0 ≤ c2.x ∧ c2.x < size.x) (c2y : 0 ≤ c2.y ∧ c2.y < size.y)
    (c2z : 0 ≤ c2.z ∧ c2.z < size.z) :
    VoxelArray.voxelCount size = size.x * size.y * size.z ∧
      VoxelArray.index size c1 = c1.z * size.x * size.y + c1.y * size.x + c1.x ∧
      0 ≤ VoxelArray.index size c1 ∧ VoxelArray.index size c1 < VoxelArray.voxelCount size ∧
      (VoxelArray.index size c1 = VoxelArray.index size c2 → c1 = c2) := by
  obtain ⟨hc, hi1, h0, hlt⟩ := voxel_index_exact size c1 hx hy hfit c1x c1y c1z
  obtain ⟨-, hi2, -, -⟩ := voxel_index_exact size c2 hx hy hfit c2x c2y c2z
  refine ⟨hc, hi1, h0, hlt, fun heq => ?_⟩
  rw [hi1, hi2] at heq
  have h1 : (c1.z * size.y + c1.y) * size.x + c1.x = (c2.z * size.y + c2.y) * size.x + c2.x := by
    linear_combination heq
  obtain ⟨h2, h3⟩ := mul_add_unique size.x _ _ _ _ c1x.1 c1x.2 c2x.1 c2x.2 h1
  obtain ⟨h4, h5⟩ := mul_add_unique size.y _ _ _ _ c1y.1 c1y.2 c2y.1 c2y.2 h2
  exact Int3.ext h3 h5 h4

/-- C29 (amended) for the size `(4, 3, 2)` and the coordinates `(1, 2, 1)` and
`(3, 0, 1)`. -/
theorem voxel_index_in_bounds_witness :
    VoxelArray.voxelCount ⟨4, 3, 2⟩ = 4 * 3 * 2 ∧
      VoxelArray.index ⟨4, 3, 2⟩ ⟨1, 2, 1⟩ = 1 * 4 * 3 + 2 * 4 + 1 ∧
      0 ≤ VoxelArray.index ⟨4, 3, 2⟩ ⟨1, 2, 1⟩ ∧
      VoxelArray.index ⟨4, 3, 2⟩ ⟨1, 2, 1⟩ < VoxelArray.voxelCount ⟨4, 3, 2⟩ ∧
      (VoxelArray.index ⟨4, 3, 2⟩ ⟨1, 2, 1⟩ = VoxelArray.index ⟨4, 3, 2⟩ ⟨3, 0, 1⟩ →
        (⟨1, 2, 1⟩ : Int3) = ⟨3, 0, 1⟩) :=
  voxel_index_in_bounds ⟨4, 3, 2⟩ ⟨1, 2, 1⟩ ⟨3, 0, 1⟩ (by decide) (by decide) (by decide)
    (by decide) (by decide) (by decide) (by decide) (by decide) (by decide) (by decide)

end VoxelTheorems

section ProjectionTheorems

variable {K : Type} [LinearOrderedField K]

end ProjectionTheorems

end math
